import Mathlib

/-!
# gostack2dot

A shallow embedding of `cmd/gostack2dot/gostack2dot.go`: the aggregation walk of
`main` (call-site registry and transition aggregator) and the DOT rendering
helpers, followed by the properties proved about them.

Modelling conventions.

* Go `int` values that occur here (node IDs, weights, edge counts, the number of
  goroutines) are counters bounded by the number of frames held in memory; they
  are modelled as `Nat`. The products `w*100` and `w*10` of the edge loop are
  not such counters: they are computed as Go does, in a 64-bit two's complement
  `int` that wraps around (`wrapInt`).
* A Go `map[K]V` is an association list with at most one entry per key, kept in
  insertion order; reading an absent key of a `map[K]int` gives `0`.
* A slice index out of range panics in Go; the embedding returns `none` there.
* A goroutine is modelled by the list of its calls (`g.Stack.Calls`), and a
  call by the two strings the program reads from it.
-/

namespace Gostack2dot

/-! ## Data model -/

/-- The part of `stack.Call` the program reads: `c.FullSourceLine()` (the
deduplication key) and `c.Func.PkgDotName()` (the display label). -/
structure Call where
  FullSourceLine : String
  PkgDotName : String
  deriving DecidableEq, Repr

/-- `type edge struct { Source int; Target int }`. -/
structure edge where
  Source : Nat
  Target : Nat
  deriving DecidableEq, Repr

/-- `type node struct { ID int; Label string; Weight int; Call *stack.Call }`;
the `Call` pointer is never read and is left out. -/
structure node where
  ID : Nat
  Label : String
  Weight : Nat
  deriving DecidableEq, Repr

/-- Map read `m[k]` with the comma-ok result: `some v` when the key is present. -/
def mapGet {κ ν : Type} [DecidableEq κ] : List (κ × ν) → κ → Option ν
  | [], _ => none
  | (k', v) :: m, k => if k' = k then some v else mapGet m k

/-- Map write `m[k] = v`: overwrite the entry of `k`, or add one. -/
def mapSet {κ ν : Type} [DecidableEq κ] : List (κ × ν) → κ → ν → List (κ × ν)
  | [], k, v => [(k, v)]
  | (k', v') :: m, k, v => if k' = k then (k, v) :: m else (k', v') :: mapSet m k v

/-- Map read `m[k]` of a `map[K]int`: an absent key reads as `0`. -/
def mapGetD {κ : Type} [DecidableEq κ] (m : List (κ × Nat)) (k : κ) : Nat :=
  (mapGet m k).getD 0

/-- The variables of `main` that live across the whole aggregation walk:
`nodes`, `sourceMap`, `edges` and `max`. -/
structure State where
  nodes : List node
  sourceMap : List (String × Nat)
  edges : List (edge × Nat)
  max : Nat
  deriving DecidableEq, Repr

/-- The state before the walk: `var nodes []node`, two empty maps, `max := 1`. -/
def State.init : State := ⟨[], [], [], 1⟩

/-! ## The aggregation walk -/

/-- Lines 116-134 of the loop body: look the call's signature up in `sourceMap`;
create a node on a miss, bump the node's weight (and `max`) on a hit. Returns the
new state and the local `id`. -/
def intern (st : State) (c : Call) : Option (State × Nat) :=
  match mapGet st.sourceMap c.FullSourceLine with
  | none =>
    let id := st.nodes.length
    some ({ st with
            sourceMap := mapSet st.sourceMap c.FullSourceLine id
            nodes := st.nodes ++ [{ ID := id, Label := c.PkgDotName, Weight := 1 }] }, id)
  | some id =>
    match st.nodes[id]? with
    | none => none
    | some n =>
      let w := n.Weight + 1
      some ({ st with
              nodes := st.nodes.set id { n with Weight := w }
              max := if w > st.max then w else st.max }, id)

/-- Lines 136-138: `if lastNode != nil { edges[edge{Source: id, Target: lastNode.ID}]++ }`.
`lastNode` points at an element of `nodes`; only its `ID` field is read, and that
field is never written after the node is created, so the pointer is modelled by
the node value it pointed at when it was taken. -/
def recordEdge (st : State) (lastNode : Option node) (id : Nat) : State :=
  match lastNode with
  | none => st
  | some ln =>
    let k : edge := { Source := id, Target := ln.ID }
    { st with edges := mapSet st.edges k (mapGetD st.edges k + 1) }

/-- One iteration of the inner loop (lines 115-141) on call `c`: intern, record
the edge to the previous frame, then `lastNode = &nodes[id]`. -/
def visit (st : State) (lastNode : Option node) (c : Call) : Option (State × Option node) :=
  match intern st c with
  | none => none
  | some (st1, id) =>
    let st2 := recordEdge st1 lastNode id
    match st2.nodes[id]? with
    | none => none
    | some n => some (st2, some n)

/-- The inner loop `for _, c := range g.Stack.Calls`, from a given `lastNode`. -/
def walkCalls (st : State) (lastNode : Option node) : List Call → Option State
  | [] => some st
  | c :: cs =>
    match visit st lastNode c with
    | none => none
    | some (st', ln') => walkCalls st' ln' cs

/-- The outer loop `for _, g := range goroutines`; `lastNode` starts `nil` for
every goroutine. -/
def walk (st : State) : List (List Call) → Option State
  | [] => some st
  | g :: gs =>
    match walkCalls st none g with
    | none => none
    | some st' => walk st' gs

/-- Lines 108-142 of `main`: the aggregation walk from the initial state. -/
def aggregate (goroutines : List (List Call)) : Option State :=
  walk State.init goroutines

/-! ## Observations on the walk used to state its properties -/

/-- The input cut after `i` frames of goroutine `j`: the frames the walk has
visited when it is about to visit frame `i` of goroutine `j`. -/
def truncate (goroutines : List (List Call)) (j i : Nat) : List (List Call) :=
  goroutines.take j ++ [(goroutines.getD j []).take i]

/-- Frame `i` of goroutine `j`, when there is one. -/
def frameAt (goroutines : List (List Call)) (j i : Nat) : Option Call :=
  match goroutines[j]? with
  | none => none
  | some g => g[i]?

/-- The node ID that frame `i` of goroutine `j` interns to: the `id` computed by
`intern` when the walk, having visited everything before that frame, visits it. -/
def internedId (goroutines : List (List Call)) (j i : Nat) : Option Nat :=
  match frameAt goroutines j i, aggregate (truncate goroutines j i) with
  | some c, some st => (intern st c).map Prod.snd
  | _, _ => none

/-- Number of positions `i` of goroutine `j` such that frames `i` and `i+1`
both exist, frame `i` interns to `t` and frame `i+1` interns to `s`. -/
def transitionsIn (goroutines : List (List Call)) (j s t : Nat) : Nat :=
  ((List.range ((goroutines.getD j []).length - 1)).filter (fun i =>
    decide (internedId goroutines j i = some t ∧
      internedId goroutines j (i + 1) = some s))).length

/-- The same number, summed over all goroutines. -/
def transitions (goroutines : List (List Call)) (s t : Nat) : Nat :=
  ((List.range goroutines.length).map (fun j => transitionsIn goroutines j s t)).sum

/-- All signatures of the input, in visiting order. -/
def signatures (goroutines : List (List Call)) : List String :=
  goroutines.flatten.map Call.FullSourceLine

/-- The distinct elements of a list in order of first occurrence. -/
def firstSeen {α : Type} [DecidableEq α] (l : List α) : List α :=
  l.foldl (fun acc a => if a ∈ acc then acc else acc ++ [a]) []


/-- The first-seen index of signature `sig` among the signatures of `cs`. -/
def sigIndex (cs : List Call) (sig : String) : Nat :=
  (firstSeen (cs.map Call.FullSourceLine)).indexOf sig

/-- The label of the first call of `cs` whose signature is `sig`. -/
def firstLabel (cs : List Call) (sig : String) : String :=
  match cs.find? (fun c => decide (c.FullSourceLine = sig)) with
  | some c => c.PkgDotName
  | none => ""

/-- The node expected at index `i` for signature `sig` once the calls `cs` have
been visited. -/
def specNode (cs : List Call) (i : Nat) (sig : String) : node :=
  { ID := i, Label := firstLabel cs sig, Weight := (cs.map Call.FullSourceLine).count sig }

/-- The registry part of the state (`nodes`, `sourceMap`, `max`) after the calls
`cs` have been visited, in closed form. -/
structure RegInv (st : State) (cs : List Call) : Prop where
  map : ∀ sig, mapGet st.sourceMap sig =
    if sig ∈ cs.map Call.FullSourceLine then some (sigIndex cs sig) else none
  len : st.nodes.length = (firstSeen (cs.map Call.FullSourceLine)).length
  nodes : ∀ i, st.nodes[i]? =
    ((firstSeen (cs.map Call.FullSourceLine))[i]?).map (specNode cs i)
  wsum : (st.nodes.map node.Weight).sum = cs.length
  max_pos : 1 ≤ st.max
  max_ge : ∀ n ∈ st.nodes, n.Weight ≤ st.max
  max_attained : st.max = 1 ∨ ∃ n ∈ st.nodes, n.Weight = st.max

/-- Number of adjacent pairs `(p, c)` of the frame sequence `prev :: calls`
(with the IDs given by `f`, and `prev` the ID of the frame visited just before
`calls`, if any) whose edge key `(Source = f c, Target = f p)` is `k`. -/
def adjFrom (f : String → Nat) (prev : Option Nat) : List Call → edge → Nat
  | [], _ => 0
  | c :: cs, k =>
    (match prev with
      | some t => if k = ⟨f c.FullSourceLine, t⟩ then 1 else 0
      | none => 0) + adjFrom f (some (f c.FullSourceLine)) cs k

/-- A count as a map entry: absent when zero. -/
def toEntry (n : Nat) : Option Nat := if n = 0 then none else some n

/-! ## Floating point

The program computes a percentage and a font size in `float64`. The values that
occur are non-negative; they are modelled exactly, as dyadic rationals
`m * 2^e`, with IEEE 754 round-to-nearest-even to a 53-bit significand after
every operation. Operands come from Go `int`s, so exponents stay far inside the
range of `float64` and neither overflow nor subnormal results arise. -/

/-- A non-negative `float64`: the finite value `m * 2^e`, `+Inf`, or `NaN`. -/
inductive F64 where
  | fin (m : Nat) (e : Int)
  | inf
  | nan
  deriving DecidableEq, Repr

/-- Number of binary digits of `n`, with `fuel` bounding the recursion. -/
def bitLenAux : Nat → Nat → Nat
  | 0, _ => 0
  | fuel + 1, n => if n = 0 then 0 else bitLenAux fuel (n / 2) + 1

/-- Number of binary digits of `n` (`0` for `n = 0`). -/
def bitLen (n : Nat) : Nat := bitLenAux n n

/-- Round `(q + r) * 2^e` to a 53-bit significand, ties to even, where `r = 0`
when `sticky` is false and `0 < r < 1` when it is true. For an inexact input
`q` has to carry more than 53 bits. -/
def roundBits (q : Nat) (sticky : Bool) (e : Int) : F64 :=
  let len := bitLen q
  if len ≤ 53 then F64.fin q e
  else
    let d := len - 53
    let hi := q / 2 ^ d
    let lo := q % 2 ^ d
    let half := 2 ^ (d - 1)
    let up : Bool := decide (lo > half) || (decide (lo = half) && (sticky || decide (hi % 2 = 1)))
    F64.fin (if up then hi + 1 else hi) (e + d)

/-- Conversion `float64(n)` of a non-negative integer. -/
def F64.ofNat (n : Nat) : F64 := roundBits n false 0

/-- Division `a / b` in `float64`. -/
def F64.div : F64 → F64 → F64
  | F64.fin m₁ e₁, F64.fin m₂ e₂ =>
    if m₂ = 0 then (if m₁ = 0 then F64.nan else F64.inf)
    else if m₁ = 0 then F64.fin 0 0
    else
      let s := bitLen m₂ + 64
      roundBits (m₁ * 2 ^ s / m₂) (decide (m₁ * 2 ^ s % m₂ ≠ 0)) (e₁ - e₂ - s)
  | F64.fin _ _, F64.inf => F64.fin 0 0
  | F64.inf, F64.fin _ _ => F64.inf
  | _, _ => F64.nan

/-- Multiplication `a * b` in `float64`. -/
def F64.mul : F64 → F64 → F64
  | F64.fin m₁ e₁, F64.fin m₂ e₂ => roundBits (m₁ * m₂) false (e₁ + e₂)
  | F64.fin m _, F64.inf => if m = 0 then F64.nan else F64.inf
  | F64.inf, F64.fin m _ => if m = 0 then F64.nan else F64.inf
  | F64.inf, F64.inf => F64.inf
  | _, _ => F64.nan

/-- Comparison `a <= b` in `float64`; false when an operand is `NaN`. -/
def F64.le : F64 → F64 → Bool
  | F64.fin m₁ e₁, F64.fin m₂ e₂ =>
    decide (m₁ * 2 ^ (e₁ - min e₁ e₂).toNat ≤ m₂ * 2 ^ (e₂ - min e₁ e₂).toNat)
  | F64.fin _ _, F64.inf => true
  | F64.inf, F64.inf => true
  | _, _ => false

/-- Integer square root by binary search on the bits `k-1 .. 0`, from the
partial root `r`. -/
def isqrtAux : Nat → Nat → Nat → Nat
  | 0, _, r => r
  | k + 1, n, r => if (r + 2 ^ k) * (r + 2 ^ k) ≤ n then isqrtAux k n (r + 2 ^ k) else isqrtAux k n r

/-- The integer square root of `n`. -/
def isqrt (n : Nat) : Nat := isqrtAux (bitLen n) n 0

/-- The correctly rounded `math.Sqrt`. -/
def F64.sqrt : F64 → F64
  | F64.fin m e =>
    if m = 0 then F64.fin 0 0
    else
      let m' := if e % 2 = 0 then m else 2 * m
      let e' := if e % 2 = 0 then e else e - 1
      let x := m' * 4 ^ 54
      roundBits (isqrt x) (decide (isqrt x * isqrt x ≠ x)) (e' / 2 - 54)
  | F64.inf => F64.inf
  | F64.nan => F64.nan

/-- The conversion `int(math.Ceil(x))` of a finite `x`; `0` stands for the
unspecified result on `+Inf` and `NaN`. -/
def F64.ceilInt : F64 → Nat
  | F64.fin m e => if 0 ≤ e then m * 2 ^ e.toNat else (m + 2 ^ (-e).toNat - 1) / 2 ^ (-e).toNat
  | _ => 0

/-- `strconv.Itoa` on a non-negative integer: its decimal text. -/
def Itoa (n : Nat) : String := Nat.repr n

/-- The verb `%0.2f` of `fmt.Sprintf`: the value rounded to two decimals, half
to even on the exact binary value. -/
def F64.format2 : F64 → String
  | F64.fin m e =>
    let num := m * 100 * 2 ^ e.toNat
    let den := 2 ^ (-e).toNat
    let q := num / den
    let r := num % den
    let n := if 2 * r > den ∨ (2 * r = den ∧ q % 2 = 1) then q + 1 else q
    Itoa (n / 100) ++ "." ++ (if n % 100 < 10 then "0" else "") ++ Itoa (n % 100)
  | F64.inf => "+Inf"
  | F64.nan => "NaN"

/-- The percentage text: `float64(w)/float64(total)*100` under `%0.2f`. -/
def pctText (w total : Nat) : String :=
  ((F64.div (F64.ofNat w) (F64.ofNat total)).mul (F64.ofNat 100)).format2

/-- Lines 150-154: the font size of a node of weight `w`, given `max`. -/
def fontSize (max w : Nat) : Nat :=
  if max > 0 ∧ w > 0 ∧ F64.le (F64.ofNat w) (F64.ofNat max) = true then
    8 + ((F64.fin 16 0).mul (F64.div (F64.ofNat w) (F64.ofNat max)).sqrt).ceilInt
  else 8

/-! ## Rendering -/

/-- `type attribute struct { Name string; Value string }` (`attribute` is a
reserved word here, hence the shorter name). -/
structure attr where
  Name : String
  Value : String
  deriving DecidableEq, Repr

/-- `dotQuote`: `strings.Replace(s, "\"", "\\\"", -1)`, every double quote
replaced by a backslash and a double quote, every other character kept. -/
def dotQuote (s : String) : String :=
  ⟨s.data.flatMap (fun ch => if ch = '"' then ['\\', '"'] else [ch])⟩

/-- The loop of `attributes.String`, from index `i` on, appending to `buf`. -/
def attributesLoop (buf : String) (i : Nat) : List attr → String
  | [] => buf
  | a :: rest =>
    attributesLoop
      (if i > 0 then buf ++ ("," ++ a.Name ++ "=" ++ dotQuote a.Value)
        else buf ++ (a.Name ++ "=" ++ dotQuote a.Value))
      (i + 1) rest

/-- `func (attrs attributes) String() string`. -/
def attributesString (attrs : List attr) : String := attributesLoop "" 0 attrs

/-- `func (w *output) String(s string)`: the output is modelled by the text
written so far; a write is taken to succeed. -/
def outputString (out : String) (s : String) : String := out ++ s

/-- `func (w *output) Byte(b byte)`. -/
def outputByte (out : String) (b : Char) : String := out.push b

/-- `func edgeDot(out *output, source, target string, attrs ...attribute)`. -/
def edgeDot (out : String) (source target : String) (attrs : List attr) : String :=
  if attrs.length > 0 then
    outputString out (source ++ " -> " ++ target ++ "[" ++ attributesString attrs ++ "];\n")
  else
    outputString out (source ++ " -> " ++ target ++ ";\n")

/-- The loop of `nodeDot` over the attributes, from index `i` on. -/
def nodeDotLoop (out : String) (i : Nat) : List attr → String
  | [] => out
  | a :: rest =>
    let out := if i > 0 then outputByte out ',' else out
    let out := outputString out a.Name
    let out := outputString out "=\""
    let out := outputString out (dotQuote a.Value)
    let out := outputByte out '"'
    nodeDotLoop out (i + 1) rest

/-- `func nodeDot(out *output, id string, attrs ...attribute)`. -/
def nodeDot (out : String) (id : String) (attrs : List attr) : String :=
  let out := outputString out id
  let out := outputByte out ' '
  let out := if attrs.length > 0 then outputByte out '[' else out
  let out := nodeDotLoop out 0 attrs
  let out := if attrs.length > 0 then outputByte out ']' else out
  outputString out ";\n"

/-- The value a Go `int` holds for the integer `x`: two's complement on 64 bits,
the size of `int` on 64-bit platforms, so that a result outside
`-2^63 .. 2^63 - 1` wraps around. -/
def wrapInt (x : Int) : Int := (x + 2 ^ 63) % 2 ^ 64 - 2 ^ 63

/-- The expression `1 + w*c/total` of lines 170 and 173 (`c` is 100 or 10) as Go
evaluates it on `int`: the product wraps, the quotient truncates towards zero,
the sum wraps. The divisor is not zero here. -/
def scaledCount (w c total : Nat) : Int :=
  wrapInt (1 + Int.tdiv (wrapInt ((w : Int) * (c : Int))) (total : Int))

/-- Lines 166-175: the attributes of an edge of count `w`, given `total`
goroutines. The integer divisions panic when `total` is zero: `none`.
`strconv.Itoa` is only applied to values above 1, hence to naturals. -/
def edgeAttrs (w total : Nat) : Option (List attr) :=
  if total = 0 then none
  else
    let attrs : List attr := [⟨"label", Itoa w⟩]
    let weight := scaledCount w 100 total
    let attrs := if weight > 1 then attrs ++ [⟨"weight", Itoa weight.toNat⟩] else attrs
    let width := scaledCount w 10 total
    let attrs := if width > 1 then attrs ++ [⟨"penwidth", Itoa width.toNat⟩] else attrs
    some attrs

/-- Lines 165-177, one iteration: the statement written for edge `e` of count `w`. -/
def edgeStmt (out : String) (e : edge) (w total : Nat) : Option String :=
  match edgeAttrs w total with
  | none => none
  | some attrs => some (edgeDot out ("N" ++ Itoa e.Source) ("N" ++ Itoa e.Target) attrs)

/-- Line 147: `fmt.Sprintf("%s\n%d of %d (%0.2f%%)", ...)`. -/
def nodeLabel (n : node) (total : Nat) : String :=
  n.Label ++ "\n" ++ Itoa n.Weight ++ " of " ++ Itoa total ++ " (" ++ pctText n.Weight total ++ "%)"

/-- Lines 146-162, one iteration: the statement written for node `n`. -/
def nodeStmt (out : String) (n : node) (total max : Nat) : String :=
  nodeDot out ("N" ++ Itoa n.ID)
    [⟨"fontsize", Itoa (fontSize max n.Weight)⟩, ⟨"label", nodeLabel n total⟩, ⟨"shape", "box"⟩]

/-! ## The whole program -/

/-- Lines 146-162: the loop `for _, n := range nodes`, in slice order. -/
def renderNodes (out : String) (total max : Nat) : List node → String
  | [] => out
  | n :: rest => renderNodes (nodeStmt out n total max) total max rest

/-- Lines 165-177: the loop `for e, w := range edges` over the entries of the
map in the order `order` in which the iteration yields them. -/
def renderEdges (out : String) (total : Nat) : List (edge × Nat) → Option String
  | [] => some out
  | (e, w) :: rest =>
    match edgeStmt out e w total with
    | none => none
    | some out' => renderEdges out' total rest

/-- The body of `main` after the dump has been parsed into `goroutines`: the
two header lines, the aggregation walk, the node statements, the edge
statements and the closing line. Go leaves the iteration order of a map
unspecified; `order` is the order in which `range edges` yields the entries.
The result is the text written, or `none` when the program panics. -/
def main (goroutines : List (List Call)) (order : List (edge × Nat)) : Option String :=
  let out := outputString "" "digraph goroutines \x7b\n"
  let out := outputString out "node [style=filled fillcolor=\"#f8f8f8\"];\n"
  match aggregate goroutines with
  | none => none
  | some st =>
    let total := goroutines.length
    let out := renderNodes out total st.max st.nodes
    match renderEdges out total order with
    | none => none
    | some out => some (outputString out "\x7d\n")

/-- A run of the program on `goroutines` writes `out`: the text of `main`
for some iteration order of the entries of the edge map. -/
def Emits (goroutines : List (List Call)) (out : String) : Prop :=
  ∃ st order, aggregate goroutines = some st ∧ order.Perm st.edges ∧
    main goroutines order = some out

/-- Following the spec's words: the maximum node weight computed by a second
pass over the finished node set (`0` for no node). -/
def maxWeightPass (nodes : List node) : Nat :=
  nodes.foldl (fun m n => if n.Weight > m then n.Weight else m) 0

/-- Following the claim's words: a number of hundredths `h` printed with two
decimals: the decimal text of the whole part, a point, and the two digits of
the hundredths. -/
def twoDecimals (h : Nat) : String :=
  Itoa (h / 100) ++ "." ++ String.mk [Nat.digitChar (h % 100 / 10), Nat.digitChar (h % 10)]

/-- Following the claim's words: the body of a quoted string of the graph
language, scanned after the opening double quote. A backslash followed by a
double quote is an escape pair that stands for a double quote; the first double
quote outside such a pair ends the string. Returns the decoded content and the
input left after the closing quote; `none` when the string is not closed. -/
def scanBody : List Char → Option (List Char × List Char)
  | [] => none
  | [c] => if c = '"' then some ([], []) else none
  | c :: d :: rest =>
    if c = '"' then some ([], d :: rest)
    else if c = '\\' ∧ d = '"' then (scanBody rest).map (fun p => ('"' :: p.1, p.2))
    else (scanBody (d :: rest)).map (fun p => (c :: p.1, p.2))

/-- A quoted string: an opening double quote, then `scanBody`. -/
def scanQuoted : List Char → Option (List Char × List Char)
  | [] => none
  | c :: rest => if c = '"' then scanBody rest else none

/-- The character list of `dotQuote`, by recursion on the input. -/
def escapeChars : List Char → List Char
  | [] => []
  | c :: v => if c = '"' then '\\' :: '"' :: escapeChars v else c :: escapeChars v

/-- The well-formedness of the edge map: one entry per key, every count at
least one, both ends of every key below the number of nodes. -/
structure EdgeInv (st : State) : Prop where
  nodup : (st.edges.map Prod.fst).Nodup
  entry : ∀ p ∈ st.edges, 1 ≤ p.2 ∧ p.1.Source < st.nodes.length ∧ p.1.Target < st.nodes.length

/-- The text of the statement of edge `e` of count `w`: the key, then the
attributes `label`, `weight` and `penwidth` as `edgeDot` writes them. -/
def edgeLine (e : edge) (w total : Nat) : String :=
  "N" ++ Itoa e.Source ++ " -> " ++ ("N" ++ Itoa e.Target)
    ++ "[" ++ ("label=" ++ Itoa w
    ++ (if scaledCount w 100 total > 1 then
          ",weight=" ++ Itoa (scaledCount w 100 total).toNat else "")
    ++ (if scaledCount w 10 total > 1 then
          ",penwidth=" ++ Itoa (scaledCount w 10 total).toNat else ""))
    ++ "];\n"

/-- The concatenation of a list of texts, in order. -/
def concatText : List String → String
  | [] => ""
  | s :: rest => s ++ concatText rest

/-! ## The value of a `float64` and the parts of a rounding -/

/-- The rational value of a finite `F64` (`0` for `+Inf` and `NaN`). -/
def F64.val : F64 → ℚ
  | F64.fin m e => (m : ℚ) * (2 : ℚ) ^ e
  | _ => 0

/-- The number of low bits `roundBits` drops from `q`. -/
def rbShift (q : Nat) : Nat := bitLen q - 53

/-- The significand `roundBits` keeps of `q`. -/
def rbMant (q : Nat) (sticky : Bool) : Nat :=
  if bitLen q ≤ 53 then q
  else
    if (decide (q % 2 ^ (bitLen q - 53) > 2 ^ (bitLen q - 53 - 1)) ||
        (decide (q % 2 ^ (bitLen q - 53) = 2 ^ (bitLen q - 53 - 1)) &&
          (sticky || decide (q / 2 ^ (bitLen q - 53) % 2 = 1)))) then
      q / 2 ^ (bitLen q - 53) + 1
    else q / 2 ^ (bitLen q - 53)

/-- The integer `roundBits q sticky 0` stands for. -/
def rbVal (q : Nat) (sticky : Bool) : Nat := rbMant q sticky * 2 ^ rbShift q

/-! ## Map lemmas -/

theorem mapGet_mapSet_self {κ ν : Type} [DecidableEq κ] (m : List (κ × ν)) (k : κ) (v : ν) :
    mapGet (mapSet m k v) k = some v := by
  induction m with
  | nil => simp [mapSet, mapGet]
  | cons p m ih =>
    obtain ⟨k', v'⟩ := p
    by_cases h : k' = k
    · simp [mapSet, mapGet, h]
    · simp [mapSet, mapGet, h, ih]

theorem mapGet_mapSet_ne {κ ν : Type} [DecidableEq κ] (m : List (κ × ν)) (k k₁ : κ) (v : ν)
    (hne : k ≠ k₁) : mapGet (mapSet m k v) k₁ = mapGet m k₁ := by
  induction m with
  | nil => simp [mapSet, mapGet, hne]
  | cons p m ih =>
    obtain ⟨k', v'⟩ := p
    by_cases h : k' = k
    · subst h
      simp [mapSet, mapGet, hne]
    · by_cases h₁ : k' = k₁
      · subst h₁
        simp [mapSet, mapGet, h]
      · simp [mapSet, mapGet, h, h₁, ih]

theorem mapGet_isSome_iff {κ ν : Type} [DecidableEq κ] (m : List (κ × ν)) (k : κ) :
    (mapGet m k).isSome = true ↔ k ∈ m.map Prod.fst := by
  induction m with
  | nil => simp [mapGet]
  | cons p m ih =>
    obtain ⟨k', v'⟩ := p
    by_cases h : k' = k
    · simp [mapGet, h]
    · have h' : ¬ k = k' := fun e => h e.symm
      simp only [mapGet, h, if_false, ih, List.map_cons, List.mem_cons, h', false_or]

theorem sum_mapSet_incr {κ : Type} [DecidableEq κ] (m : List (κ × Nat)) (k : κ) :
    ((mapSet m k (mapGetD m k + 1)).map Prod.snd).sum = (m.map Prod.snd).sum + 1 := by
  induction m with
  | nil => simp [mapSet, mapGetD, mapGet]
  | cons p m ih =>
    obtain ⟨k', v'⟩ := p
    by_cases h : k' = k
    · simp [mapSet, mapGetD, mapGet, h]; omega
    · have : mapGetD ((k', v') :: m) k = mapGetD m k := by simp [mapGetD, mapGet, h]
      rw [this]
      simp [mapSet, h, ih]; omega

/-! ## First-seen order -/

theorem firstSeen_snoc {α : Type} [DecidableEq α] (l : List α) (a : α) :
    firstSeen (l ++ [a]) = if a ∈ firstSeen l then firstSeen l else firstSeen l ++ [a] := by
  simp [firstSeen, List.foldl_append]

theorem mem_firstSeen {α : Type} [DecidableEq α] (l : List α) (a : α) :
    a ∈ firstSeen l ↔ a ∈ l := by
  induction l using List.reverseRecOn generalizing a with
  | nil => simp [firstSeen]
  | append_singleton l b ih =>
    rw [firstSeen_snoc]
    by_cases hb : b ∈ firstSeen l
    · rw [if_pos hb, ih, List.mem_append, List.mem_singleton]
      constructor
      · exact Or.inl
      · rintro (h | h)
        · exact h
        · rw [h]; exact (ih b).mp hb
    · rw [if_neg hb]
      simp [List.mem_append, ih]

theorem nodup_firstSeen {α : Type} [DecidableEq α] (l : List α) : (firstSeen l).Nodup := by
  induction l using List.reverseRecOn with
  | nil => simp [firstSeen]
  | append_singleton l b ih =>
    rw [firstSeen_snoc]
    by_cases hb : b ∈ firstSeen l
    · rw [if_pos hb]; exact ih
    · rw [if_neg hb]
      exact List.Nodup.append ih (List.nodup_singleton b) (by simpa using hb)

theorem firstSeen_append_prefix {α : Type} [DecidableEq α] (l l' : List α) :
    ∃ r, firstSeen (l ++ l') = firstSeen l ++ r := by
  induction l' using List.reverseRecOn with
  | nil => exact ⟨[], by simp⟩
  | append_singleton l' b ih =>
    obtain ⟨r, hr⟩ := ih
    rw [← List.append_assoc, firstSeen_snoc, hr]
    by_cases hb : b ∈ firstSeen l ++ r
    · exact ⟨r, by rw [if_pos hb]⟩
    · exact ⟨r ++ [b], by rw [if_neg hb, List.append_assoc]⟩

theorem indexOf_firstSeen_append {α : Type} [DecidableEq α] (l l' : List α) (a : α)
    (ha : a ∈ l) : (firstSeen (l ++ l')).indexOf a = (firstSeen l).indexOf a := by
  obtain ⟨r, hr⟩ := firstSeen_append_prefix l l'
  rw [hr]
  exact List.indexOf_append_of_mem ((mem_firstSeen l a).mpr ha)

theorem length_firstSeen {α : Type} [DecidableEq α] (l : List α) :
    (firstSeen l).length = l.dedup.length := by
  apply List.Perm.length_eq
  rw [List.perm_ext_iff_of_nodup (nodup_firstSeen l) (List.nodup_dedup l)]
  intro a
  rw [mem_firstSeen, List.mem_dedup]

/-! ## The registry invariant -/

theorem firstLabel_append_of_mem (cs more : List Call) (sig : String)
    (h : sig ∈ cs.map Call.FullSourceLine) : firstLabel (cs ++ more) sig = firstLabel cs sig := by
  obtain ⟨c, hc, hsig⟩ := List.mem_map.mp h
  unfold firstLabel
  rw [List.find?_append]
  cases hf : cs.find? (fun c => decide (c.FullSourceLine = sig)) with
  | some d => simp
  | none =>
    rw [List.find?_eq_none] at hf
    exact absurd (by simpa using hsig) (hf c hc)

theorem firstLabel_snoc_of_not_mem (cs : List Call) (c : Call)
    (h : c.FullSourceLine ∉ cs.map Call.FullSourceLine) :
    firstLabel (cs ++ [c]) c.FullSourceLine = c.PkgDotName := by
  unfold firstLabel
  rw [List.find?_append]
  have hf : cs.find? (fun d => decide (d.FullSourceLine = c.FullSourceLine)) = none := by
    rw [List.find?_eq_none]
    intro d hd hdec
    exact h (List.mem_map.mpr ⟨d, hd, by simpa using hdec⟩)
  rw [hf]
  simp

theorem sigIndex_append_of_mem (cs more : List Call) (sig : String)
    (h : sig ∈ cs.map Call.FullSourceLine) : sigIndex (cs ++ more) sig = sigIndex cs sig := by
  unfold sigIndex
  rw [List.map_append]
  exact indexOf_firstSeen_append _ _ _ h

theorem sum_weight_set (l : List node) (i : Nat) (n n' : node) (h : l[i]? = some n) :
    ((l.set i n').map node.Weight).sum + n.Weight = (l.map node.Weight).sum + n'.Weight := by
  induction l generalizing i with
  | nil => simp at h
  | cons a l ih =>
    cases i with
    | zero =>
      simp at h
      subst h
      simp; omega
    | succ i =>
      simp at h
      have := ih i h
      simp only [List.set_cons_succ, List.map_cons, List.sum_cons]
      omega

theorem RegInv.init : RegInv State.init [] := by
  refine ⟨?_, ?_, ?_, ?_, ?_, ?_, ?_⟩ <;> simp [State.init, mapGet, firstSeen]

theorem intern_of_miss (st : State) (c : Call)
    (h : mapGet st.sourceMap c.FullSourceLine = none) :
    intern st c = some (⟨st.nodes ++ [⟨st.nodes.length, c.PkgDotName, 1⟩],
      mapSet st.sourceMap c.FullSourceLine st.nodes.length, st.edges, st.max⟩,
      st.nodes.length) := by
  simp [intern, h]

theorem intern_of_hit (st : State) (c : Call) (i : Nat) (n : node)
    (h : mapGet st.sourceMap c.FullSourceLine = some i) (hn : st.nodes[i]? = some n) :
    intern st c = some (⟨st.nodes.set i ⟨n.ID, n.Label, n.Weight + 1⟩, st.sourceMap, st.edges,
      if n.Weight + 1 > st.max then n.Weight + 1 else st.max⟩, i) := by
  simp [intern, h, hn]

theorem intern_edges (st st' : State) (c : Call) (id : Nat)
    (h : intern st c = some (st', id)) : st'.edges = st.edges := by
  unfold intern at h
  split at h
  · simp at h; rw [← h.1]
  · split at h
    · simp at h
    · simp at h; rw [← h.1]

theorem RegInv.node_of_mem {st : State} {cs : List Call} (h : RegInv st cs) {sig : String}
    (hmem : sig ∈ cs.map Call.FullSourceLine) :
    st.nodes[sigIndex cs sig]? = some (specNode cs (sigIndex cs sig) sig) := by
  rw [h.nodes]
  have : (firstSeen (cs.map Call.FullSourceLine))[sigIndex cs sig]? = some sig :=
    List.getElem?_indexOf ((mem_firstSeen _ _).mpr hmem)
  rw [this]
  rfl

theorem RegInv.index_eq {st : State} {cs : List Call} (_h : RegInv st cs) {sig : String} {i : Nat}
    (hi : (firstSeen (cs.map Call.FullSourceLine))[i]? = some sig) :
    sigIndex cs sig = i ∧ sig ∈ cs.map Call.FullSourceLine := by
  obtain ⟨hlt, hget⟩ := List.getElem?_eq_some_iff.mp hi
  constructor
  · unfold sigIndex
    rw [← hget]
    exact List.indexOf_getElem (nodup_firstSeen _) i hlt
  · rw [← mem_firstSeen, ← hget]
    exact List.getElem_mem hlt

theorem RegInv.step_hit {st : State} {cs : List Call} (h : RegInv st cs) (c : Call)
    (hmem : c.FullSourceLine ∈ cs.map Call.FullSourceLine) (n : node)
    (hn : st.nodes[sigIndex cs c.FullSourceLine]? = some n) :
    RegInv ⟨st.nodes.set (sigIndex cs c.FullSourceLine) ⟨n.ID, n.Label, n.Weight + 1⟩,
      st.sourceMap, st.edges, if n.Weight + 1 > st.max then n.Weight + 1 else st.max⟩
      (cs ++ [c]) := by
  have hnode := h.node_of_mem hmem
  have hneq : n = specNode cs (sigIndex cs c.FullSourceLine) c.FullSourceLine := by
    rw [hn] at hnode
    exact Option.some.inj hnode
  have hfs : firstSeen ((cs ++ [c]).map Call.FullSourceLine)
      = firstSeen (cs.map Call.FullSourceLine) := by
    rw [List.map_append, List.map_singleton, firstSeen_snoc,
      if_pos ((mem_firstSeen _ _).mpr hmem)]
  have hlt : sigIndex cs c.FullSourceLine < st.nodes.length := by
    rw [h.len]
    exact List.indexOf_lt_length.mpr ((mem_firstSeen _ _).mpr hmem)
  have hmaxpos := h.max_pos
  refine ⟨?_, ?_, ?_, ?_, ?_, ?_, ?_⟩
  · intro sig
    show mapGet st.sourceMap sig = _
    rw [h.map]
    by_cases hs : sig ∈ cs.map Call.FullSourceLine
    · have hs' : sig ∈ (cs ++ [c]).map Call.FullSourceLine := by
        rw [List.map_append]; exact List.mem_append_left _ hs
      rw [if_pos hs, if_pos hs', sigIndex_append_of_mem _ _ _ hs]
    · have hs' : sig ∉ (cs ++ [c]).map Call.FullSourceLine := by
        rw [List.map_append, List.mem_append]
        rintro (h1 | h1)
        · exact hs h1
        · simp at h1
          exact hs (h1 ▸ hmem)
      rw [if_neg hs, if_neg hs']
  · dsimp only
    rw [List.length_set, hfs, h.len]
  · intro i
    dsimp only
    rw [hfs, List.getElem?_set]
    by_cases hi : sigIndex cs c.FullSourceLine = i
    · subst hi
      have hg : (firstSeen (cs.map Call.FullSourceLine))[sigIndex cs c.FullSourceLine]?
          = some c.FullSourceLine := List.getElem?_indexOf ((mem_firstSeen _ _).mpr hmem)
      rw [if_pos rfl, if_pos hlt, hg, hneq]
      simp only [Option.map_some', specNode, List.map_append, List.map_singleton,
        List.count_append, List.count_singleton, beq_self_eq_true, if_true]
      rw [firstLabel_append_of_mem _ _ _ hmem]
    · rw [if_neg hi, h.nodes]
      cases hget : (firstSeen (cs.map Call.FullSourceLine))[i]? with
      | none => rfl
      | some sig =>
        obtain ⟨hidx, hsmem⟩ := h.index_eq hget
        have hne : ¬ c.FullSourceLine = sig := by
          intro e
          exact hi (e ▸ hidx)
        simp only [Option.map_some', specNode, List.map_append, List.map_singleton,
          List.count_append, List.count_singleton, beq_iff_eq, hne, if_false, Nat.add_zero]
        rw [firstLabel_append_of_mem _ _ _ hsmem]
  · dsimp only
    have := sum_weight_set st.nodes _ n ⟨n.ID, n.Label, n.Weight + 1⟩ hn
    have hw := h.wsum
    simp only [List.length_append, List.length_singleton] at *
    omega
  · dsimp only
    split <;> omega
  · intro m hm
    dsimp only at hm ⊢
    rcases List.mem_or_eq_of_mem_set hm with hm' | hm'
    · have := h.max_ge m hm'
      split <;> omega
    · subst hm'
      dsimp only
      split <;> omega
  · dsimp only
    by_cases hgt : n.Weight + 1 > st.max
    · rw [if_pos hgt]
      right
      exact ⟨_, List.getElem?_mem (List.getElem?_set_self hlt), rfl⟩
    · rw [if_neg hgt]
      rcases h.max_attained with h1 | ⟨m, hm, hmw⟩
      · exact Or.inl h1
      · right
        obtain ⟨j, hj⟩ := List.mem_iff_getElem?.mp hm
        have hjne : sigIndex cs c.FullSourceLine ≠ j := by
          intro e
          rw [← e, hn] at hj
          have hj' := Option.some.inj hj
          rw [← hj'] at hmw
          omega
        refine ⟨m, ?_, hmw⟩
        apply List.getElem?_mem (n := j)
        rw [List.getElem?_set_ne hjne]
        exact hj

theorem RegInv.step_miss {st : State} {cs : List Call} (h : RegInv st cs) (c : Call)
    (hmem : c.FullSourceLine ∉ cs.map Call.FullSourceLine) :
    RegInv ⟨st.nodes ++ [⟨st.nodes.length, c.PkgDotName, 1⟩],
      mapSet st.sourceMap c.FullSourceLine st.nodes.length, st.edges, st.max⟩ (cs ++ [c]) := by
  have hfs : firstSeen ((cs ++ [c]).map Call.FullSourceLine)
      = firstSeen (cs.map Call.FullSourceLine) ++ [c.FullSourceLine] := by
    rw [List.map_append, List.map_singleton, firstSeen_snoc,
      if_neg (fun hh => hmem ((mem_firstSeen _ _).mp hh))]
  have hnf : c.FullSourceLine ∉ firstSeen (cs.map Call.FullSourceLine) :=
    fun hh => hmem ((mem_firstSeen _ _).mp hh)
  have hidx : sigIndex (cs ++ [c]) c.FullSourceLine = st.nodes.length := by
    unfold sigIndex
    rw [hfs, List.indexOf_append_of_not_mem hnf, List.indexOf_cons_self, h.len]
    rfl
  have hmaxpos := h.max_pos
  refine ⟨?_, ?_, ?_, ?_, ?_, ?_, ?_⟩
  · intro sig
    dsimp only
    by_cases hs : c.FullSourceLine = sig
    · subst hs
      rw [mapGet_mapSet_self, if_pos (by simp), hidx]
    · rw [mapGet_mapSet_ne _ _ _ _ hs, h.map]
      by_cases hs1 : sig ∈ cs.map Call.FullSourceLine
      · have hs' : sig ∈ (cs ++ [c]).map Call.FullSourceLine := by
          rw [List.map_append]; exact List.mem_append_left _ hs1
        rw [if_pos hs1, if_pos hs', sigIndex_append_of_mem _ _ _ hs1]
      · have hs' : sig ∉ (cs ++ [c]).map Call.FullSourceLine := by
          rw [List.map_append, List.mem_append]
          rintro (h1 | h1)
          · exact hs1 h1
          · simp at h1
            exact hs h1.symm
        rw [if_neg hs1, if_neg hs']
  · dsimp only
    rw [hfs, List.length_append, List.length_append, h.len]
    rfl
  · intro i
    dsimp only
    rw [hfs, List.getElem?_append, List.getElem?_append, ← h.len]
    by_cases hi : i < st.nodes.length
    · rw [if_pos hi, if_pos hi, h.nodes]
      cases hget : (firstSeen (cs.map Call.FullSourceLine))[i]? with
      | none => rfl
      | some sig =>
        obtain ⟨_, hsmem⟩ := h.index_eq hget
        have hne : ¬ c.FullSourceLine = sig := fun e => hmem (e ▸ hsmem)
        simp only [Option.map_some', specNode, List.map_append, List.map_singleton,
          List.count_append, List.count_singleton, beq_iff_eq, hne, if_false, Nat.add_zero]
        rw [firstLabel_append_of_mem _ _ _ hsmem]
    · rw [if_neg hi, if_neg hi]
      cases hk : i - st.nodes.length with
      | zero =>
        have hi' : i = st.nodes.length := by omega
        subst hi'
        simp only [List.getElem?_cons_zero, Option.map_some', specNode, List.map_append,
          List.map_singleton, List.count_append, List.count_singleton, beq_self_eq_true, if_true,
          List.count_eq_zero_of_not_mem hmem, Nat.zero_add]
        rw [firstLabel_snoc_of_not_mem _ _ hmem]
      | succ k => simp
  · dsimp only
    have hw := h.wsum
    simp only [List.map_append, List.sum_append, List.length_append, List.length_singleton,
      List.map_cons, List.map_nil, List.sum_cons, List.sum_nil]
    omega
  · exact hmaxpos
  · intro m hm
    dsimp only at hm ⊢
    rcases List.mem_append.mp hm with hm' | hm'
    · exact h.max_ge m hm'
    · simp at hm'
      subst hm'
      exact hmaxpos
  · dsimp only
    rcases h.max_attained with h1 | ⟨m, hm, hmw⟩
    · exact Or.inl h1
    · exact Or.inr ⟨m, List.mem_append_left _ hm, hmw⟩

/-- One interning step from a state that satisfies the registry invariant
succeeds, returns the first-seen index of the call's signature and leaves the
edge map alone. -/
theorem intern_spec {st : State} {cs : List Call} (h : RegInv st cs) (c : Call) :
    ∃ st', intern st c = some (st', sigIndex (cs ++ [c]) c.FullSourceLine) ∧
      RegInv st' (cs ++ [c]) ∧ st'.edges = st.edges := by
  by_cases hmem : c.FullSourceLine ∈ cs.map Call.FullSourceLine
  · have hget := h.map c.FullSourceLine
    rw [if_pos hmem] at hget
    have hnode := h.node_of_mem hmem
    refine ⟨_, ?_, h.step_hit c hmem _ hnode, rfl⟩
    rw [sigIndex_append_of_mem _ _ _ hmem]
    exact intern_of_hit st c _ _ hget hnode
  · have hget := h.map c.FullSourceLine
    rw [if_neg hmem] at hget
    have hnf : c.FullSourceLine ∉ firstSeen (cs.map Call.FullSourceLine) :=
      fun hh => hmem ((mem_firstSeen _ _).mp hh)
    have hidx : sigIndex (cs ++ [c]) c.FullSourceLine = st.nodes.length := by
      unfold sigIndex
      rw [List.map_append, List.map_singleton, firstSeen_snoc, if_neg hnf,
        List.indexOf_append_of_not_mem hnf, List.indexOf_cons_self, h.len]
      rfl
    refine ⟨_, ?_, h.step_miss c hmem, rfl⟩
    rw [hidx]
    exact intern_of_miss st c hget

/-! ## The walk invariant -/

theorem RegInv.recordEdge {st : State} {cs : List Call} (h : RegInv st cs)
    (ln : Option node) (id : Nat) : RegInv (recordEdge st ln id) cs := by
  cases ln with
  | none => exact h
  | some n => exact ⟨h.map, h.len, h.nodes, h.wsum, h.max_pos, h.max_ge, h.max_attained⟩

theorem recordEdge_nodes (st : State) (ln : Option node) (id : Nat) :
    (recordEdge st ln id).nodes = st.nodes := by
  cases ln <;> rfl

theorem recordEdge_spec (st : State) (ln : Option node) (id : Nat) (E : edge → Nat)
    (hE : ∀ k, mapGet st.edges k = toEntry (E k)) (k : edge) :
    mapGet (recordEdge st ln id).edges k = toEntry (E k +
      (match ln.map node.ID with
        | some t => if k = ⟨id, t⟩ then 1 else 0
        | none => 0)) := by
  cases ln with
  | none => simpa [recordEdge] using hE k
  | some n =>
    have hD : mapGetD st.edges ⟨id, n.ID⟩ = E ⟨id, n.ID⟩ := by
      unfold mapGetD
      rw [hE]
      unfold toEntry
      split <;> simp_all
    simp only [recordEdge, Option.map_some', hD]
    by_cases hk : k = ⟨id, n.ID⟩
    · subst hk
      rw [mapGet_mapSet_self, if_pos rfl]
      simp [toEntry]
    · rw [mapGet_mapSet_ne _ _ _ _ (fun e => hk e.symm), if_neg hk, hE]
      rfl

theorem walkCalls_spec (total : List Call) :
    ∀ (rest : List Call) (st : State) (ln : Option node) (cs more : List Call) (E : edge → Nat),
      cs ++ rest ++ more = total → RegInv st cs →
      (∀ k, mapGet st.edges k = toEntry (E k)) →
      ∃ st', walkCalls st ln rest = some st' ∧ RegInv st' (cs ++ rest) ∧
        ∀ k, mapGet st'.edges k =
          toEntry (E k + adjFrom (sigIndex total) (ln.map node.ID) rest k) := by
  intro rest
  induction rest with
  | nil =>
    intro st ln cs more E _ h hE
    exact ⟨st, rfl, by simpa using h, by simpa [adjFrom] using hE⟩
  | cons c rest ih =>
    intro st ln cs more E htot h hE
    obtain ⟨st1, hint, hreg1, hedges1⟩ := intern_spec h c
    have hcmem : c.FullSourceLine ∈ (cs ++ [c]).map Call.FullSourceLine := by simp
    have hid : sigIndex (cs ++ [c]) c.FullSourceLine = sigIndex total c.FullSourceLine := by
      have : total = (cs ++ [c]) ++ (rest ++ more) := by rw [← htot]; simp
      rw [this, sigIndex_append_of_mem _ _ _ hcmem]
    have hnode := hreg1.node_of_mem hcmem
    have hreg2 := hreg1.recordEdge ln (sigIndex (cs ++ [c]) c.FullSourceLine)
    have hE2 := recordEdge_spec st1 ln (sigIndex (cs ++ [c]) c.FullSourceLine) E
      (by intro k; rw [hedges1]; exact hE k)
    have htot' : (cs ++ [c]) ++ rest ++ more = total := by rw [← htot]; simp
    obtain ⟨st', hw, hreg', hE'⟩ := ih _ (some (specNode (cs ++ [c])
      (sigIndex (cs ++ [c]) c.FullSourceLine) c.FullSourceLine)) (cs ++ [c]) more _ htot' hreg2 hE2
    refine ⟨st', ?_, by simpa using hreg', ?_⟩
    · simp only [walkCalls, visit, hint, recordEdge_nodes, hnode]
      exact hw
    · intro k
      rw [hE' k]
      simp only [adjFrom, Option.map_some', specNode, hid, Nat.add_assoc]

theorem walk_spec (total : List Call) :
    ∀ (gs : List (List Call)) (st : State) (cs more : List Call) (E : edge → Nat),
      cs ++ gs.flatten ++ more = total → RegInv st cs →
      (∀ k, mapGet st.edges k = toEntry (E k)) →
      ∃ st', walk st gs = some st' ∧ RegInv st' (cs ++ gs.flatten) ∧
        ∀ k, mapGet st'.edges k =
          toEntry (E k + (gs.map (fun g => adjFrom (sigIndex total) none g k)).sum) := by
  intro gs
  induction gs with
  | nil =>
    intro st cs more E _ h hE
    exact ⟨st, rfl, by simpa using h, by simpa using hE⟩
  | cons g gs ih =>
    intro st cs more E htot h hE
    have htot1 : cs ++ g ++ (gs.flatten ++ more) = total := by rw [← htot]; simp
    obtain ⟨st1, hw1, hreg1, hE1⟩ := walkCalls_spec total g st none cs _ E htot1 h hE
    have htot2 : (cs ++ g) ++ gs.flatten ++ more = total := by rw [← htot]; simp
    obtain ⟨st', hw, hreg', hE'⟩ := ih st1 (cs ++ g) more _ htot2 hreg1 hE1
    refine ⟨st', ?_, by simpa using hreg', ?_⟩
    · simp only [walk, hw1]
      exact hw
    · intro k
      rw [hE' k]
      simp only [Option.map_none', List.map_cons, List.sum_cons, Nat.add_assoc]

/-- The aggregation walk returns a state, whose registry part is the closed form
over all frames and whose edge map holds the adjacent-pair counts. -/
theorem aggregate_spec (gs : List (List Call)) :
    ∃ st, aggregate gs = some st ∧ RegInv st gs.flatten ∧
      ∀ k, mapGet st.edges k =
        toEntry ((gs.map (fun g => adjFrom (sigIndex gs.flatten) none g k)).sum) := by
  obtain ⟨st, hw, hreg, hE⟩ := walk_spec gs.flatten gs State.init [] [] (fun _ => 0)
    (by simp) RegInv.init (by intro k; simp [State.init, mapGet, toEntry])
  exact ⟨st, hw, by simpa using hreg, by simpa using hE⟩

/-! ## The interned ID of a frame and the transition count -/

theorem eq_take_cons_drop {α : Type} (l : List α) (j : Nat) (x : α) (h : l[j]? = some x) :
    l = l.take j ++ x :: l.drop (j + 1) := by
  obtain ⟨hlt, hx⟩ := List.getElem?_eq_some_iff.mp h
  rw [← hx, List.getElem_cons_drop, List.take_append_drop]

theorem internedId_of_goroutine (gs : List (List Call)) (j i : Nat) (g : List Call)
    (hg : gs[j]? = some g) :
    internedId gs j i = (g[i]?).map (fun c => sigIndex gs.flatten c.FullSourceLine) := by
  unfold internedId frameAt
  rw [hg]
  dsimp only
  cases hc : g[i]? with
  | none => rfl
  | some c =>
    have hgD : gs.getD j [] = g := by
      rw [List.getD_eq_getElem?_getD, hg]; rfl
    obtain ⟨st, hagg, hreg, _⟩ := aggregate_spec (truncate gs j i)
    obtain ⟨st', hint, _, _⟩ := intern_spec hreg c
    have hpre : (truncate gs j i).flatten = (gs.take j).flatten ++ g.take i := by
      simp [truncate, hg]
    have htot : gs.flatten
        = ((truncate gs j i).flatten ++ [c]) ++ (g.drop (i + 1) ++ (gs.drop (j + 1)).flatten) := by
      rw [hpre]
      conv_lhs => rw [eq_take_cons_drop gs j g hg, eq_take_cons_drop g i c hc]
      simp
    have hid : sigIndex ((truncate gs j i).flatten ++ [c]) c.FullSourceLine
        = sigIndex gs.flatten c.FullSourceLine := by
      have hcm : c.FullSourceLine ∈ ((truncate gs j i).flatten ++ [c]).map Call.FullSourceLine :=
        List.mem_map.mpr ⟨c, List.mem_append_right _ (List.mem_singleton.mpr rfl), rfl⟩
      rw [htot, sigIndex_append_of_mem _ _ _ hcm]
    simp only [hagg, hint, Option.map_some', hid]

theorem adjFrom_none_cons_cons (f : String → Nat) (x y : Call) (r : List Call) (k : edge) :
    adjFrom f none (x :: y :: r) k =
      (if k = ⟨f y.FullSourceLine, f x.FullSourceLine⟩ then 1 else 0)
        + adjFrom f none (y :: r) k := by
  simp [adjFrom]

theorem positions_eq_adjFrom (f : String → Nat) (g : List Call) (s t : Nat) :
    ((List.range (g.length - 1)).filter (fun i =>
      decide ((g[i]?).map (fun c => f c.FullSourceLine) = some t ∧
        (g[i + 1]?).map (fun c => f c.FullSourceLine) = some s))).length
      = adjFrom f none g ⟨s, t⟩ := by
  induction g with
  | nil => simp [adjFrom]
  | cons x g ih =>
    cases g with
    | nil => simp [adjFrom]
    | cons y r =>
      rw [adjFrom_none_cons_cons, ← ih]
      simp only [List.length_cons, Nat.add_sub_cancel]
      rw [List.range_succ_eq_map]
      by_cases hxy : f x.FullSourceLine = t ∧ f y.FullSourceLine = s
      · have hk : (⟨s, t⟩ : edge) = ⟨f y.FullSourceLine, f x.FullSourceLine⟩ := by
          rw [hxy.1, hxy.2]
        simp [List.filter_cons, List.filter_map, hxy.1, hxy.2, Function.comp_def]
        omega
      · have hk : ¬ (⟨s, t⟩ : edge) = ⟨f y.FullSourceLine, f x.FullSourceLine⟩ := by
          intro e
          injection e with e1 e2
          exact hxy ⟨e2.symm, e1.symm⟩
        simp [List.filter_cons, List.filter_map, hxy, hk, Function.comp_def]

theorem transitionsIn_eq (gs : List (List Call)) (j s t : Nat) (hj : j < gs.length) :
    transitionsIn gs j s t = adjFrom (sigIndex gs.flatten) none (gs.getD j []) ⟨s, t⟩ := by
  have hg : gs[j]? = some (gs.getD j []) := by
    rw [List.getD_eq_getElem _ _ hj, List.getElem?_eq_getElem hj]
  unfold transitionsIn
  rw [← positions_eq_adjFrom]
  congr 2
  funext i
  rw [internedId_of_goroutine gs j i _ hg, internedId_of_goroutine gs j (i + 1) _ hg]

theorem map_range_getD {α β : Type} (l : List α) (d : α) (F : α → β) :
    (List.range l.length).map (fun j => F (l.getD j d)) = l.map F := by
  apply List.ext_getElem?
  intro n
  by_cases hn : n < l.length
  · simp [hn, List.getElem?_range, List.getD_eq_getElem, List.getElem?_eq_getElem]
  · have hn' : l.length ≤ n := Nat.le_of_not_lt hn
    rw [List.getElem?_map, List.getElem?_map, List.getElem?_eq_none hn',
      List.getElem?_eq_none (by simpa using hn')]
    rfl

theorem transitions_eq (gs : List (List Call)) (s t : Nat) :
    transitions gs s t = (gs.map (fun g => adjFrom (sigIndex gs.flatten) none g ⟨s, t⟩)).sum := by
  unfold transitions
  rw [← map_range_getD gs [] (fun g => adjFrom (sigIndex gs.flatten) none g ⟨s, t⟩)]
  congr 1
  apply List.map_congr_left
  intro j hj
  exact transitionsIn_eq gs j s t (List.mem_range.mp hj)

/-! ## Claims on the aggregation walk -/

theorem toEntry_getD (n : Nat) : (toEntry n).getD 0 = n := by
  unfold toEntry
  split <;> simp_all

theorem toEntry_isSome (n : Nat) : (toEntry n).isSome = true ↔ 1 ≤ n := by
  unfold toEntry
  split <;> simp_all
  omega

/-- C1: after the aggregation walk the count stored for edge key
`(Source = s, Target = t)` is the number of positions `i`, over all goroutines,
such that frames `i` and `i+1` exist, frame `i` interns to node `t` and frame
`i+1` interns to node `s`; the key is in the edge map exactly when that number is
at least one. A stack of three distinct frames `[a, b, c]` gives exactly the
edges `(1,0):1` and `(2,1):1`, and the stacks `[a, b]`, `[a, c]` give exactly
`(1,0):1` and `(2,0):1` (IDs in first-seen order: `a = 0`, `b = 1`, `c = 2`). -/
theorem C1_edge_counts (gs : List (List Call)) :
    (∃ st, aggregate gs = some st ∧ ∀ s t : Nat,
      mapGetD st.edges ⟨s, t⟩ = transitions gs s t ∧
      ((⟨s, t⟩ : edge) ∈ st.edges.map Prod.fst ↔ 1 ≤ transitions gs s t)) ∧
    (∀ a b c : Call, a.FullSourceLine ≠ b.FullSourceLine →
      a.FullSourceLine ≠ c.FullSourceLine → b.FullSourceLine ≠ c.FullSourceLine →
      (aggregate [[a, b, c]]).map State.edges = some [(⟨1, 0⟩, 1), (⟨2, 1⟩, 1)] ∧
      (aggregate [[a, b], [a, c]]).map State.edges = some [(⟨1, 0⟩, 1), (⟨2, 0⟩, 1)]) := by
  constructor
  · obtain ⟨st, hagg, _, hE⟩ := aggregate_spec gs
    refine ⟨st, hagg, fun s t => ⟨?_, ?_⟩⟩
    · rw [transitions_eq, mapGetD, hE, toEntry_getD]
    · rw [transitions_eq, ← mapGet_isSome_iff, hE, toEntry_isSome]
  · intro a b c hab hac hbc
    have hba : b.FullSourceLine ≠ a.FullSourceLine := fun e => hab e.symm
    have hca : c.FullSourceLine ≠ a.FullSourceLine := fun e => hac e.symm
    have hcb : c.FullSourceLine ≠ b.FullSourceLine := fun e => hbc e.symm
    constructor <;>
      simp [aggregate, walk, walkCalls, visit, intern, recordEdge, mapGet, mapSet, mapGetD,
        State.init, hab, hac, hbc, hba, hca, hcb]

/-- C2: after the aggregation walk every node's `Weight` is the number of
frames, over all goroutines and positions, whose signature is the signature
that created the node (the signature `sourceMap` sends to the node's index).
Two identical single-frame stacks with signature `a.go:1` give one node of
weight 2 and no edge. -/
theorem C2_node_weight (gs : List (List Call)) :
    (∃ st, aggregate gs = some st ∧ ∀ (i : Nat) (n : node), st.nodes[i]? = some n →
      ∃ sig, (firstSeen (signatures gs))[i]? = some sig ∧
        mapGet st.sourceMap sig = some i ∧ n.Weight = (signatures gs).count sig) ∧
    aggregate [[⟨"a.go:1", "pkg.F"⟩], [⟨"a.go:1", "pkg.F"⟩]]
      = some ⟨[⟨0, "pkg.F", 2⟩], [("a.go:1", 0)], [], 2⟩ := by
  constructor
  · obtain ⟨st, hagg, hreg, _⟩ := aggregate_spec gs
    refine ⟨st, hagg, fun i n hn => ?_⟩
    have hnodes := hreg.nodes i
    rw [hn] at hnodes
    cases hget : (firstSeen (gs.flatten.map Call.FullSourceLine))[i]? with
    | none => rw [hget] at hnodes; simp at hnodes
    | some sig =>
      rw [hget] at hnodes
      obtain ⟨hidx, hmem⟩ := hreg.index_eq hget
      refine ⟨sig, hget, ?_, ?_⟩
      · rw [hreg.map, if_pos hmem, hidx]
      · have := Option.some.inj hnodes
        rw [this]
        rfl
  · decide

theorem indexOf_firstSeen_lt {α : Type} [DecidableEq α] (l : List α) (a b : α)
    (ha : a ∈ l) (hb : b ∈ l) :
    (firstSeen l).indexOf a < (firstSeen l).indexOf b ↔ l.indexOf a < l.indexOf b := by
  induction l using List.reverseRecOn with
  | nil => simp at ha
  | append_singleton l x ih =>
    by_cases hal : a ∈ l
    · by_cases hbl : b ∈ l
      · rw [indexOf_firstSeen_append _ _ _ hal, indexOf_firstSeen_append _ _ _ hbl,
          List.indexOf_append_of_mem hal, List.indexOf_append_of_mem hbl]
        exact ih hal hbl
      · have hbx : b = x := by
          rcases List.mem_append.mp hb with h | h
          · exact absurd h hbl
          · simpa using h
        subst hbx
        have hbf : b ∉ firstSeen l := fun h => hbl ((mem_firstSeen _ _).mp h)
        rw [indexOf_firstSeen_append _ _ _ hal, List.indexOf_append_of_mem hal,
          firstSeen_snoc, if_neg hbf, List.indexOf_append_of_not_mem hbf,
          List.indexOf_append_of_not_mem hbl, List.indexOf_cons_self]
        have h1 : (firstSeen l).indexOf a < (firstSeen l).length :=
          List.indexOf_lt_length.mpr ((mem_firstSeen _ _).mpr hal)
        have h2 : l.indexOf a < l.length := List.indexOf_lt_length.mpr hal
        constructor <;> intro _ <;> omega
    · have hax : a = x := by
        rcases List.mem_append.mp ha with h | h
        · exact absurd h hal
        · simpa using h
      subst hax
      have haf : a ∉ firstSeen l := fun h => hal ((mem_firstSeen _ _).mp h)
      rw [firstSeen_snoc, if_neg haf, List.indexOf_append_of_not_mem haf,
        List.indexOf_append_of_not_mem hal, List.indexOf_cons_self]
      have h1 : List.indexOf b (firstSeen l ++ [a]) ≤ (firstSeen l).length := by
        have := @List.indexOf_le_length _ _ b (firstSeen l ++ [a])
        by_cases hbf : b ∈ firstSeen l
        · rw [List.indexOf_append_of_mem hbf]
          exact List.indexOf_le_length
        · rw [List.indexOf_append_of_not_mem hbf]
          have hba : b = a := by
            rcases List.mem_append.mp hb with h | h
            · exact absurd ((mem_firstSeen _ _).mpr h) hbf
            · simpa using h
          rw [hba, List.indexOf_cons_self]
          omega
      have h2 : List.indexOf b (l ++ [a]) ≤ l.length := by
        by_cases hbl : b ∈ l
        · rw [List.indexOf_append_of_mem hbl]
          exact List.indexOf_le_length
        · rw [List.indexOf_append_of_not_mem hbl]
          have hba : b = a := by
            rcases List.mem_append.mp hb with h | h
            · exact absurd h hbl
            · simpa using h
          rw [hba, List.indexOf_cons_self]
          omega
      constructor <;> intro _ <;> omega

/-- C3: two frames intern to the same node ID exactly when their signatures are
equal, wherever they stand; the number of nodes is the number of distinct
signatures; `sourceMap` is injective, is defined exactly on the signatures of
the input, sends each to its rank in first-seen order (so a signature first
seen earlier has the smaller ID), and gives the ID every frame interned to. -/
theorem C3_intern_by_signature (gs : List (List Call)) :
    (∀ (j₁ i₁ j₂ i₂ : Nat) (c₁ c₂ : Call),
      frameAt gs j₁ i₁ = some c₁ → frameAt gs j₂ i₂ = some c₂ →
      ∃ a b, internedId gs j₁ i₁ = some a ∧ internedId gs j₂ i₂ = some b ∧
        (a = b ↔ c₁.FullSourceLine = c₂.FullSourceLine)) ∧
    ∃ st, aggregate gs = some st ∧
      st.nodes.length = (signatures gs).dedup.length ∧
      (∀ sig, mapGet st.sourceMap sig =
        if sig ∈ signatures gs then some ((firstSeen (signatures gs)).indexOf sig) else none) ∧
      (∀ (s₁ s₂ : String) (i : Nat), mapGet st.sourceMap s₁ = some i →
        mapGet st.sourceMap s₂ = some i → s₁ = s₂) ∧
      (∀ (s₁ s₂ : String) (a b : Nat), mapGet st.sourceMap s₁ = some a →
        mapGet st.sourceMap s₂ = some b →
        (a < b ↔ (signatures gs).indexOf s₁ < (signatures gs).indexOf s₂)) ∧
      (∀ (j i : Nat) (c : Call), frameAt gs j i = some c →
        internedId gs j i = mapGet st.sourceMap c.FullSourceLine) := by
  obtain ⟨st, hagg, hreg, _⟩ := aggregate_spec gs
  have hframe : ∀ (j i : Nat) (c : Call), frameAt gs j i = some c →
      internedId gs j i = some (sigIndex gs.flatten c.FullSourceLine) ∧
        c.FullSourceLine ∈ signatures gs := by
    intro j i c hc
    unfold frameAt at hc
    cases hg : gs[j]? with
    | none => rw [hg] at hc; simp at hc
    | some g =>
      rw [hg] at hc
      dsimp only at hc
      constructor
      · rw [internedId_of_goroutine gs j i g hg, hc]
        rfl
      · unfold signatures
        apply List.mem_map.mpr
        exact ⟨c, List.mem_flatten.mpr ⟨g, List.getElem?_mem hg, List.getElem?_mem hc⟩, rfl⟩
  have hinj : ∀ (s₁ s₂ : String), s₁ ∈ signatures gs → s₂ ∈ signatures gs →
      sigIndex gs.flatten s₁ = sigIndex gs.flatten s₂ → s₁ = s₂ := by
    intro s₁ s₂ h₁ h₂ e
    have e₁ := List.getElem?_indexOf ((mem_firstSeen _ _).mpr h₁)
    have e₂ := List.getElem?_indexOf ((mem_firstSeen _ _).mpr h₂)
    unfold sigIndex at e
    unfold signatures at e₁ e₂
    rw [e, e₂] at e₁
    exact (Option.some.inj e₁).symm
  have hmap : ∀ (s : String) (i : Nat), mapGet st.sourceMap s = some i →
      s ∈ signatures gs ∧ i = sigIndex gs.flatten s := by
    intro s i hs
    rw [hreg.map] at hs
    by_cases hm : s ∈ gs.flatten.map Call.FullSourceLine
    · rw [if_pos hm] at hs
      exact ⟨hm, (Option.some.inj hs).symm⟩
    · rw [if_neg hm] at hs
      simp at hs
  refine ⟨?_, st, hagg, ?_, ?_, ?_, ?_, ?_⟩
  · intro j₁ i₁ j₂ i₂ c₁ c₂ h₁ h₂
    obtain ⟨e₁, m₁⟩ := hframe j₁ i₁ c₁ h₁
    obtain ⟨e₂, m₂⟩ := hframe j₂ i₂ c₂ h₂
    refine ⟨_, _, e₁, e₂, ?_, ?_⟩
    · exact hinj _ _ m₁ m₂
    · intro e; rw [e]
  · rw [hreg.len, length_firstSeen]
    rfl
  · intro sig
    exact hreg.map sig
  · intro s₁ s₂ i h₁ h₂
    obtain ⟨m₁, e₁⟩ := hmap s₁ i h₁
    obtain ⟨m₂, e₂⟩ := hmap s₂ i h₂
    exact hinj _ _ m₁ m₂ (e₁.symm.trans e₂)
  · intro s₁ s₂ a b h₁ h₂
    obtain ⟨m₁, e₁⟩ := hmap s₁ a h₁
    obtain ⟨m₂, e₂⟩ := hmap s₂ b h₂
    rw [e₁, e₂]
    exact indexOf_firstSeen_lt _ _ _ m₁ m₂
  · intro j i c hc
    obtain ⟨e, m⟩ := hframe j i c hc
    have m' : c.FullSourceLine ∈ gs.flatten.map Call.FullSourceLine := m
    rw [e, hreg.map, if_pos m']

theorem RegInv.ids {st : State} {cs : List Call} (h : RegInv st cs) :
    st.nodes.map node.ID = List.range st.nodes.length := by
  apply List.ext_getElem?
  intro k
  rw [List.getElem?_map, h.nodes]
  by_cases hk : k < st.nodes.length
  · have hk' : k < (firstSeen (cs.map Call.FullSourceLine)).length := by rw [← h.len]; exact hk
    rw [List.getElem?_range hk, List.getElem?_eq_getElem hk']
    rfl
  · have hk1 : (firstSeen (cs.map Call.FullSourceLine)).length ≤ k := by
      rw [← h.len]; exact Nat.le_of_not_lt hk
    rw [List.getElem?_eq_none hk1, List.getElem?_eq_none (by simpa using Nat.le_of_not_lt hk)]
    rfl

/-- C4: after every prefix of the walk (the input cut after `i` frames of
goroutine `j`), and after the whole walk, the node list of length `N` has
`nodes[k].ID = k` for every `k < N`: the IDs are exactly `0..N-1`, in order. -/
theorem C4_dense_ids (gs : List (List Call)) (j i : Nat) :
    (∃ st, aggregate (truncate gs j i) = some st ∧
      st.nodes.map node.ID = List.range st.nodes.length ∧
      ∀ (k : Nat) (n : node), st.nodes[k]? = some n → n.ID = k) ∧
    (∃ st, aggregate gs = some st ∧
      st.nodes.map node.ID = List.range st.nodes.length ∧
      ∀ (k : Nat) (n : node), st.nodes[k]? = some n → n.ID = k) := by
  have key : ∀ gs' : List (List Call), ∃ st, aggregate gs' = some st ∧
      st.nodes.map node.ID = List.range st.nodes.length ∧
      ∀ (k : Nat) (n : node), st.nodes[k]? = some n → n.ID = k := by
    intro gs'
    obtain ⟨st, hagg, hreg, _⟩ := aggregate_spec gs'
    refine ⟨st, hagg, hreg.ids, fun k n hn => ?_⟩
    have := hreg.nodes k
    rw [hn] at this
    cases hget : (firstSeen (gs'.flatten.map Call.FullSourceLine))[k]? with
    | none => rw [hget] at this; simp at this
    | some sig =>
      rw [hget] at this
      rw [Option.some.inj this]
      rfl
  exact ⟨key _, key _⟩

/-- C5: after the aggregation walk the sum of `Weight` over all nodes is the
sum of the lengths of the input stacks, the total number of frames. -/
theorem C5_weight_sum (gs : List (List Call)) :
    ∃ st, aggregate gs = some st ∧
      (st.nodes.map node.Weight).sum = (gs.map List.length).sum := by
  obtain ⟨st, hagg, hreg, _⟩ := aggregate_spec gs
  exact ⟨st, hagg, by rw [hreg.wsum, List.length_flatten]⟩

theorem visit_spec {st : State} {cs : List Call} (h : RegInv st cs) (ln : Option node) (c : Call) :
    ∃ st1 n, intern st c = some (st1, sigIndex (cs ++ [c]) c.FullSourceLine) ∧
      visit st ln c
        = some (recordEdge st1 ln (sigIndex (cs ++ [c]) c.FullSourceLine), some n) ∧
      n.ID = sigIndex (cs ++ [c]) c.FullSourceLine ∧ st1.edges = st.edges ∧
      RegInv st1 (cs ++ [c]) := by
  obtain ⟨st1, hint, hreg1, hedges1⟩ := intern_spec h c
  have hcmem : c.FullSourceLine ∈ (cs ++ [c]).map Call.FullSourceLine := by simp
  have hnode := hreg1.node_of_mem hcmem
  refine ⟨st1, specNode (cs ++ [c]) (sigIndex (cs ++ [c]) c.FullSourceLine) c.FullSourceLine,
    hint, ?_, rfl, hedges1, hreg1⟩
  simp only [visit, hint, recordEdge_nodes, hnode]

theorem visit_edge_sum (st st' : State) (ln ln' : Option node) (c : Call)
    (h : visit st ln c = some (st', ln')) :
    (st'.edges.map Prod.snd).sum
      = (st.edges.map Prod.snd).sum + (if ln.isSome then 1 else 0) ∧ ln'.isSome = true := by
  unfold visit at h
  cases hint : intern st c with
  | none => rw [hint] at h; simp at h
  | some p =>
    obtain ⟨st1, id⟩ := p
    rw [hint] at h
    dsimp only at h
    have he := intern_edges st st1 c id hint
    cases hn : (recordEdge st1 ln id).nodes[id]? with
    | none => rw [hn] at h; simp at h
    | some n =>
      rw [hn] at h
      simp only [Option.some.injEq, Prod.mk.injEq] at h
      obtain ⟨h1, h2⟩ := h
      subst h1 h2
      refine ⟨?_, rfl⟩
      cases ln with
      | none => simp [recordEdge, he]
      | some l =>
        simp only [recordEdge, Option.isSome_some, if_true]
        rw [sum_mapSet_incr, he]

theorem walkCalls_edge_sum :
    ∀ (rest : List Call) (st st' : State) (ln : Option node),
      walkCalls st ln rest = some st' →
      (st'.edges.map Prod.snd).sum
        = (st.edges.map Prod.snd).sum + (if ln.isSome then rest.length else rest.length - 1) := by
  intro rest
  induction rest with
  | nil =>
    intro st st' ln h
    simp only [walkCalls, Option.some.injEq] at h
    subst h
    simp
  | cons c rest ih =>
    intro st st' ln h
    unfold walkCalls at h
    cases hv : visit st ln c with
    | none => rw [hv] at h; simp at h
    | some p =>
      obtain ⟨st2, ln2⟩ := p
      rw [hv] at h
      dsimp only at h
      obtain ⟨hs, hln2⟩ := visit_edge_sum st st2 ln ln2 c hv
      rw [ih st2 st' ln2 h, hs, hln2]
      cases ln
      · simp
      · simp; omega

theorem walk_edge_sum :
    ∀ (gs : List (List Call)) (st st' : State), walk st gs = some st' →
      (st'.edges.map Prod.snd).sum
        = (st.edges.map Prod.snd).sum + (gs.map (fun g => g.length - 1)).sum := by
  intro gs
  induction gs with
  | nil =>
    intro st st' h
    simp only [walk, Option.some.injEq] at h
    subst h
    simp
  | cons g gs ih =>
    intro st st' h
    unfold walk at h
    cases hw : walkCalls st none g with
    | none => rw [hw] at h; simp at h
    | some st1 =>
      rw [hw] at h
      dsimp only at h
      rw [ih st1 st' h, walkCalls_edge_sum g st st1 none hw]
      simp [Nat.add_assoc]

theorem sum_filter_nonempty (gs : List (List Call)) :
    ((gs.filter (fun g => decide (g ≠ []))).map (fun g => g.length - 1)).sum
      = (gs.map (fun g => g.length - 1)).sum := by
  induction gs with
  | nil => rfl
  | cons g gs ih =>
    cases g with
    | nil => simpa using ih
    | cons c g =>
      simp only [List.filter_cons, ne_eq, reduceCtorEq, not_false_eq_true, decide_True, if_true,
        List.map_cons, List.sum_cons]
      rw [← ih]

/-- C6: the first frame of a stack produces no edge: visiting a frame with no
predecessor leaves the edge map as it is, so does a whole stack of length 0 or
1, and the sum of all edge counts after the walk is the sum over the non-empty
stacks of `length - 1`. -/
theorem C6_first_frame_no_edge (gs : List (List Call)) :
    (∃ st, aggregate gs = some st ∧
      (∀ c : Call, ∃ st' ln, visit st none c = some (st', ln) ∧ st'.edges = st.edges) ∧
      (∀ g : List Call, g.length ≤ 1 →
        ∃ st', walkCalls st none g = some st' ∧ st'.edges = st.edges)) ∧
    (∃ st, aggregate gs = some st ∧
      (st.edges.map Prod.snd).sum
        = ((gs.filter (fun g => decide (g ≠ []))).map (fun g => g.length - 1)).sum) := by
  obtain ⟨st, hagg, hreg, _⟩ := aggregate_spec gs
  have hvisit : ∀ c : Call, ∃ st' ln, visit st none c = some (st', ln) ∧ st'.edges = st.edges := by
    intro c
    obtain ⟨st1, n, _, hv, _, he, _⟩ := visit_spec hreg none c
    exact ⟨_, _, hv, he⟩
  refine ⟨⟨st, hagg, hvisit, ?_⟩, st, hagg, ?_⟩
  · intro g hg
    match g, hg with
    | [], _ => exact ⟨st, rfl, rfl⟩
    | [c], _ =>
      obtain ⟨st', ln, hv, he⟩ := hvisit c
      exact ⟨st', by simp [walkCalls, hv], he⟩
    | _ :: _ :: _, hg => simp at hg
  · rw [sum_filter_nonempty]
    have := walk_edge_sum gs State.init st hagg
    simpa [State.init] using this

/-- C7: one interning step on a state of the walk with `N` nodes. If the call's
signature has not been seen, the step returns `N` and appends the node
`(ID = N, Label = label, Weight = 1)`, leaving the existing nodes as they are.
If it has been seen with ID `i`, the step returns `i`, node `i` keeps its `ID`
and `Label` (the label of the first frame seen with this signature) and its
`Weight` grows by one; no node is added and every other node is unchanged. -/
theorem C7_intern_step (gs : List (List Call)) (c : Call) :
    ∃ st, aggregate gs = some st ∧
      (c.FullSourceLine ∉ signatures gs →
        mapGet st.sourceMap c.FullSourceLine = none ∧
        ∃ st', intern st c = some (st', st.nodes.length) ∧
          st'.nodes = st.nodes ++ [⟨st.nodes.length, c.PkgDotName, 1⟩]) ∧
      (c.FullSourceLine ∈ signatures gs →
        ∃ i n st', mapGet st.sourceMap c.FullSourceLine = some i ∧
          st.nodes[i]? = some n ∧ n.ID = i ∧
          n.Label = firstLabel gs.flatten c.FullSourceLine ∧
          intern st c = some (st', i) ∧
          st'.nodes = st.nodes.set i ⟨n.ID, n.Label, n.Weight + 1⟩ ∧
          st'.nodes.length = st.nodes.length ∧
          st'.nodes[i]? = some ⟨i, n.Label, n.Weight + 1⟩ ∧
          ∀ k, k ≠ i → st'.nodes[k]? = st.nodes[k]?) := by
  obtain ⟨st, hagg, hreg, _⟩ := aggregate_spec gs
  refine ⟨st, hagg, ?_, ?_⟩
  · intro hmem
    have hmem' : c.FullSourceLine ∉ gs.flatten.map Call.FullSourceLine := hmem
    have hget := hreg.map c.FullSourceLine
    rw [if_neg hmem'] at hget
    exact ⟨hget, _, intern_of_miss st c hget, rfl⟩
  · intro hmem
    have hmem' : c.FullSourceLine ∈ gs.flatten.map Call.FullSourceLine := hmem
    have hget := hreg.map c.FullSourceLine
    rw [if_pos hmem'] at hget
    have hnode := hreg.node_of_mem hmem'
    have hlt : sigIndex gs.flatten c.FullSourceLine < st.nodes.length := by
      rw [hreg.len]
      exact List.indexOf_lt_length.mpr ((mem_firstSeen _ _).mpr hmem)
    refine ⟨_, _, _, hget, hnode, rfl, rfl, intern_of_hit st c _ _ hget hnode, rfl, ?_, ?_, ?_⟩
    · simp
    · exact List.getElem?_set_self hlt
    · intro k hk
      exact List.getElem?_set_ne (fun e => hk e.symm)

/-! ## Claims on rendering -/

theorem digitChar_ne_quote : ∀ d : Nat, d < 10 → Nat.digitChar d ≠ '"' := by decide

theorem toDigitsCore_no_quote : ∀ (fuel n : Nat) (ds : List Char),
    (∀ c ∈ ds, c ≠ '"') → ∀ c ∈ Nat.toDigitsCore 10 fuel n ds, c ≠ '"' := by
  intro fuel
  induction fuel with
  | zero =>
    intro n ds h c hc
    exact h c (by simpa [Nat.toDigitsCore] using hc)
  | succ fuel ih =>
    intro n ds h c hc
    have hd : ∀ c ∈ Nat.digitChar (n % 10) :: ds, c ≠ '"' := by
      intro c hc
      rcases List.mem_cons.mp hc with e | e
      · rw [e]; exact digitChar_ne_quote _ (Nat.mod_lt _ (by decide))
      · exact h c e
    unfold Nat.toDigitsCore at hc
    dsimp only at hc
    split at hc
    · exact hd c hc
    · exact ih _ _ hd c hc

theorem dotQuote_of_no_quote (s : String) (h : ∀ c ∈ s.data, c ≠ '"') : dotQuote s = s := by
  unfold dotQuote
  have : ∀ l : List Char, (∀ c ∈ l, c ≠ '"') →
      l.flatMap (fun ch => if ch = '"' then ['\\', '"'] else [ch]) = l := by
    intro l
    induction l with
    | nil => intro _; rfl
    | cons a l ih =>
      intro hl
      have ha : a ≠ '"' := hl a (List.mem_cons_self _ _)
      rw [List.flatMap_cons, if_neg ha, ih (fun c hc => hl c (List.mem_cons_of_mem _ hc))]
      rfl
  rw [this s.data h]

theorem dotQuote_Itoa (n : Nat) : dotQuote (Itoa n) = Itoa n := by
  apply dotQuote_of_no_quote
  intro c hc
  exact toDigitsCore_no_quote _ _ [] (by simp) c hc

theorem div_gt_one_iff (a total : Nat) (ht : 1 ≤ total) : 1 + a / total > 1 ↔ total ≤ a := by
  have : 1 ≤ a / total ↔ 1 * total ≤ a := Nat.le_div_iff_mul_le (by omega)
  omega

theorem wrapInt_of_range (x : Int) (h0 : -2 ^ 63 ≤ x) (h1 : x < 2 ^ 63) : wrapInt x = x := by
  unfold wrapInt
  omega

/-- While the product stays below `2^63 - 1` nothing wraps and `scaledCount` is
the natural number `1 + w*c/total`. -/
theorem scaledCount_eq (w c total : Nat) (h : w * c + 1 < 2 ^ 63) :
    scaledCount w c total = ((1 + w * c / total : Nat) : Int) := by
  have h3 : w * c / total ≤ w * c := Nat.div_le_self _ _
  have hq : ((w * c / total : Nat) : Int) + 1 < 2 ^ 63 := by
    have h4 : w * c / total + 1 < 2 ^ 63 := by omega
    exact_mod_cast h4
  have hq0 : (0 : Int) ≤ ((w * c / total : Nat) : Int) := Int.ofNat_nonneg _
  have hp : ((w * c : Nat) : Int) < 2 ^ 63 := by
    have h4 : w * c < 2 ^ 63 := by omega
    exact_mod_cast h4
  have hp0 : (0 : Int) ≤ ((w * c : Nat) : Int) := Int.ofNat_nonneg _
  have h1 : wrapInt ((w : Int) * (c : Int)) = ((w * c : Nat) : Int) := by
    rw [← Int.ofNat_mul]
    exact wrapInt_of_range _ (by omega) hp
  unfold scaledCount
  rw [h1, ← Int.ofNat_tdiv, wrapInt_of_range _ (by omega) (by omega)]
  push_cast
  rfl

/-- The attribute list in terms of the two wrapped values, for every count. -/
theorem edgeAttrs_wrapped (w total : Nat) (ht : 1 ≤ total) :
    edgeAttrs w total = some ([⟨"label", Itoa w⟩]
      ++ (if scaledCount w 100 total > 1 then
            [⟨"weight", Itoa (scaledCount w 100 total).toNat⟩] else [])
      ++ (if scaledCount w 10 total > 1 then
            [⟨"penwidth", Itoa (scaledCount w 10 total).toNat⟩] else [])) := by
  have hne : total ≠ 0 := by omega
  unfold edgeAttrs
  rw [if_neg hne]
  dsimp only
  by_cases a : scaledCount w 100 total > 1 <;> by_cases b : scaledCount w 10 total > 1 <;>
    simp [a, b]

theorem edgeAttrs_eq (w total : Nat) (ht : 1 ≤ total) (hw : 100 * w < 2 ^ 63) :
    edgeAttrs w total = some ([⟨"label", Itoa w⟩]
      ++ (if total ≤ 100 * w then [⟨"weight", Itoa (1 + w * 100 / total)⟩] else [])
      ++ (if total ≤ 10 * w then [⟨"penwidth", Itoa (1 + w * 10 / total)⟩] else [])) := by
  have h100 : 1 + w * 100 / total > 1 ↔ total ≤ 100 * w := by
    rw [div_gt_one_iff _ _ ht]; omega
  have h10 : 1 + w * 10 / total > 1 ↔ total ≤ 10 * w := by
    rw [div_gt_one_iff _ _ ht]; omega
  have e100 := scaledCount_eq w 100 total (by omega)
  have e10 := scaledCount_eq w 10 total (by omega)
  have c100 : scaledCount w 100 total > 1 ↔ total ≤ 100 * w := by
    rw [e100, ← h100]
    omega
  have c10 : scaledCount w 10 total > 1 ↔ total ≤ 10 * w := by
    rw [e10, ← h10]
    omega
  have t100 : (scaledCount w 100 total).toNat = 1 + w * 100 / total := by
    rw [e100]
    exact Int.toNat_ofNat _
  have t10 : (scaledCount w 10 total).toNat = 1 + w * 10 / total := by
    rw [e10]
    exact Int.toNat_ofNat _
  rw [edgeAttrs_wrapped w total ht, t100, t10]
  by_cases a : total ≤ 100 * w <;> by_cases b : total ≤ 10 * w
  · rw [if_pos (c100.mpr a), if_pos (c10.mpr b), if_pos a, if_pos b]
  · rw [if_pos (c100.mpr a), if_neg (fun h => b (c10.mp h)), if_pos a, if_neg b]
  · rw [if_neg (fun h => a (c100.mp h)), if_pos (c10.mpr b), if_neg a, if_pos b]
  · rw [if_neg (fun h => a (c100.mp h)), if_neg (fun h => b (c10.mp h)), if_neg a, if_neg b]

set_option maxRecDepth 20000 in
/-- Beyond the bound the product wraps: with `w = 92233720368547759` and one
goroutine `w*100` exceeds `2^63 - 1`, the wrapped value is negative and no
`weight` attribute is written, while `w*10` still fits. -/
theorem edgeAttrs_wraps :
    scaledCount 92233720368547759 100 1 = -9223372036854775715 ∧
    edgeAttrs 92233720368547759 1
      = some [⟨"label", "92233720368547759"⟩, ⟨"penwidth", "922337203685477591"⟩] := by
  refine ⟨by decide, by decide⟩

/-- C8: for `total ≥ 1` and every count `w` whose product `100*w` fits a Go
`int` (`100*w < 2^63`, which every count of frames held in memory satisfies; in
particular `w ≥ 1`) the attribute list of an edge is, in this order: `label`
with the decimal text of `w`; then `weight` with value `1 + w*100/total`,
present exactly when that value exceeds 1, that is when `100*w ≥ total`; then
`penwidth` with value `1 + w*10/total`, present exactly when that value exceeds
1, that is when `10*w ≥ total`; the divisions truncate. At the boundary,
`w*100/total = 0` gives the label alone and `w*100/total = 1` gives `weight` 2. -/
theorem C8_edge_attrs (w total : Nat) (ht : 1 ≤ total) (hw : 100 * w < 2 ^ 63) :
    edgeAttrs w total = some ([⟨"label", Itoa w⟩]
      ++ (if total ≤ 100 * w then [⟨"weight", Itoa (1 + w * 100 / total)⟩] else [])
      ++ (if total ≤ 10 * w then [⟨"penwidth", Itoa (1 + w * 10 / total)⟩] else [])) ∧
    (1 + w * 100 / total > 1 ↔ total ≤ 100 * w) ∧
    (1 + w * 10 / total > 1 ↔ total ≤ 10 * w) ∧
    (w * 100 / total = 0 → edgeAttrs w total = some [⟨"label", Itoa w⟩]) ∧
    (w * 100 / total = 1 →
      edgeAttrs w total = some [⟨"label", Itoa w⟩, ⟨"weight", "2"⟩]) := by
  have h100 : 1 + w * 100 / total > 1 ↔ total ≤ 100 * w := by
    rw [div_gt_one_iff _ _ ht]; omega
  have h10 : 1 + w * 10 / total > 1 ↔ total ≤ 10 * w := by
    rw [div_gt_one_iff _ _ ht]; omega
  have main := edgeAttrs_eq w total ht hw
  refine ⟨main, h100, h10, ?_, ?_⟩
  · intro h0
    have a : ¬ total ≤ 100 * w := by
      intro h
      have := h100.mpr h
      omega
    have b : ¬ total ≤ 10 * w := by omega
    rw [main, if_neg a, if_neg b]
    rfl
  · intro h1
    have a : total ≤ 100 * w := h100.mp (by omega)
    have b : ¬ total ≤ 10 * w := by
      intro h
      have h2 : 2 ≤ w * 100 / total := by
        rw [Nat.le_div_iff_mul_le (by omega)]
        omega
      omega
    rw [main, if_pos a, if_neg b, h1]
    rfl

/-- Witness of C8 at the two boundary inputs `w = 1`, `total = 100` and
`w = 1`, `total = 101`. -/
theorem C8_edge_attrs_witness :
    edgeAttrs 1 100 = some [⟨"label", "1"⟩, ⟨"weight", "2"⟩] ∧
    edgeAttrs 1 101 = some [⟨"label", "1"⟩] :=
  ⟨(C8_edge_attrs 1 100 (by decide) (by decide)).2.2.2.2 (by decide),
   (C8_edge_attrs 1 101 (by decide) (by decide)).2.2.2.1 (by decide)⟩

/-- What `edgeDot` writes for the attribute lists the program builds: the values
follow the `=` sign directly, with no quotes around them. -/
theorem edgeStmt_text (out : String) (e : edge) (w total : Nat) (ht : 1 ≤ total) :
    edgeStmt out e w total = some (out ++ ("N" ++ Itoa e.Source ++ " -> " ++ ("N" ++ Itoa e.Target)
      ++ "[" ++ ("label=" ++ Itoa w
      ++ (if scaledCount w 100 total > 1 then
            ",weight=" ++ Itoa (scaledCount w 100 total).toNat else "")
      ++ (if scaledCount w 10 total > 1 then
            ",penwidth=" ++ Itoa (scaledCount w 10 total).toNat else ""))
      ++ "];\n")) := by
  have h := (edgeAttrs_wrapped w total ht)
  unfold edgeStmt
  rw [h]
  dsimp only
  generalize scaledCount w 100 total = x
  generalize scaledCount w 10 total = y
  by_cases a : x > 1 <;> by_cases b : y > 1
  · rw [if_pos a, if_pos b, if_pos a, if_pos b]
    simp [edgeDot, outputString, attributesString, attributesLoop, dotQuote_Itoa,
      String.append_assoc]
  · rw [if_pos a, if_neg b, if_pos a, if_neg b]
    simp [edgeDot, outputString, attributesString, attributesLoop, dotQuote_Itoa,
      String.append_assoc]
  · rw [if_neg a, if_pos b, if_neg a, if_pos b]
    simp [edgeDot, outputString, attributesString, attributesLoop, dotQuote_Itoa,
      String.append_assoc]
  · rw [if_neg a, if_neg b, if_neg a, if_neg b]
    simp [edgeDot, outputString, attributesString, attributesLoop, dotQuote_Itoa,
      String.append_assoc]

/-- C9, evaluated on the input `[[a, b], [c]]` (two goroutines, one edge `(1,0)`
of count 1): the edge statement the program writes has its attribute values
unquoted, `N1 -> N0[label=1,weight=51,penwidth=6];`, and is not the text
`N1 -> N0[label="1",weight="51",penwidth="6"];` that quoting every value
would give. -/
theorem C9_edge_statement_unquoted :
    (aggregate [[⟨"a.go:1", "pkg.A"⟩, ⟨"b.go:2", "pkg.B"⟩], [⟨"c.go:3", "pkg.C"⟩]]).map State.edges
      = some [(⟨1, 0⟩, 1)] ∧
    edgeStmt "" ⟨1, 0⟩ 1 2 = some "N1 -> N0[label=1,weight=51,penwidth=6];\n" ∧
    edgeStmt "" ⟨1, 0⟩ 1 2 ≠ some "N1 -> N0[label=\"1\",weight=\"51\",penwidth=\"6\"];\n" := by
  refine ⟨by decide, by decide, by decide⟩

theorem pctText_two_two : pctText 2 2 = "100.00" := by
  set_option maxRecDepth 20000 in decide

/-! ## Claims on escaping -/

theorem dotQuote_data (s : String) :
    (dotQuote s).data = s.data.flatMap (fun ch => if ch = '"' then ['\\', '"'] else [ch]) := rfl

theorem dotQuote_append (s t : String) : dotQuote (s ++ t) = dotQuote s ++ dotQuote t := by
  apply String.ext
  simp [dotQuote_data, String.data_append, List.flatMap_append]

theorem length_flatMap_quote (l : List Char) :
    (l.flatMap (fun ch => if ch = '"' then ['\\', '"'] else [ch])).length
      = l.length + l.count '"' := by
  induction l with
  | nil => rfl
  | cons a l ih =>
    rw [List.flatMap_cons, List.length_append, ih, List.count_cons, List.length_cons]
    by_cases ha : a = '"'
    · subst ha
      simp
      omega
    · have hb : (a == '"') = false := by simpa using ha
      rw [if_neg ha, hb]
      simp
      omega

/-- C11: `dotQuote s` is `s` with every double quote replaced by the two
characters backslash, double quote, and every other character (newline and
backslash included) copied in order: it maps the empty string to itself, a
double quote to backslash-quote, any other single character to itself, and a
concatenation to the concatenation of the images. Its length is the length of
`s` plus the number of double quotes in `s`, and it is `s` itself when `s` has no
double quote. -/
theorem C11_dotQuote (s : String) :
    (dotQuote s).data = s.data.flatMap (fun ch => if ch = '"' then ['\\', '"'] else [ch]) ∧
    dotQuote "" = "" ∧
    dotQuote (String.singleton '"') = "\\\"" ∧
    (∀ c : Char, c ≠ '"' → dotQuote (String.singleton c) = String.singleton c) ∧
    (∀ t : String, dotQuote (s ++ t) = dotQuote s ++ dotQuote t) ∧
    (dotQuote s).length = s.length + s.data.count '"' ∧
    ((∀ c ∈ s.data, c ≠ '"') → dotQuote s = s) ∧
    dotQuote "say \"hi\"\n\\ end" = "say \\\"hi\\\"\n\\ end" := by
  refine ⟨rfl, by decide, by decide, ?_, dotQuote_append s, ?_, dotQuote_of_no_quote s, by decide⟩
  · intro c hc
    apply String.ext
    simp [dotQuote_data, String.singleton, hc]
  · show (dotQuote s).data.length = s.data.length + _
    rw [dotQuote_data, length_flatMap_quote]

theorem flatMap_eq_escapeChars (v : List Char) :
    v.flatMap (fun ch => if ch = '"' then ['\\', '"'] else [ch]) = escapeChars v := by
  induction v with
  | nil => rfl
  | cons c v ih =>
    rw [List.flatMap_cons, ih]
    by_cases hc : c = '"'
    · simp [escapeChars, hc]
    · simp [escapeChars, hc]

theorem scanBody_close (rest : List Char) : scanBody ('"' :: rest) = some ([], rest) := by
  cases rest <;> simp [scanBody]

theorem scanBody_escape (rest : List Char) :
    scanBody ('\\' :: '"' :: rest) = (scanBody rest).map (fun p => ('"' :: p.1, p.2)) := by
  simp [scanBody]

theorem scanBody_plain (c d : Char) (rest : List Char) (hc : c ≠ '"')
    (hd : c ≠ '\\' ∨ d ≠ '"') :
    scanBody (c :: d :: rest) = (scanBody (d :: rest)).map (fun p => (c :: p.1, p.2)) := by
  have h : ¬ (c = '\\' ∧ d = '"') := by
    rintro ⟨h1, h2⟩
    rcases hd with h | h
    · exact h h1
    · exact h h2
  simp [scanBody, hc, h]

/-- Scanning the escaped form of `v` followed by a closing quote gives back `v`
and the input after the quote, for every `v` that does not end in a backslash. -/
theorem scanBody_escaped (v rest : List Char) (hv : v.getLast? ≠ some '\\') :
    scanBody (escapeChars v ++ '"' :: rest) = some (v, rest) := by
  induction v with
  | nil => exact scanBody_close rest
  | cons c v ih =>
    by_cases hq : c = '"'
    · subst hq
      have hv' : v.getLast? ≠ some '\\' := by
        cases v with
        | nil => simp
        | cons d v => simpa [List.getLast?_cons_cons] using hv
      simp only [escapeChars, if_true, List.cons_append]
      rw [scanBody_escape, ih hv']
      rfl
    · cases v with
      | nil =>
        have hb : c ≠ '\\' := by simpa using hv
        simp only [escapeChars, if_neg hq, List.cons_append, List.nil_append]
        rw [scanBody_plain c '"' rest hq (Or.inl hb), scanBody_close]
        rfl
      | cons d v =>
        have hv' : (d :: v).getLast? ≠ some '\\' := by
          simpa [List.getLast?_cons_cons] using hv
        have ih' := ih hv'
        by_cases hd : d = '"'
        · subst hd
          simp only [escapeChars, if_neg hq, if_true, List.cons_append] at ih' ⊢
          rw [scanBody_plain c '\\' _ hq (Or.inr (by decide)), ih']
          rfl
        · simp only [escapeChars, if_neg hq, if_neg hd, List.cons_append] at ih' ⊢
          rw [scanBody_plain c d _ hq (Or.inr hd), ih']
          rfl

theorem scanQuoted_dotQuote (v : String) (rest : List Char) (hv : v.data.getLast? ≠ some '\\') :
    scanQuoted (("\"" ++ dotQuote v ++ "\"").data ++ rest) = some (v.data, rest) := by
  have : ("\"" ++ dotQuote v ++ "\"").data ++ rest
      = '"' :: ((dotQuote v).data ++ '"' :: rest) := by
    simp [String.data_append]
  rw [this]
  show (if '"' = '"' then scanBody _ else none) = _
  rw [if_pos rfl, dotQuote_data, flatMap_eq_escapeChars]
  exact scanBody_escaped v.data rest hv

theorem digitChar_ne_backslash : ∀ d : Nat, d < 10 → Nat.digitChar d ≠ '\\' := by decide

theorem toDigitsCore_no_backslash : ∀ (fuel n : Nat) (ds : List Char),
    (∀ c ∈ ds, c ≠ '\\') → ∀ c ∈ Nat.toDigitsCore 10 fuel n ds, c ≠ '\\' := by
  intro fuel
  induction fuel with
  | zero =>
    intro n ds h c hc
    exact h c (by simpa [Nat.toDigitsCore] using hc)
  | succ fuel ih =>
    intro n ds h c hc
    have hd : ∀ c ∈ Nat.digitChar (n % 10) :: ds, c ≠ '\\' := by
      intro c hc
      rcases List.mem_cons.mp hc with e | e
      · rw [e]; exact digitChar_ne_backslash _ (Nat.mod_lt _ (by decide))
      · exact h c e
    unfold Nat.toDigitsCore at hc
    dsimp only at hc
    split at hc
    · exact hd c hc
    · exact ih _ _ hd c hc

theorem Itoa_getLast (n : Nat) : (Itoa n).data.getLast? ≠ some '\\' := by
  intro h
  have hmem : '\\' ∈ (Itoa n).data := List.mem_of_mem_getLast? h
  exact toDigitsCore_no_backslash _ _ [] (by simp) _ hmem rfl

theorem nodeLabel_getLast (n : node) (total : Nat) :
    (nodeLabel n total).data.getLast? ≠ some '\\' := by
  have : (nodeLabel n total).data.getLast? = some ')' := by
    unfold nodeLabel
    rw [String.data_append, List.getLast?_append]
    rfl
  rw [this]
  decide

/-- The node statement as a sequence of `name=` and quoted values. -/
theorem nodeStmt_quoted (out : String) (n : node) (total max : Nat) :
    nodeStmt out n total max = out ++ ("N" ++ Itoa n.ID ++ " [fontsize="
      ++ ("\"" ++ dotQuote (Itoa (fontSize max n.Weight)) ++ "\"") ++ ",label="
      ++ ("\"" ++ dotQuote (nodeLabel n total) ++ "\"") ++ ",shape="
      ++ ("\"" ++ dotQuote "box" ++ "\"") ++ "];\n") := by
  simp only [nodeStmt, nodeDot, nodeDotLoop, outputString, outputByte]
  apply String.ext
  simp [String.data_append, String.data_push]

/-- C12: for every function label, the quoted attribute values of the node
statement, each a double quote, `dotQuote` of the value and a double quote, are
valid quoted strings: scanning from the opening quote with
backslash-doublequote as an escape pair stops at the closing quote, whatever
follows it, and decodes to the original value. This holds for the label value
(the function label, a newline and the statistics), for the font size and for
`box`, and in general for every value that does not end in a backslash; the
node statement is made of these three quoted values. -/
theorem C12_quoted_value_valid (n : node) (total max : Nat) :
    (∀ rest : List Char,
      scanQuoted (("\"" ++ dotQuote (nodeLabel n total) ++ "\"").data ++ rest)
        = some ((nodeLabel n total).data, rest)) ∧
    (∀ rest : List Char,
      scanQuoted (("\"" ++ dotQuote (Itoa (fontSize max n.Weight)) ++ "\"").data ++ rest)
        = some ((Itoa (fontSize max n.Weight)).data, rest)) ∧
    (∀ rest : List Char,
      scanQuoted (("\"" ++ dotQuote "box" ++ "\"").data ++ rest) = some ("box".data, rest)) ∧
    (∀ (v : String) (rest : List Char), v.data.getLast? ≠ some '\\' →
      scanQuoted (("\"" ++ dotQuote v ++ "\"").data ++ rest) = some (v.data, rest)) ∧
    (∀ out : String, nodeStmt out n total max = out ++ ("N" ++ Itoa n.ID ++ " [fontsize="
      ++ ("\"" ++ dotQuote (Itoa (fontSize max n.Weight)) ++ "\"") ++ ",label="
      ++ ("\"" ++ dotQuote (nodeLabel n total) ++ "\"") ++ ",shape="
      ++ ("\"" ++ dotQuote "box" ++ "\"") ++ "];\n")) ∧
    scanQuoted ("\"" ++ dotQuote "f(\"a\\b\")\n1 of 2 (50.00%)" ++ "\"];\n").data
      = some ("f(\"a\\b\")\n1 of 2 (50.00%)".data, "];\n".data) := by
  refine ⟨fun rest => scanQuoted_dotQuote _ rest (nodeLabel_getLast n total),
    fun rest => scanQuoted_dotQuote _ rest (Itoa_getLast _),
    fun rest => scanQuoted_dotQuote _ rest (by decide),
    fun v rest hv => scanQuoted_dotQuote v rest hv,
    fun out => nodeStmt_quoted out n total max, by decide⟩

/-! ## Well-formedness of the edge map -/

theorem mem_mapSet {κ ν : Type} [DecidableEq κ] (m : List (κ × ν)) (k : κ) (v : ν)
    (p : κ × ν) (hp : p ∈ mapSet m k v) : p ∈ m ∨ p = (k, v) := by
  induction m with
  | nil => simpa [mapSet] using hp
  | cons q m ih =>
    obtain ⟨k', v'⟩ := q
    by_cases h : k' = k
    · simp only [mapSet, h, if_true, List.mem_cons] at hp
      rcases hp with e | e
      · exact Or.inr e
      · exact Or.inl (List.mem_cons_of_mem _ e)
    · simp only [mapSet, h, if_false, List.mem_cons] at hp
      rcases hp with e | e
      · exact Or.inl (e ▸ List.mem_cons_self _ _)
      · rcases ih e with e' | e'
        · exact Or.inl (List.mem_cons_of_mem _ e')
        · exact Or.inr e'

theorem mapSet_keys {κ ν : Type} [DecidableEq κ] (m : List (κ × ν)) (k : κ) (v : ν) :
    (mapSet m k v).map Prod.fst
      = if k ∈ m.map Prod.fst then m.map Prod.fst else m.map Prod.fst ++ [k] := by
  induction m with
  | nil => simp [mapSet]
  | cons q m ih =>
    obtain ⟨k', v'⟩ := q
    by_cases h : k' = k
    · subst h
      simp [mapSet]
    · have h' : ¬ k = k' := fun e => h e.symm
      simp only [mapSet, h, if_false, List.map_cons, ih, List.mem_cons, h', false_or]
      split <;> simp

theorem mapSet_keys_nodup {κ ν : Type} [DecidableEq κ] (m : List (κ × ν)) (k : κ) (v : ν)
    (h : (m.map Prod.fst).Nodup) : ((mapSet m k v).map Prod.fst).Nodup := by
  rw [mapSet_keys]
  split
  · exact h
  · rename_i hk
    exact List.Nodup.append h (List.nodup_singleton k) (by simpa using hk)

theorem edgeInv_init : EdgeInv State.init :=
  ⟨by simp [State.init], by simp [State.init]⟩

theorem edgeInv_recordEdge {st : State} (h : EdgeInv st) (ln : Option node) (id : Nat)
    (hid : id < st.nodes.length) (hln : ∀ n, ln = some n → n.ID < st.nodes.length) :
    EdgeInv (recordEdge st ln id) := by
  cases ln with
  | none => exact h
  | some n =>
    refine ⟨mapSet_keys_nodup _ _ _ h.nodup, ?_⟩
    intro p hp
    rcases mem_mapSet _ _ _ _ hp with e | e
    · exact h.entry p e
    · subst e
      exact ⟨by simp, hid, hln n rfl⟩

theorem RegInv.len_le_snoc {st st1 : State} {cs : List Call} {c : Call}
    (h : RegInv st cs) (h1 : RegInv st1 (cs ++ [c])) : st.nodes.length ≤ st1.nodes.length := by
  rw [h.len, h1.len, List.map_append]
  obtain ⟨r, hr⟩ := firstSeen_append_prefix (cs.map Call.FullSourceLine) ([c].map Call.FullSourceLine)
  rw [hr, List.length_append]
  omega

theorem RegInv.index_lt {st : State} {cs : List Call} (h : RegInv st cs) {sig : String}
    (hmem : sig ∈ cs.map Call.FullSourceLine) : sigIndex cs sig < st.nodes.length := by
  rw [h.len]
  exact List.indexOf_lt_length.mpr ((mem_firstSeen _ _).mpr hmem)

theorem walkCalls_edgeInv :
    ∀ (rest : List Call) (st : State) (ln : Option node) (cs : List Call) (st' : State),
      RegInv st cs → EdgeInv st → (∀ n, ln = some n → n.ID < st.nodes.length) →
      walkCalls st ln rest = some st' → EdgeInv st' := by
  intro rest
  induction rest with
  | nil =>
    intro st ln cs st' _ he _ hw
    simp only [walkCalls, Option.some.injEq] at hw
    exact hw ▸ he
  | cons c rest ih =>
    intro st ln cs st' h he hln hw
    obtain ⟨st1, n, _, hv, hnid, hedges, hreg1⟩ := visit_spec h ln c
    have hle := h.len_le_snoc hreg1
    have hid : sigIndex (cs ++ [c]) c.FullSourceLine < st1.nodes.length :=
      hreg1.index_lt (by simp)
    have he1 : EdgeInv st1 := by
      refine ⟨by rw [hedges]; exact he.nodup, ?_⟩
      intro p hp
      rw [hedges] at hp
      obtain ⟨a, b, c'⟩ := he.entry p hp
      exact ⟨a, by omega, by omega⟩
    have he2 := edgeInv_recordEdge he1 ln _ hid (fun m hm => by have := hln m hm; omega)
    simp only [walkCalls, hv] at hw
    refine ih _ _ (cs ++ [c]) st' (hreg1.recordEdge ln _) he2 ?_ hw
    intro m hm
    rw [recordEdge_nodes]
    have : m = n := (Option.some.inj hm).symm
    rw [this, hnid]
    exact hid

theorem mapGet_mem {κ ν : Type} [DecidableEq κ] (m : List (κ × ν)) (k : κ) (v : ν)
    (h : mapGet m k = some v) : (k, v) ∈ m := by
  induction m with
  | nil => simp [mapGet] at h
  | cons q m ih =>
    obtain ⟨k', v'⟩ := q
    by_cases hkk : k' = k
    · simp only [mapGet, hkk, if_true, Option.some.injEq] at h
      rw [hkk, h]
      exact List.mem_cons_self _ _
    · simp only [mapGet, hkk, if_false] at h
      exact List.mem_cons_of_mem _ (ih h)

theorem walkCalls_reg :
    ∀ (rest : List Call) (st : State) (ln : Option node) (cs : List Call),
      RegInv st cs → ∃ st', walkCalls st ln rest = some st' ∧ RegInv st' (cs ++ rest) := by
  intro rest
  induction rest with
  | nil =>
    intro st ln cs h
    exact ⟨st, rfl, by simpa using h⟩
  | cons c rest ih =>
    intro st ln cs h
    obtain ⟨st1, n, _, hv, _, _, hreg1⟩ := visit_spec h ln c
    obtain ⟨st', hw, hreg'⟩ := ih _ (some n) (cs ++ [c]) (hreg1.recordEdge ln _)
    refine ⟨st', ?_, by simpa using hreg'⟩
    simp only [walkCalls, hv]
    exact hw

theorem walk_edgeInv :
    ∀ (gs : List (List Call)) (st : State) (cs : List Call) (st' : State),
      RegInv st cs → EdgeInv st → walk st gs = some st' → EdgeInv st' := by
  intro gs
  induction gs with
  | nil =>
    intro st cs st' _ he hw
    simp only [walk, Option.some.injEq] at hw
    exact hw ▸ he
  | cons g gs ih =>
    intro st cs st' h he hw
    obtain ⟨st1, hw1, hreg1⟩ := walkCalls_reg g st none cs h
    have he1 := walkCalls_edgeInv g st none cs st1 h he (by simp) hw1
    simp only [walk, hw1] at hw
    exact ih st1 (cs ++ g) st' hreg1 he1 hw

theorem aggregate_edgeInv (gs : List (List Call)) (st : State) (h : aggregate gs = some st) :
    EdgeInv st :=
  walk_edgeInv gs State.init [] st RegInv.init edgeInv_init h

/-! ## The rendered text -/

theorem nodeStmt_out (out : String) (n : node) (total max : Nat) :
    nodeStmt out n total max = out ++ nodeStmt "" n total max := by
  rw [nodeStmt_quoted out, nodeStmt_quoted ""]
  apply String.ext
  simp [String.data_append]

theorem renderNodes_eq (total max : Nat) :
    ∀ (nodes : List node) (out : String),
      renderNodes out total max nodes
        = out ++ concatText (nodes.map (fun n => nodeStmt "" n total max)) := by
  intro nodes
  induction nodes with
  | nil =>
    intro out
    apply String.ext
    simp [renderNodes, concatText, String.data_append]
  | cons n nodes ih =>
    intro out
    rw [renderNodes, ih, nodeStmt_out]
    simp only [List.map_cons, concatText, String.append_assoc]

theorem edgeStmt_line (out : String) (e : edge) (w total : Nat) (ht : 1 ≤ total) :
    edgeStmt out e w total = some (out ++ edgeLine e w total) :=
  edgeStmt_text out e w total ht

theorem renderEdges_eq (total : Nat) (ht : 1 ≤ total) :
    ∀ (order : List (edge × Nat)) (out : String),
      renderEdges out total order
        = some (out ++ concatText (order.map (fun p => edgeLine p.1 p.2 total))) := by
  intro order
  induction order with
  | nil =>
    intro out
    simp only [renderEdges, List.map_nil, concatText, Option.some.injEq]
    apply String.ext
    simp [String.data_append]
  | cons p order ih =>
    intro out
    obtain ⟨e, w⟩ := p
    simp only [renderEdges, edgeStmt_line out e w total ht, ih, List.map_cons, concatText,
      String.append_assoc]

theorem main_eq (gs : List (List Call)) (st : State) (order : List (edge × Nat))
    (hagg : aggregate gs = some st) (h : order = [] ∨ 1 ≤ gs.length) :
    main gs order = some ("digraph goroutines \x7b\n"
      ++ "node [style=filled fillcolor=\"#f8f8f8\"];\n"
      ++ concatText (st.nodes.map (fun n => nodeStmt "" n gs.length st.max))
      ++ concatText (order.map (fun p => edgeLine p.1 p.2 gs.length))
      ++ "\x7d\n") := by
  have hedges : renderEdges
      (renderNodes (outputString (outputString "" "digraph goroutines \x7b\n")
        "node [style=filled fillcolor=\"#f8f8f8\"];\n") gs.length st.max st.nodes) gs.length order
      = some (renderNodes (outputString (outputString "" "digraph goroutines \x7b\n")
        "node [style=filled fillcolor=\"#f8f8f8\"];\n") gs.length st.max st.nodes
        ++ concatText (order.map (fun p => edgeLine p.1 p.2 gs.length))) := by
    rcases h with h | h
    · subst h
      simp only [renderEdges, List.map_nil, concatText, Option.some.injEq]
      apply String.ext
      simp [String.data_append]
    · exact renderEdges_eq gs.length h order _
  unfold main
  simp only [hagg]
  rw [hedges]
  simp only [renderNodes_eq, outputString, Option.some.injEq]
  apply String.ext
  simp [String.data_append]

theorem aggregate_nil : aggregate [] = some State.init := rfl

theorem RegInv.weight_pos {st : State} {cs : List Call} (h : RegInv st cs) :
    ∀ n ∈ st.nodes, 1 ≤ n.Weight := by
  intro n hn
  obtain ⟨i, hi⟩ := List.mem_iff_getElem?.mp hn
  have hnodes := h.nodes i
  rw [hi] at hnodes
  cases hget : (firstSeen (cs.map Call.FullSourceLine))[i]? with
  | none => rw [hget] at hnodes; simp at hnodes
  | some sig =>
    rw [hget] at hnodes
    obtain ⟨_, hmem⟩ := h.index_eq hget
    rw [Option.some.inj hnodes]
    exact List.count_pos_iff.mpr hmem

theorem RegInv.nodes_ne_nil {st : State} {cs : List Call} (h : RegInv st cs) (hcs : cs ≠ []) :
    st.nodes ≠ [] := by
  obtain ⟨c, hc⟩ := List.exists_mem_of_ne_nil cs hcs
  have hmem : c.FullSourceLine ∈ firstSeen (cs.map Call.FullSourceLine) :=
    (mem_firstSeen _ _).mpr (List.mem_map.mpr ⟨c, hc, rfl⟩)
  intro hnil
  have hlen := h.len
  rw [hnil] at hlen
  have : firstSeen (cs.map Call.FullSourceLine) = [] := List.length_eq_zero.mp hlen.symm
  rw [this] at hmem
  simp at hmem

theorem foldl_max_spec (l : List node) :
    ∀ a : Nat,
      a ≤ l.foldl (fun m n => if n.Weight > m then n.Weight else m) a ∧
      (∀ n ∈ l, n.Weight ≤ l.foldl (fun m n => if n.Weight > m then n.Weight else m) a) ∧
      (l.foldl (fun m n => if n.Weight > m then n.Weight else m) a = a ∨
        ∃ n ∈ l, n.Weight = l.foldl (fun m n => if n.Weight > m then n.Weight else m) a) := by
  induction l with
  | nil => intro a; simp
  | cons x l ih =>
    intro a
    simp only [List.foldl_cons]
    obtain ⟨h1, h2, h3⟩ := ih (if x.Weight > a then x.Weight else a)
    by_cases hx : x.Weight > a
    · rw [if_pos hx] at h1 h2 h3 ⊢
      refine ⟨by omega, ?_, ?_⟩
      · intro n hn
        rcases List.mem_cons.mp hn with e | e
        · subst e
          exact h1
        · exact h2 n e
      · rcases h3 with e | ⟨n, hn, e⟩
        · exact Or.inr ⟨x, List.mem_cons_self _ _, e.symm⟩
        · exact Or.inr ⟨n, List.mem_cons_of_mem _ hn, e⟩
    · rw [if_neg hx] at h1 h2 h3 ⊢
      refine ⟨h1, ?_, ?_⟩
      · intro n hn
        rcases List.mem_cons.mp hn with e | e
        · subst e
          omega
        · exact h2 n e
      · rcases h3 with e | ⟨n, hn, e⟩
        · exact Or.inl e
        · exact Or.inr ⟨n, List.mem_cons_of_mem _ hn, e⟩

/-- C16: the running maximum kept by the walk is the maximum a second pass over
the finished nodes computes: for an input with at least one frame the final
`max` is the largest `Weight` among the nodes (it bounds every weight and some
node has it); for an input with no frame `max` is 1 and there is no node. -/
theorem C16_running_max (gs : List (List Call)) :
    ∃ st, aggregate gs = some st ∧
      (gs.flatten ≠ [] →
        st.max = maxWeightPass st.nodes ∧ (∀ n ∈ st.nodes, n.Weight ≤ st.max) ∧
        ∃ n ∈ st.nodes, n.Weight = st.max) ∧
      (gs.flatten = [] → st.max = 1 ∧ st.nodes = []) := by
  obtain ⟨st, hagg, hreg, _⟩ := aggregate_spec gs
  refine ⟨st, hagg, ?_, ?_⟩
  · intro hne
    have hnn := hreg.nodes_ne_nil hne
    obtain ⟨n₀, hn₀⟩ := List.exists_mem_of_ne_nil st.nodes hnn
    have hpos := hreg.weight_pos
    have hatt : ∃ n ∈ st.nodes, n.Weight = st.max := by
      rcases hreg.max_attained with h1 | h
      · refine ⟨n₀, hn₀, ?_⟩
        have := hpos n₀ hn₀
        have := hreg.max_ge n₀ hn₀
        omega
      · exact h
    refine ⟨?_, hreg.max_ge, hatt⟩
    obtain ⟨_, h2, h3⟩ := foldl_max_spec st.nodes 0
    obtain ⟨n, hn, hnw⟩ := hatt
    unfold maxWeightPass
    have hle := h2 n hn
    rcases h3 with e | ⟨m, hm, e⟩
    · have := hpos n hn
      omega
    · have := hreg.max_ge m hm
      omega
  · intro hnil
    have h0 : RegInv st [] := hnil ▸ hreg
    have hlen := h0.len
    have hn : st.nodes = [] := List.length_eq_zero.mp (by simpa [firstSeen] using hlen)
    refine ⟨?_, hn⟩
    rcases h0.max_attained with h1 | ⟨n, hmem, _⟩
    · exact h1
    · rw [hn] at hmem
      simp at hmem

/-- C13, refuted on the empty input: with zero goroutines the program does not
fail, it writes the two header lines and the closing line. -/
theorem C13_empty_input_not_refused :
    main [] [] ≠ none ∧
    Emits [] "digraph goroutines \x7b\nnode [style=filled fillcolor=\"#f8f8f8\"];\n\x7d\n" := by
  refine ⟨by decide, State.init, [], rfl, List.Perm.refl _, by decide⟩

/-- C13 as amended: with zero goroutines the program does not fail and divides
by nothing; every run writes exactly the graph header, the default node style
line and the closing line, with no node and no edge statement. -/
theorem C13_empty_input_output (out : String) :
    Emits [] out ↔
      out = "digraph goroutines \x7b\nnode [style=filled fillcolor=\"#f8f8f8\"];\n\x7d\n" := by
  constructor
  · rintro ⟨st, order, hagg, hperm, hmain⟩
    rw [aggregate_nil] at hagg
    have hst : st = State.init := (Option.some.inj hagg).symm
    subst hst
    have ho : order = [] := List.Perm.eq_nil hperm
    subst ho
    have : main [] [] = some
        "digraph goroutines \x7b\nnode [style=filled fillcolor=\"#f8f8f8\"];\n\x7d\n" := by
      decide
    rw [this] at hmain
    exact (Option.some.inj hmain).symm
  · intro h
    subst h
    exact ⟨State.init, [], rfl, List.Perm.refl _, by decide⟩

theorem aggregate_length_pos (gs : List (List Call)) (st : State) (hagg : aggregate gs = some st)
    (h : st.nodes ≠ [] ∨ st.edges ≠ []) : 1 ≤ gs.length := by
  cases gs with
  | nil =>
    rw [aggregate_nil] at hagg
    have hst : st = State.init := (Option.some.inj hagg).symm
    subst hst
    rcases h with h | h <;> exact absurd rfl h
  | cons g gs => simp

theorem order_cases (gs : List (List Call)) (st : State) (order : List (edge × Nat))
    (hagg : aggregate gs = some st) (hperm : order.Perm st.edges) :
    order = [] ∨ 1 ≤ gs.length := by
  cases order with
  | nil => exact Or.inl rfl
  | cons p order =>
    right
    apply aggregate_length_pos gs st hagg
    right
    intro hnil
    rw [hnil] at hperm
    exact List.cons_ne_nil _ _ (List.Perm.eq_nil hperm)

/-- C17: the text of every run is, in this order, the header line, the default
node style line, one node statement for each node in the order of the node
list (statement `i` is keyed `N<i>`, since node `i` has ID `i`), one edge
statement for each entry of the edge map in the order of the iteration (an
order that holds every key of the map exactly once), and the closing line. The
node statements thus all come before the edge statements. -/
theorem C17_render_order (gs : List (List Call)) :
    ∃ st, aggregate gs = some st ∧
      st.nodes.map node.ID = List.range st.nodes.length ∧
      (st.edges.map Prod.fst).Nodup ∧
      (∀ n ∈ st.nodes, nodeStmt "" n gs.length st.max
        = "N" ++ Itoa n.ID ++ " [fontsize=\"" ++ Itoa (fontSize st.max n.Weight)
          ++ "\",label=\"" ++ dotQuote (nodeLabel n gs.length) ++ "\",shape=\"box\"];\n") ∧
      ∀ order : List (edge × Nat), order.Perm st.edges →
        main gs order = some ("digraph goroutines \x7b\n"
          ++ "node [style=filled fillcolor=\"#f8f8f8\"];\n"
          ++ concatText (st.nodes.map (fun n => nodeStmt "" n gs.length st.max))
          ++ concatText (order.map (fun p => edgeLine p.1 p.2 gs.length))
          ++ "\x7d\n") ∧
        (order.map Prod.fst).Nodup ∧
        (∀ k, k ∈ order.map Prod.fst ↔ k ∈ st.edges.map Prod.fst) ∧
        (st.nodes.map (fun n => nodeStmt "" n gs.length st.max)).length = st.nodes.length ∧
        (order.map (fun p => edgeLine p.1 p.2 gs.length)).length = st.edges.length := by
  obtain ⟨st, hagg, hreg, _⟩ := aggregate_spec gs
  have hinv := aggregate_edgeInv gs st hagg
  refine ⟨st, hagg, hreg.ids, hinv.nodup, ?_, ?_⟩
  · intro n _
    rw [nodeStmt_quoted, dotQuote_Itoa, dotQuote_of_no_quote "box" (by decide)]
    apply String.ext
    simp [String.data_append]
  · intro order hperm
    have hkeys : (order.map Prod.fst).Perm (st.edges.map Prod.fst) := hperm.map _
    refine ⟨main_eq gs st order hagg (order_cases gs st order hagg hperm), ?_, ?_, ?_, ?_⟩
    · exact hkeys.nodup_iff.mpr hinv.nodup
    · intro k
      exact hkeys.mem_iff
    · simp
    · simp [hperm.length_eq]

/-- C18, refuted on the stack `[a, b, c]`: its edge map has the two entries
`(1,0)` and `(2,1)`, and the two orders in which the iteration can yield them
give two different texts. -/
theorem C18_two_renders_differ :
    ∃ out₁ out₂,
      Emits [[⟨"a.go:1", "pkg.A"⟩, ⟨"b.go:2", "pkg.B"⟩, ⟨"c.go:3", "pkg.C"⟩]] out₁ ∧
      Emits [[⟨"a.go:1", "pkg.A"⟩, ⟨"b.go:2", "pkg.B"⟩, ⟨"c.go:3", "pkg.C"⟩]] out₂ ∧
      out₁ ≠ out₂ := by
  have hagg : aggregate [[⟨"a.go:1", "pkg.A"⟩, ⟨"b.go:2", "pkg.B"⟩, ⟨"c.go:3", "pkg.C"⟩]]
      = some ⟨[⟨0, "pkg.A", 1⟩, ⟨1, "pkg.B", 1⟩, ⟨2, "pkg.C", 1⟩],
        [("a.go:1", 0), ("b.go:2", 1), ("c.go:3", 2)], [(⟨1, 0⟩, 1), (⟨2, 1⟩, 1)], 1⟩ := by
    decide
  have h₁ := main_eq _ _ [(⟨1, 0⟩, 1), (⟨2, 1⟩, 1)] hagg (Or.inr (by decide))
  have h₂ := main_eq _ _ [(⟨2, 1⟩, 1), (⟨1, 0⟩, 1)] hagg (Or.inr (by decide))
  refine ⟨_, _, ⟨_, _, hagg, List.Perm.refl _, h₁⟩, ⟨_, _, hagg, List.Perm.swap _ _ _, h₂⟩, ?_⟩
  intro h
  have hd := congrArg String.data h
  simp only [String.data_append, List.append_assoc, List.append_cancel_left_eq,
    List.append_cancel_right_eq, List.map_cons, List.map_nil, concatText] at hd
  revert hd
  decide

/-- C18 as amended: the text of a run is a function of the input and of the
order in which the iteration of the edge map yields its entries, and of nothing
else. The texts the program can write on an input are exactly these: the header
line, the node style line, the node statements in the order of the node list
(the same in every run), then the edge statements of the entries of the edge
map in one of the orders of these entries, then the closing line. Two runs thus
differ at most in the order of their edge statements; they write the same text
when the iteration yields the entries in the same order, and always when the
edge map has at most one entry. -/
theorem C18_determined_up_to_edge_order (gs : List (List Call)) :
    ∃ st, aggregate gs = some st ∧
      (∀ out : String, Emits gs out ↔
        ∃ order : List (edge × Nat), order.Perm st.edges ∧
          out = "digraph goroutines \x7b\n"
            ++ "node [style=filled fillcolor=\"#f8f8f8\"];\n"
            ++ concatText (st.nodes.map (fun n => nodeStmt "" n gs.length st.max))
            ++ concatText (order.map (fun p => edgeLine p.1 p.2 gs.length))
            ++ "\x7d\n") ∧
      (∀ (order : List (edge × Nat)) (out₁ out₂ : String),
        main gs order = some out₁ → main gs order = some out₂ → out₁ = out₂) ∧
      (st.edges.length ≤ 1 →
        ∀ out₁ out₂ : String, Emits gs out₁ → Emits gs out₂ → out₁ = out₂) := by
  obtain ⟨st, hagg, _, _⟩ := aggregate_spec gs
  have key : ∀ out : String, Emits gs out ↔
      ∃ order : List (edge × Nat), order.Perm st.edges ∧
        out = "digraph goroutines \x7b\n"
          ++ "node [style=filled fillcolor=\"#f8f8f8\"];\n"
          ++ concatText (st.nodes.map (fun n => nodeStmt "" n gs.length st.max))
          ++ concatText (order.map (fun p => edgeLine p.1 p.2 gs.length))
          ++ "\x7d\n" := by
    intro out
    constructor
    · rintro ⟨st₁, o, hagg₁, hp, hm⟩
      have e₁ : st₁ = st := Option.some.inj (hagg₁.symm.trans hagg)
      rw [e₁] at hp
      rw [main_eq gs st o hagg (order_cases gs st o hagg hp)] at hm
      exact ⟨o, hp, (Option.some.inj hm).symm⟩
    · rintro ⟨o, hp, ho⟩
      refine ⟨st, o, hagg, hp, ?_⟩
      rw [main_eq gs st o hagg (order_cases gs st o hagg hp), ho]
  refine ⟨st, hagg, key, ?_, ?_⟩
  · intro order out₁ out₂ h₁ h₂
    exact Option.some.inj (h₁.symm.trans h₂)
  · intro hlen out₁ out₂ h₁ h₂
    obtain ⟨o₁, hp₁, e₁⟩ := (key out₁).mp h₁
    obtain ⟨o₂, hp₂, e₂⟩ := (key out₂).mp h₂
    have hp : o₁.Perm o₂ := hp₁.trans hp₂.symm
    have ho : o₁ = o₂ := by
      have hl₁ : o₁.length ≤ 1 := by rw [hp₁.length_eq]; exact hlen
      match o₁, o₂, hp, hl₁ with
      | [], o₂, hp, _ => exact (List.Perm.eq_nil hp.symm).symm
      | [a], o₂, hp, _ => exact (List.perm_singleton.mp hp.symm).symm
      | _ :: _ :: _, _, _, hl => simp at hl
    rw [e₁, e₂, ho]

/-- C20: rendering never divides by zero. If the node list or the edge map is
not empty there is at least one goroutine, so the divisions by `total` of the
edge loop are defined for every entry of the edge map and every run returns its
text without a panic; with zero goroutines there is no node and no edge, so
both loops run zero times. -/
theorem C20_no_division_by_zero (gs : List (List Call)) :
    ∃ st, aggregate gs = some st ∧
      ((st.nodes ≠ [] ∨ st.edges ≠ []) → 1 ≤ gs.length) ∧
      (∀ p ∈ st.edges, 1 ≤ gs.length ∧ (edgeAttrs p.2 gs.length).isSome = true) ∧
      (∀ n ∈ st.nodes, 1 ≤ gs.length) ∧
      (gs = [] → st.nodes = [] ∧ st.edges = []) ∧
      (∀ order : List (edge × Nat), order.Perm st.edges → (main gs order).isSome = true) := by
  obtain ⟨st, hagg, _, _⟩ := aggregate_spec gs
  refine ⟨st, hagg, aggregate_length_pos gs st hagg, ?_, ?_, ?_, ?_⟩
  · intro p hp
    have hlen : 1 ≤ gs.length :=
      aggregate_length_pos gs st hagg (Or.inr (List.ne_nil_of_mem hp))
    refine ⟨hlen, ?_⟩
    rw [edgeAttrs_wrapped _ _ hlen]
    rfl
  · intro n hn
    exact aggregate_length_pos gs st hagg (Or.inl (List.ne_nil_of_mem hn))
  · intro hnil
    subst hnil
    rw [aggregate_nil] at hagg
    have hst : st = State.init := (Option.some.inj hagg).symm
    subst hst
    exact ⟨rfl, rfl⟩
  · intro order hperm
    rw [main_eq gs st order hagg (order_cases gs st order hagg hperm)]
    rfl

/-! ## Rounding to 53 bits -/

theorem bitLenAux_le_iff : ∀ (fuel n k : Nat), n ≤ fuel → (bitLenAux fuel n ≤ k ↔ n < 2 ^ k) := by
  intro fuel
  induction fuel with
  | zero =>
    intro n k hn
    have : n = 0 := by omega
    subst this
    simp [bitLenAux]
  | succ fuel ih =>
    intro n k hn
    by_cases h0 : n = 0
    · subst h0
      simp [bitLenAux]
    · simp only [bitLenAux, h0, if_false]
      cases k with
      | zero =>
        simp
        omega
      | succ k =>
        have hdiv : n / 2 ≤ fuel := by omega
        rw [Nat.add_le_add_iff_right, ih (n / 2) k hdiv, Nat.div_lt_iff_lt_mul (by decide),
          Nat.pow_succ]

theorem bitLen_le_iff (n k : Nat) : bitLen n ≤ k ↔ n < 2 ^ k :=
  bitLenAux_le_iff n n k (Nat.le_refl n)

theorem lt_bitLen_iff (n k : Nat) : k < bitLen n ↔ 2 ^ k ≤ n := by
  have := bitLen_le_iff n k
  omega

theorem bitLen_mono {a b : Nat} (h : a ≤ b) : bitLen a ≤ bitLen b := by
  rw [bitLen_le_iff]
  have : b < 2 ^ bitLen b := (bitLen_le_iff b (bitLen b)).mp (Nat.le_refl _)
  omega

theorem lt_pow_bitLen (n : Nat) : n < 2 ^ bitLen n :=
  (bitLen_le_iff n (bitLen n)).mp (Nat.le_refl _)

theorem pow_bitLen_le (n : Nat) (h : 0 < bitLen n) : 2 ^ (bitLen n - 1) ≤ n :=
  (lt_bitLen_iff n (bitLen n - 1)).mp (by omega)

theorem bitLen_eq_of (n k : Nat) (h1 : 2 ^ k ≤ n) (h2 : n < 2 ^ (k + 1)) : bitLen n = k + 1 := by
  have a := (lt_bitLen_iff n k).mpr h1
  have b := (bitLen_le_iff n (k + 1)).mpr h2
  omega

theorem roundBits_eq (q : Nat) (sticky : Bool) (e : Int) :
    roundBits q sticky e = F64.fin (rbMant q sticky) (e + rbShift q) := by
  unfold roundBits rbMant rbShift
  by_cases h : bitLen q ≤ 53
  · have : bitLen q - 53 = 0 := by omega
    simp [h, this]
  · simp only [h, if_false]

/-- The parts of a rounding of `q` when `q` has more than 53 bits. -/
theorem rb_parts (q : Nat) (h : 53 < bitLen q) :
    2 ^ 52 ≤ q / 2 ^ (bitLen q - 53) ∧ q / 2 ^ (bitLen q - 53) < 2 ^ 53 ∧
    2 * 2 ^ (bitLen q - 53 - 1) = 2 ^ (bitLen q - 53) ∧
    q % 2 ^ (bitLen q - 53) < 2 ^ (bitLen q - 53) := by
  have hpos : 0 < 2 ^ (bitLen q - 53) := Nat.pow_pos (by decide)
  have hlt := lt_pow_bitLen q
  have hle := pow_bitLen_le q (by omega)
  have e1 : 2 ^ (bitLen q) = 2 ^ 53 * 2 ^ (bitLen q - 53) := by
    rw [← Nat.pow_add]; congr 1; omega
  have e2 : 2 ^ (bitLen q - 1) = 2 ^ 52 * 2 ^ (bitLen q - 53) := by
    rw [← Nat.pow_add]; congr 1; omega
  refine ⟨?_, ?_, ?_, Nat.mod_lt _ hpos⟩
  · rw [Nat.le_div_iff_mul_le hpos, ← e2]
    exact hle
  · rw [Nat.div_lt_iff_lt_mul hpos, ← e1]
    exact hlt
  · rw [← Nat.pow_succ']
    congr 1
    omega

theorem rbVal_small (q : Nat) (st : Bool) (h : bitLen q ≤ 53) : rbVal q st = q := by
  unfold rbVal rbMant rbShift
  have : bitLen q - 53 = 0 := by omega
  simp [h, this]

theorem rbMant_big (q : Nat) (st : Bool) (h : 53 < bitLen q) :
    rbMant q st = q / 2 ^ (bitLen q - 53) ∨ rbMant q st = q / 2 ^ (bitLen q - 53) + 1 := by
  unfold rbMant
  rw [if_neg (by omega)]
  split
  · exact Or.inr rfl
  · exact Or.inl rfl

/-- Bounds on the value of a rounding of `q` with more than 53 bits. -/
theorem rbVal_bounds (q : Nat) (st : Bool) (h : 53 < bitLen q) :
    2 ^ (bitLen q - 1) ≤ rbVal q st ∧ rbVal q st ≤ 2 ^ bitLen q ∧
    q / 2 ^ (bitLen q - 53) * 2 ^ (bitLen q - 53) ≤ rbVal q st ∧
    rbVal q st ≤ (q / 2 ^ (bitLen q - 53) + 1) * 2 ^ (bitLen q - 53) := by
  obtain ⟨h1, h2, _, _⟩ := rb_parts q h
  have e1 : 2 ^ (bitLen q) = 2 ^ 53 * 2 ^ (bitLen q - 53) := by
    rw [← Nat.pow_add]; congr 1; omega
  have e2 : 2 ^ (bitLen q - 1) = 2 ^ 52 * 2 ^ (bitLen q - 53) := by
    rw [← Nat.pow_add]; congr 1; omega
  have hlo : q / 2 ^ (bitLen q - 53) * 2 ^ (bitLen q - 53) ≤ rbVal q st := by
    unfold rbVal rbShift
    apply Nat.mul_le_mul_right
    rcases rbMant_big q st h with e | e <;> omega
  have hhi : rbVal q st ≤ (q / 2 ^ (bitLen q - 53) + 1) * 2 ^ (bitLen q - 53) := by
    unfold rbVal rbShift
    apply Nat.mul_le_mul_right
    rcases rbMant_big q st h with e | e <;> omega
  refine ⟨?_, ?_, hlo, hhi⟩
  · rw [e2]
    exact le_trans (Nat.mul_le_mul_right _ h1) hlo
  · rw [e1]
    exact le_trans hhi (Nat.mul_le_mul_right _ (by omega))

theorem rbMant_big_eq (q : Nat) (st : Bool) (h : 53 < bitLen q) :
    rbMant q st = if (q % 2 ^ (bitLen q - 53) > 2 ^ (bitLen q - 53 - 1) ∨
        (q % 2 ^ (bitLen q - 53) = 2 ^ (bitLen q - 53 - 1) ∧
          (st = true ∨ q / 2 ^ (bitLen q - 53) % 2 = 1)))
      then q / 2 ^ (bitLen q - 53) + 1 else q / 2 ^ (bitLen q - 53) := by
  unfold rbMant
  rw [if_neg (by omega)]
  by_cases hc : (q % 2 ^ (bitLen q - 53) > 2 ^ (bitLen q - 53 - 1) ∨
        (q % 2 ^ (bitLen q - 53) = 2 ^ (bitLen q - 53 - 1) ∧
          (st = true ∨ q / 2 ^ (bitLen q - 53) % 2 = 1)))
  · rw [if_pos hc, if_pos]
    simpa [Bool.or_eq_true, Bool.and_eq_true, decide_eq_true_eq] using hc
  · rw [if_neg hc, if_neg]
    simpa [Bool.or_eq_true, Bool.and_eq_true, decide_eq_true_eq] using hc

/-- Rounding is monotone: a smaller truncated value, or the same one with a
weaker sticky bit, rounds to a value that is not larger. -/
theorem rbVal_mono (q₁ q₂ : Nat) (st₁ st₂ : Bool) (hq : q₁ ≤ q₂)
    (hst : q₁ = q₂ → st₁ = true → st₂ = true) : rbVal q₁ st₁ ≤ rbVal q₂ st₂ := by
  have hlen := bitLen_mono hq
  by_cases h2 : bitLen q₂ ≤ 53
  · rw [rbVal_small q₁ st₁ (by omega), rbVal_small q₂ st₂ h2]
    exact hq
  · have h2' : 53 < bitLen q₂ := by omega
    obtain ⟨b1, b2, b3, b4⟩ := rbVal_bounds q₂ st₂ h2'
    by_cases h1 : bitLen q₁ ≤ 53
    · rw [rbVal_small q₁ _ h1]
      have a1 : q₁ < 2 ^ 53 := (bitLen_le_iff q₁ 53).mp h1
      have a2 : 2 ^ 53 ≤ 2 ^ (bitLen q₂ - 1) := Nat.pow_le_pow_right (by decide) (by omega)
      omega
    · have h1' : 53 < bitLen q₁ := by omega
      obtain ⟨c1, c2, c3, c4⟩ := rbVal_bounds q₁ st₁ h1'
      by_cases hl : bitLen q₁ < bitLen q₂
      · have a2 : 2 ^ (bitLen q₁) ≤ 2 ^ (bitLen q₂ - 1) :=
          Nat.pow_le_pow_right (by decide) (by omega)
        omega
      · have hl' : bitLen q₁ = bitLen q₂ := by omega
        rw [hl'] at c3 c4
        have hhi : q₁ / 2 ^ (bitLen q₂ - 53) ≤ q₂ / 2 ^ (bitLen q₂ - 53) :=
          Nat.div_le_div_right hq
        by_cases hh : q₁ / 2 ^ (bitLen q₂ - 53) < q₂ / 2 ^ (bitLen q₂ - 53)
        · have : (q₁ / 2 ^ (bitLen q₂ - 53) + 1) * 2 ^ (bitLen q₂ - 53)
              ≤ q₂ / 2 ^ (bitLen q₂ - 53) * 2 ^ (bitLen q₂ - 53) :=
            Nat.mul_le_mul_right _ hh
          omega
        · have hhe : q₁ / 2 ^ (bitLen q₂ - 53) = q₂ / 2 ^ (bitLen q₂ - 53) := by omega
          have d1 := Nat.div_add_mod q₁ (2 ^ (bitLen q₂ - 53))
          have d2 := Nat.div_add_mod q₂ (2 ^ (bitLen q₂ - 53))
          rw [hhe] at d1
          have hlo : q₁ % 2 ^ (bitLen q₂ - 53) ≤ q₂ % 2 ^ (bitLen q₂ - 53) := by omega
          have hloeq : q₁ % 2 ^ (bitLen q₂ - 53) = q₂ % 2 ^ (bitLen q₂ - 53) → q₁ = q₂ := by
            intro e
            omega
          unfold rbVal rbShift
          rw [hl']
          apply Nat.mul_le_mul_right
          rw [rbMant_big_eq q₁ st₁ h1', rbMant_big_eq q₂ st₂ h2', hl', hhe]
          by_cases hc₁ : (q₁ % 2 ^ (bitLen q₂ - 53) > 2 ^ (bitLen q₂ - 53 - 1) ∨
              (q₁ % 2 ^ (bitLen q₂ - 53) = 2 ^ (bitLen q₂ - 53 - 1) ∧
                (st₁ = true ∨ q₂ / 2 ^ (bitLen q₂ - 53) % 2 = 1)))
          · have hc₂ : (q₂ % 2 ^ (bitLen q₂ - 53) > 2 ^ (bitLen q₂ - 53 - 1) ∨
                (q₂ % 2 ^ (bitLen q₂ - 53) = 2 ^ (bitLen q₂ - 53 - 1) ∧
                  (st₂ = true ∨ q₂ / 2 ^ (bitLen q₂ - 53) % 2 = 1))) := by
              rcases hc₁ with g | ⟨g1, g2⟩
              · exact Or.inl (by omega)
              · by_cases hgt : q₂ % 2 ^ (bitLen q₂ - 53) > 2 ^ (bitLen q₂ - 53 - 1)
                · exact Or.inl hgt
                · have he : q₁ % 2 ^ (bitLen q₂ - 53) = q₂ % 2 ^ (bitLen q₂ - 53) := by omega
                  refine Or.inr ⟨by omega, ?_⟩
                  rcases g2 with g | g
                  · exact Or.inl (hst (hloeq he) g)
                  · exact Or.inr g
            rw [if_pos hc₁, if_pos hc₂]
          · rw [if_neg hc₁]
            split <;> omega

theorem rbVal_le_pow (a : Nat) (h : a ≤ 2 ^ 53) : rbVal a false = a := by
  by_cases hlt : a < 2 ^ 53
  · exact rbVal_small a false ((bitLen_le_iff a 53).mpr hlt)
  · have : a = 2 ^ 53 := by omega
    subst this
    decide

theorem scaled_cmp (t P lo half : Nat) (ht : t < P) :
    (t + P * lo > P * half ↔ lo > half ∨ (lo = half ∧ t > 0)) ∧
    (t + P * lo = P * half ↔ lo = half ∧ t = 0) := by
  rcases Nat.lt_trichotomy lo half with h | h | h
  · have h1 : P * (lo + 1) ≤ P * half := Nat.mul_le_mul_left _ h
    rw [Nat.mul_succ] at h1
    constructor <;> constructor <;> intro g <;> omega
  · subst h
    constructor <;> constructor <;> intro g <;> omega
  · have h1 : P * (half + 1) ≤ P * lo := Nat.mul_le_mul_left _ h
    rw [Nat.mul_succ] at h1
    constructor <;> constructor <;> intro g <;> omega

/-- Rounding does not depend on the scale of the truncation: when `q` already
has more than 53 bits, keeping `j` more bits `q'` of the same value (with the
sticky bit of `q` recording what was cut) rounds to the same value. -/
theorem rbVal_refine (q q' : Nat) (st st' : Bool) (j : Nat) (hlen : 53 < bitLen q)
    (hq : q = q' / 2 ^ j) (hst : st = true ↔ (q' % 2 ^ j ≠ 0 ∨ st' = true)) :
    rbVal q' st' = rbVal q st * 2 ^ j := by
  have hP : 0 < 2 ^ j := Nat.pow_pos (by decide)
  have hlo := pow_bitLen_le q (by omega)
  have hhi := lt_pow_bitLen q
  have hlen' : bitLen q' = bitLen q + j := by
    have e : bitLen q + j = (bitLen q - 1 + j) + 1 := by omega
    rw [e]
    apply bitLen_eq_of
    · rw [Nat.pow_add]
      have hlo2 : 2 ^ (bitLen q - 1) ≤ q' / 2 ^ j := by rw [← hq]; exact hlo
      exact (Nat.le_div_iff_mul_le hP).mp hlo2
    · rw [← e, Nat.pow_add]
      have hhi2 : q' / 2 ^ j < 2 ^ bitLen q := by rw [← hq]; exact hhi
      exact (Nat.div_lt_iff_lt_mul hP).mp hhi2
  have hd : bitLen q' - 53 = j + (bitLen q - 53) := by omega
  have hd1 : bitLen q' - 53 - 1 = j + (bitLen q - 53 - 1) := by omega
  have hhi' : q' / 2 ^ (bitLen q' - 53) = q / 2 ^ (bitLen q - 53) := by
    rw [hd, Nat.pow_add, ← Nat.div_div_eq_div_mul, ← hq]
  have hlo' : q' % 2 ^ (bitLen q' - 53) = q' % 2 ^ j + 2 ^ j * (q % 2 ^ (bitLen q - 53)) := by
    rw [hd, Nat.pow_add, Nat.mod_mul, ← hq]
  have hhalf : 2 ^ (bitLen q' - 53 - 1) = 2 ^ j * 2 ^ (bitLen q - 53 - 1) := by
    rw [hd1, Nat.pow_add]
  have ht : q' % 2 ^ j < 2 ^ j := Nat.mod_lt _ hP
  obtain ⟨c1, c2⟩ := scaled_cmp (q' % 2 ^ j) (2 ^ j) (q % 2 ^ (bitLen q - 53))
    (2 ^ (bitLen q - 53 - 1)) ht
  have hmant : rbMant q' st' = rbMant q st := by
    rw [rbMant_big_eq q' st' (by omega), rbMant_big_eq q st hlen, hhi', hlo', hhalf]
    by_cases hc : (q % 2 ^ (bitLen q - 53) > 2 ^ (bitLen q - 53 - 1) ∨
        (q % 2 ^ (bitLen q - 53) = 2 ^ (bitLen q - 53 - 1) ∧
          (st = true ∨ q / 2 ^ (bitLen q - 53) % 2 = 1)))
    · rw [if_pos hc, if_pos]
      rcases hc with g | ⟨g1, g2⟩
      · exact Or.inl (c1.mpr (Or.inl g))
      · by_cases ht0 : q' % 2 ^ j = 0
        · refine Or.inr ⟨c2.mpr ⟨g1, ht0⟩, ?_⟩
          rcases g2 with g | g
          · rcases hst.mp g with g' | g'
            · exact absurd ht0 g'
            · exact Or.inl g'
          · exact Or.inr g
        · exact Or.inl (c1.mpr (Or.inr ⟨g1, by omega⟩))
    · rw [if_neg hc, if_neg]
      rintro (g | ⟨g1, g2⟩)
      · rcases c1.mp g with g' | ⟨g1', g2'⟩
        · exact hc (Or.inl g')
        · exact hc (Or.inr ⟨g1', Or.inl (hst.mpr (Or.inl (by omega)))⟩)
      · obtain ⟨g1', g2'⟩ := c2.mp g1
        rcases g2 with g | g
        · exact hc (Or.inr ⟨g1', Or.inl (hst.mpr (Or.inr g))⟩)
        · exact hc (Or.inr ⟨g1', Or.inr g⟩)
  unfold rbVal rbShift
  rw [hmant, hd, Nat.pow_add]
  ring

theorem rbVal_exact_lt (a j : Nat) (h : a < 2 ^ 53) :
    rbVal (a * 2 ^ j) false = a * 2 ^ j := by
  by_cases hs : bitLen (a * 2 ^ j) ≤ 53
  · exact rbVal_small _ _ hs
  · have hlen : 53 < bitLen (a * 2 ^ j) := by omega
    have hP : 0 < 2 ^ j := Nat.pow_pos (by decide)
    have hle : bitLen (a * 2 ^ j) - 53 ≤ j := by
      have : a * 2 ^ j < 2 ^ (53 + j) := by
        rw [Nat.pow_add]
        exact Nat.mul_lt_mul_of_lt_of_le h (Nat.le_refl _) hP
      have := (bitLen_le_iff (a * 2 ^ j) (53 + j)).mpr this
      omega
    have hdvd : 2 ^ (bitLen (a * 2 ^ j) - 53) ∣ a * 2 ^ j :=
      Dvd.dvd.mul_left (Nat.pow_dvd_pow 2 hle) a
    have hmod : (a * 2 ^ j) % 2 ^ (bitLen (a * 2 ^ j) - 53) = 0 := Nat.mod_eq_zero_of_dvd hdvd
    have hdm := Nat.div_add_mod (a * 2 ^ j) (2 ^ (bitLen (a * 2 ^ j) - 53))
    rw [hmod] at hdm
    have hpos : 0 < 2 ^ (bitLen (a * 2 ^ j) - 53 - 1) := Nat.pow_pos (by decide)
    unfold rbVal rbShift
    rw [rbMant_big_eq _ _ hlen, hmod, if_neg]
    · rw [Nat.mul_comm]
      omega
    · rintro (g | ⟨g, _⟩) <;> omega

/-- A value with at most 53 significant bits, at any scale, is not changed by
rounding. -/
theorem rbVal_exact (a j : Nat) (h : a ≤ 2 ^ 53) : rbVal (a * 2 ^ j) false = a * 2 ^ j := by
  by_cases hlt : a < 2 ^ 53
  · exact rbVal_exact_lt a j hlt
  · have ha : a = 2 ^ 53 := by omega
    have e : a * 2 ^ j = 2 ^ 52 * 2 ^ (j + 1) := by
      rw [ha, Nat.pow_succ]
      ring
    rw [e]
    exact rbVal_exact_lt (2 ^ 52) (j + 1) (by decide)

theorem rbMant_le (q : Nat) (st : Bool) : rbMant q st ≤ 2 ^ 53 := by
  by_cases h : bitLen q ≤ 53
  · have := (bitLen_le_iff q 53).mp h
    unfold rbMant
    rw [if_pos h]
    omega
  · obtain ⟨_, h2, _, _⟩ := rb_parts q (by omega)
    rcases rbMant_big q st (by omega) with e | e <;> omega

theorem rbVal_pos (q : Nat) (st : Bool) (h : 0 < q) : 0 < rbVal q st := by
  have h1 : rbVal 1 false = 1 := by decide
  have := rbVal_mono 1 q false st h (by simp)
  omega

theorem rbMant_pos (q : Nat) (st : Bool) (h : 0 < q) : 0 < rbMant q st := by
  have := rbVal_pos q st h
  unfold rbVal at this
  exact Nat.pos_of_mul_pos_right this

theorem val_fin (m : Nat) (e : Int) : (F64.fin m e).val = (m : ℚ) * (2 : ℚ) ^ e := rfl

theorem val_nonneg (a : F64) : 0 ≤ a.val := by
  cases a with
  | fin m e =>
    rw [val_fin]
    positivity
  | inf => exact le_refl _
  | nan => exact le_refl _

theorem val_roundBits (q : Nat) (st : Bool) (e : Int) :
    (roundBits q st e).val = (rbVal q st : ℚ) * (2 : ℚ) ^ e := by
  rw [roundBits_eq, val_fin, zpow_add₀ (by norm_num), zpow_natCast]
  unfold rbVal
  push_cast
  ring

/-- The value of `m * 2^e` written over a smaller exponent `μ`. -/
theorem val_shift (m : Nat) (e μ : Int) (h : μ ≤ e) :
    (m : ℚ) * (2 : ℚ) ^ e = ((m * 2 ^ (e - μ).toNat : Nat) : ℚ) * (2 : ℚ) ^ μ := by
  have he : e = μ + ((e - μ).toNat : Int) := by
    rw [Int.toNat_of_nonneg (by omega)]
    omega
  conv_lhs => rw [he, zpow_add₀ (by norm_num : (2 : ℚ) ≠ 0), zpow_natCast]
  push_cast
  ring

theorem nat_le_of_scaled (a b : Nat) (μ : Int)
    (h : (a : ℚ) * (2 : ℚ) ^ μ ≤ (b : ℚ) * (2 : ℚ) ^ μ) : a ≤ b := by
  have hpos : (0 : ℚ) < (2 : ℚ) ^ μ := by positivity
  have := le_of_mul_le_mul_right h hpos
  exact_mod_cast this

theorem scaled_le_of_nat (a b : Nat) (μ : Int) (h : a ≤ b) :
    (a : ℚ) * (2 : ℚ) ^ μ ≤ (b : ℚ) * (2 : ℚ) ^ μ := by
  have hpos : (0 : ℚ) ≤ (2 : ℚ) ^ μ := by positivity
  exact mul_le_mul_of_nonneg_right (by exact_mod_cast h) hpos

theorem le_iff_val (m₁ m₂ : Nat) (e₁ e₂ : Int) :
    F64.le (F64.fin m₁ e₁) (F64.fin m₂ e₂) = true ↔
      (F64.fin m₁ e₁).val ≤ (F64.fin m₂ e₂).val := by
  unfold F64.le
  rw [decide_eq_true_eq, val_fin, val_fin,
    val_shift m₁ e₁ (min e₁ e₂) (min_le_left _ _), val_shift m₂ e₂ (min e₁ e₂) (min_le_right _ _)]
  constructor
  · exact scaled_le_of_nat _ _ _
  · exact nat_le_of_scaled _ _ _

theorem ceilInt_le_iff (m : Nat) (e : Int) (n : Nat) :
    (F64.fin m e).ceilInt ≤ n ↔ (F64.fin m e).val ≤ (n : ℚ) := by
  have hc : (F64.fin m e).ceilInt
      = if 0 ≤ e then m * 2 ^ e.toNat else (m + 2 ^ (-e).toNat - 1) / 2 ^ (-e).toNat := rfl
  rw [hc, val_fin]
  by_cases he : 0 ≤ e
  · rw [if_pos he]
    have : (m : ℚ) * (2 : ℚ) ^ e = ((m * 2 ^ e.toNat : Nat) : ℚ) := by
      conv_lhs => rw [← Int.toNat_of_nonneg he, zpow_natCast]
      push_cast
      ring
    rw [this, Nat.cast_le]
  · rw [if_neg he]
    have hD : 0 < 2 ^ (-e).toNat := Nat.pow_pos (by decide)
    have hv : (m : ℚ) * (2 : ℚ) ^ e = (m : ℚ) / ((2 ^ (-e).toNat : Nat) : ℚ) := by
      have : e = -(((-e).toNat : Int)) := by
        rw [Int.toNat_of_nonneg (by omega)]
        omega
      conv_lhs => rw [this, zpow_neg, zpow_natCast]
      push_cast
      rfl
    rw [hv, div_le_iff₀ (by exact_mod_cast hD), Nat.div_le_iff_le_mul_add_pred hD]
    have : (m : ℚ) ≤ (n : ℚ) * ((2 ^ (-e).toNat : Nat) : ℚ) ↔ m ≤ n * 2 ^ (-e).toNat := by
      rw [← Nat.cast_mul, Nat.cast_le]
    rw [this, Nat.mul_comm n]
    omega

theorem val_ofNat (n : Nat) : (F64.ofNat n).val = (rbVal n false : ℚ) := by
  unfold F64.ofNat
  rw [val_roundBits]
  simp

theorem ofNat_eq (n : Nat) : F64.ofNat n = F64.fin (rbMant n false) (0 + rbShift n) :=
  roundBits_eq n false 0

theorem val_ofNat_mono (a b : Nat) (h : a ≤ b) : (F64.ofNat a).val ≤ (F64.ofNat b).val := by
  rw [val_ofNat, val_ofNat]
  exact_mod_cast rbVal_mono a b false false h (fun _ g => g)

theorem val_ofNat_small (n : Nat) (h : n ≤ 2 ^ 53) : (F64.ofNat n).val = (n : ℚ) := by
  rw [val_ofNat]
  have := rbVal_exact n 0 h
  simp only [Nat.pow_zero, Nat.mul_one] at this
  rw [this]

/-- The guard `float64(w) <= float64(max)` holds whenever `w ≤ max`. -/
theorem le_ofNat (w mx : Nat) (h : w ≤ mx) : F64.le (F64.ofNat w) (F64.ofNat mx) = true := by
  have := val_ofNat_mono w mx h
  rw [ofNat_eq, ofNat_eq] at this ⊢
  exact (le_iff_val _ _ _ _).mpr this

theorem val_mul16 (m : Nat) (e : Int) (hm : m ≤ 2 ^ 53) :
    ((F64.fin 16 0).mul (F64.fin m e)).val = 16 * (F64.fin m e).val := by
  unfold F64.mul
  rw [val_roundBits, val_fin]
  have : rbVal (16 * m) false = m * 2 ^ 4 := by
    have := rbVal_exact m 4 hm
    rw [← this]
    congr 1
    ring
  rw [this]
  push_cast
  simp only [zero_add]
  ring

/-! ## Division -/

theorem scale_le_left (E₁ E₂ : Int) (j : Nat) (hE : E₁ = E₂ + j) (v₁ v₂ : Nat)
    (h : v₁ * 2 ^ j ≤ v₂) : (v₁ : ℚ) * (2 : ℚ) ^ E₁ ≤ (v₂ : ℚ) * (2 : ℚ) ^ E₂ := by
  rw [hE, zpow_add₀ (by norm_num : (2 : ℚ) ≠ 0), zpow_natCast, mul_comm ((2 : ℚ) ^ E₂), ← mul_assoc]
  have : ((v₁ * 2 ^ j : Nat) : ℚ) = (v₁ : ℚ) * (2 : ℚ) ^ j := by push_cast; ring
  rw [← this]
  exact scaled_le_of_nat _ _ _ h

theorem scale_le_right (E₁ E₂ : Int) (j : Nat) (hE : E₂ = E₁ + j) (v₁ v₂ : Nat)
    (h : v₁ ≤ v₂ * 2 ^ j) : (v₁ : ℚ) * (2 : ℚ) ^ E₁ ≤ (v₂ : ℚ) * (2 : ℚ) ^ E₂ := by
  rw [hE, zpow_add₀ (by norm_num : (2 : ℚ) ≠ 0), zpow_natCast, mul_comm ((2 : ℚ) ^ E₁), ← mul_assoc]
  have : ((v₂ * 2 ^ j : Nat) : ℚ) = (v₂ : ℚ) * (2 : ℚ) ^ j := by push_cast; ring
  rw [← this]
  exact scaled_le_of_nat _ _ _ h

/-- From an inequality of values to one of significands over a common exponent. -/
theorem nat_le_of_val_le_left (m₁ m₂ : Nat) (e₁ e₂ : Int) (j : Nat) (hE : e₁ = e₂ + j)
    (h : (m₁ : ℚ) * (2 : ℚ) ^ e₁ ≤ (m₂ : ℚ) * (2 : ℚ) ^ e₂) : m₁ * 2 ^ j ≤ m₂ := by
  rw [val_shift m₁ e₁ e₂ (by omega)] at h
  have hj : (e₁ - e₂).toNat = j := by omega
  rw [hj] at h
  exact nat_le_of_scaled _ _ _ h

theorem nat_le_of_val_le_right (m₁ m₂ : Nat) (e₁ e₂ : Int) (j : Nat) (hE : e₂ = e₁ + j)
    (h : (m₁ : ℚ) * (2 : ℚ) ^ e₁ ≤ (m₂ : ℚ) * (2 : ℚ) ^ e₂) : m₁ ≤ m₂ * 2 ^ j := by
  rw [val_shift m₂ e₂ e₁ (by omega)] at h
  have hj : (e₂ - e₁).toNat = j := by omega
  rw [hj] at h
  exact nat_le_of_scaled _ _ _ h

theorem div_fin (m₁ M : Nat) (e₁ eM : Int) (hM : M ≠ 0) (hm : m₁ ≠ 0) :
    F64.div (F64.fin m₁ e₁) (F64.fin M eM)
      = roundBits (m₁ * 2 ^ (bitLen M + 64) / M)
          (decide (m₁ * 2 ^ (bitLen M + 64) % M ≠ 0)) (e₁ - eM - ((bitLen M + 64 : Nat) : Int)) := by
  simp [F64.div, hM, hm]

theorem div_fin_zero (M : Nat) (e₁ eM : Int) (hM : M ≠ 0) :
    F64.div (F64.fin 0 e₁) (F64.fin M eM) = F64.fin 0 0 := by
  simp [F64.div, hM]

theorem div_quot_big (x M : Nat) (hM : 0 < M) (hx : 0 < x) :
    53 < bitLen (x * 2 ^ (bitLen M + 64) / M) := by
  rw [lt_bitLen_iff, Nat.le_div_iff_mul_le hM]
  have h1 := lt_pow_bitLen M
  have h2 : 2 ^ (bitLen M + 64) = 2 ^ bitLen M * 2 ^ 64 := Nat.pow_add _ _ _
  have h3 : 2 ^ 53 * M ≤ 2 ^ 53 * 2 ^ bitLen M := Nat.mul_le_mul_left _ (Nat.le_of_lt h1)
  have h4 : 2 ^ 53 * 2 ^ bitLen M ≤ 2 ^ bitLen M * 2 ^ 64 := by
    rw [Nat.mul_comm]
    exact Nat.mul_le_mul_left _ (by decide)
  have h5 : 1 * 2 ^ (bitLen M + 64) ≤ x * 2 ^ (bitLen M + 64) := Nat.mul_le_mul_right _ hx
  omega

/-- Keeping `j` more bits of a quotient: the coarse quotient is the fine one
cut by `j` bits, and its remainder is nonzero exactly when bits were cut or the
fine remainder is nonzero. -/
theorem div_refine (x M j : Nat) (hM : 0 < M) :
    x / M = x * 2 ^ j / M / 2 ^ j ∧
    (x % M ≠ 0 ↔ (x * 2 ^ j / M % 2 ^ j ≠ 0 ∨ x * 2 ^ j % M ≠ 0)) := by
  have hP : 0 < 2 ^ j := Nat.pow_pos (by decide)
  have hq : x / M = x * 2 ^ j / M / 2 ^ j := by
    rw [Nat.div_div_eq_div_mul, Nat.mul_div_mul_right x M hP]
  refine ⟨hq, ?_⟩
  have e1 := Nat.div_add_mod x M
  have e2 := Nat.div_add_mod (x * 2 ^ j) M
  have e3 := Nat.div_add_mod (x * 2 ^ j / M) (2 ^ j)
  rw [← hq] at e3
  -- r * P = M * t + r'
  have key : x % M * 2 ^ j = M * (x * 2 ^ j / M % 2 ^ j) + x * 2 ^ j % M := by
    have a1 : x * 2 ^ j = M * (x / M) * 2 ^ j + x % M * 2 ^ j := by
      conv_lhs => rw [← e1]
      ring
    have a2 : x * 2 ^ j = M * (x / M) * 2 ^ j + (M * (x * 2 ^ j / M % 2 ^ j) + x * 2 ^ j % M) := by
      conv_lhs => rw [← e2, ← e3]
      ring
    omega
  constructor
  · intro hr
    by_contra hcon
    push_neg at hcon
    obtain ⟨c1, c2⟩ := hcon
    rw [c1, c2] at key
    simp only [Nat.mul_zero, Nat.add_zero] at key
    rcases Nat.mul_eq_zero.mp key with g | g
    · exact hr g
    · omega
  · intro h hr
    rw [hr] at key
    simp only [Nat.zero_mul] at key
    have k1 : M * (x * 2 ^ j / M % 2 ^ j) = 0 := by omega
    have k2 : x * 2 ^ j % M = 0 := by omega
    rcases Nat.mul_eq_zero.mp k1 with g | g
    · omega
    · rcases h with h | h
      · exact h g
      · exact h k2

theorem div_pair_mono (x₁ x₂ M : Nat) (h : x₁ ≤ x₂) :
    x₁ / M ≤ x₂ / M ∧ (x₁ / M = x₂ / M → x₁ % M ≠ 0 → x₂ % M ≠ 0) := by
  refine ⟨Nat.div_le_div_right h, ?_⟩
  intro he hr
  have e1 := Nat.div_add_mod x₁ M
  have e2 := Nat.div_add_mod x₂ M
  rw [he] at e1
  omega

/-- The rounded quotient of the truncated pair of `x / M`, as a natural number
at scale `-(bitLen M + 64)`. -/
theorem quot_round_mono (x₁ x₂ M : Nat) (h : x₁ ≤ x₂) :
    rbVal (x₁ / M) (decide (x₁ % M ≠ 0)) ≤ rbVal (x₂ / M) (decide (x₂ % M ≠ 0)) := by
  obtain ⟨a, b⟩ := div_pair_mono x₁ x₂ M h
  apply rbVal_mono _ _ _ _ a
  intro he hs
  simp only [decide_eq_true_eq] at hs ⊢
  exact b he hs

theorem quot_round_refine (x M j : Nat) (hM : 0 < M) (hbig : 53 < bitLen (x / M)) :
    rbVal (x * 2 ^ j / M) (decide (x * 2 ^ j % M ≠ 0))
      = rbVal (x / M) (decide (x % M ≠ 0)) * 2 ^ j := by
  obtain ⟨a, b⟩ := div_refine x M j hM
  apply rbVal_refine _ _ _ _ j hbig a
  simp only [decide_eq_true_eq]
  exact b

/-- Division by a fixed nonzero divisor is monotone in the dividend. -/
theorem val_div_mono (m₁ m₂ M : Nat) (e₁ e₂ eM : Int) (hM : M ≠ 0)
    (h : (F64.fin m₁ e₁).val ≤ (F64.fin m₂ e₂).val) :
    (F64.div (F64.fin m₁ e₁) (F64.fin M eM)).val
      ≤ (F64.div (F64.fin m₂ e₂) (F64.fin M eM)).val := by
  have hMpos : 0 < M := Nat.pos_of_ne_zero hM
  by_cases h1 : m₁ = 0
  · subst h1
    rw [div_fin_zero M e₁ eM hM]
    have : (F64.fin 0 0).val = 0 := by simp [val_fin]
    rw [this]
    exact val_nonneg _
  · have h2 : m₂ ≠ 0 := by
      intro h0
      subst h0
      rw [val_fin, val_fin] at h
      simp only [Nat.cast_zero, zero_mul] at h
      have hpos : (0 : ℚ) < (m₁ : ℚ) * (2 : ℚ) ^ e₁ := by
        have : (0 : ℚ) < (m₁ : ℚ) := by exact_mod_cast Nat.pos_of_ne_zero h1
        positivity
      exact absurd h (not_le.mpr hpos)
    rw [div_fin m₁ M e₁ eM hM h1, div_fin m₂ M e₂ eM hM h2, val_roundBits, val_roundBits]
    rw [val_fin, val_fin] at h
    have hb1 := div_quot_big m₁ M hMpos (Nat.pos_of_ne_zero h1)
    have hb2 := div_quot_big m₂ M hMpos (Nat.pos_of_ne_zero h2)
    by_cases hc : e₂ ≤ e₁
    · obtain ⟨j, hj⟩ : ∃ j : Nat, e₁ = e₂ + j := ⟨(e₁ - e₂).toNat, by omega⟩
      have hm := nat_le_of_val_le_left m₁ m₂ e₁ e₂ j hj h
      apply scale_le_left _ _ j (by omega)
      rw [← quot_round_refine _ M j hMpos hb1]
      apply quot_round_mono
      calc m₁ * 2 ^ (bitLen M + 64) * 2 ^ j = m₁ * 2 ^ j * 2 ^ (bitLen M + 64) := by ring
        _ ≤ m₂ * 2 ^ (bitLen M + 64) := Nat.mul_le_mul_right _ hm
    · obtain ⟨j, hj⟩ : ∃ j : Nat, e₂ = e₁ + j := ⟨(e₂ - e₁).toNat, by omega⟩
      have hm := nat_le_of_val_le_right m₁ m₂ e₁ e₂ j hj h
      apply scale_le_right _ _ j (by omega)
      rw [← quot_round_refine _ M j hMpos hb2]
      apply quot_round_mono
      calc m₁ * 2 ^ (bitLen M + 64) ≤ m₂ * 2 ^ j * 2 ^ (bitLen M + 64) :=
            Nat.mul_le_mul_right _ hm
        _ = m₂ * 2 ^ (bitLen M + 64) * 2 ^ j := by ring

/-! ## Square root -/

theorem isqrtAux_spec : ∀ (k n r : Nat), r * r ≤ n → n < (r + 2 ^ k) * (r + 2 ^ k) →
    isqrtAux k n r * isqrtAux k n r ≤ n ∧ n < (isqrtAux k n r + 1) * (isqrtAux k n r + 1) := by
  intro k
  induction k with
  | zero =>
    intro n r h1 h2
    simpa [isqrtAux] using ⟨h1, h2⟩
  | succ k ih =>
    intro n r h1 h2
    unfold isqrtAux
    by_cases hc : (r + 2 ^ k) * (r + 2 ^ k) ≤ n
    · rw [if_pos hc]
      apply ih _ _ hc
      have : r + 2 ^ k + 2 ^ k = r + 2 ^ (k + 1) := by rw [Nat.pow_succ]; omega
      rw [this]
      exact h2
    · rw [if_neg hc]
      exact ih _ _ h1 (by omega)

theorem isqrt_eq_sqrt (n : Nat) : isqrt n = Nat.sqrt n := by
  rw [Nat.eq_sqrt]
  unfold isqrt
  apply isqrtAux_spec
  · simp
  · have h := lt_pow_bitLen n
    have h1 : 1 ≤ 2 ^ bitLen n := Nat.pow_pos (by decide)
    simp only [Nat.zero_add]
    calc n < 2 ^ bitLen n := h
      _ = 2 ^ bitLen n * 1 := (Nat.mul_one _).symm
      _ ≤ 2 ^ bitLen n * 2 ^ bitLen n := Nat.mul_le_mul_left _ h1

theorem four_pow (j : Nat) : 4 ^ j = 2 ^ j * 2 ^ j := by
  rw [← Nat.mul_pow]

/-- Keeping `j` more bits of a square root. -/
theorem sqrt_refine (x j : Nat) :
    Nat.sqrt x = Nat.sqrt (x * 4 ^ j) / 2 ^ j ∧
    (Nat.sqrt x * Nat.sqrt x ≠ x ↔
      (Nat.sqrt (x * 4 ^ j) % 2 ^ j ≠ 0 ∨
        Nat.sqrt (x * 4 ^ j) * Nat.sqrt (x * 4 ^ j) ≠ x * 4 ^ j)) := by
  have hP : 0 < 2 ^ j := Nat.pow_pos (by decide)
  have h4 := four_pow j
  have hle := Nat.sqrt_le (x * 4 ^ j)
  have hlt := Nat.lt_succ_sqrt (x * 4 ^ j)
  have hdm := Nat.div_add_mod (Nat.sqrt (x * 4 ^ j)) (2 ^ j)
  have hmod := Nat.mod_lt (Nat.sqrt (x * 4 ^ j)) hP
  have hq : Nat.sqrt (x * 4 ^ j) / 2 ^ j = Nat.sqrt x := by
    rw [Nat.eq_sqrt]
    constructor
    · -- (r * P)^2 ≤ r'^2 ≤ x * P^2
      have a1 : Nat.sqrt (x * 4 ^ j) / 2 ^ j * 2 ^ j ≤ Nat.sqrt (x * 4 ^ j) := Nat.div_mul_le_self _ _
      have a2 := Nat.mul_self_le_mul_self a1
      have a3 : Nat.sqrt (x * 4 ^ j) / 2 ^ j * 2 ^ j * (Nat.sqrt (x * 4 ^ j) / 2 ^ j * 2 ^ j)
          = Nat.sqrt (x * 4 ^ j) / 2 ^ j * (Nat.sqrt (x * 4 ^ j) / 2 ^ j) * 4 ^ j := by
        rw [h4]; ring
      rw [a3] at a2
      exact Nat.le_of_mul_le_mul_right (le_trans a2 hle) (Nat.pow_pos (by decide))
    · have a1 : Nat.sqrt (x * 4 ^ j) + 1 ≤ (Nat.sqrt (x * 4 ^ j) / 2 ^ j + 1) * 2 ^ j := by
        have e0 : (Nat.sqrt (x * 4 ^ j) / 2 ^ j + 1) * 2 ^ j
            = 2 ^ j * (Nat.sqrt (x * 4 ^ j) / 2 ^ j) + 2 ^ j := by ring
        rw [e0]
        omega
      have a2 := Nat.mul_self_le_mul_self a1
      have a3 : (Nat.sqrt (x * 4 ^ j) / 2 ^ j + 1) * 2 ^ j
            * ((Nat.sqrt (x * 4 ^ j) / 2 ^ j + 1) * 2 ^ j)
          = (Nat.sqrt (x * 4 ^ j) / 2 ^ j + 1) * (Nat.sqrt (x * 4 ^ j) / 2 ^ j + 1) * 4 ^ j := by
        rw [h4]; ring
      rw [a3] at a2
      have a4 : x * 4 ^ j
          < (Nat.sqrt (x * 4 ^ j) / 2 ^ j + 1) * (Nat.sqrt (x * 4 ^ j) / 2 ^ j + 1) * 4 ^ j :=
        lt_of_lt_of_le hlt a2
      exact Nat.lt_of_mul_lt_mul_right a4
  refine ⟨hq.symm, ?_⟩
  constructor
  · intro hne
    by_contra hcon
    push_neg at hcon
    obtain ⟨c1, c2⟩ := hcon
    apply hne
    rw [c1, Nat.add_zero, hq] at hdm
    rw [← hdm] at c2
    have : 2 ^ j * Nat.sqrt x * (2 ^ j * Nat.sqrt x) = Nat.sqrt x * Nat.sqrt x * 4 ^ j := by
      rw [h4]; ring
    rw [this] at c2
    exact Nat.eq_of_mul_eq_mul_right (Nat.pow_pos (by decide)) c2
  · intro h hsq
    have e : x * 4 ^ j = (Nat.sqrt x * 2 ^ j) * (Nat.sqrt x * 2 ^ j) := by
      conv_lhs => rw [← hsq, h4]
      ring
    have hs : Nat.sqrt (x * 4 ^ j) = Nat.sqrt x * 2 ^ j := by
      rw [e]
      exact Nat.sqrt_eq _
    rcases h with h | h
    · apply h
      rw [hs]
      exact Nat.mul_mod_left _ _
    · apply h
      rw [hs]
      exact e.symm

theorem sqrt_round_mono (x₁ x₂ : Nat) (h : x₁ ≤ x₂) :
    rbVal (isqrt x₁) (decide (isqrt x₁ * isqrt x₁ ≠ x₁))
      ≤ rbVal (isqrt x₂) (decide (isqrt x₂ * isqrt x₂ ≠ x₂)) := by
  rw [isqrt_eq_sqrt, isqrt_eq_sqrt]
  apply rbVal_mono _ _ _ _ (Nat.sqrt_le_sqrt h)
  intro he hs
  simp only [decide_eq_true_eq] at hs ⊢
  have h1 := Nat.sqrt_le x₁
  rw [← he]
  omega

theorem sqrt_round_refine (x j : Nat) (hbig : 53 < bitLen (isqrt x)) :
    rbVal (isqrt (x * 4 ^ j)) (decide (isqrt (x * 4 ^ j) * isqrt (x * 4 ^ j) ≠ x * 4 ^ j))
      = rbVal (isqrt x) (decide (isqrt x * isqrt x ≠ x)) * 2 ^ j := by
  rw [isqrt_eq_sqrt] at hbig
  rw [isqrt_eq_sqrt, isqrt_eq_sqrt]
  obtain ⟨a, b⟩ := sqrt_refine x j
  apply rbVal_refine _ _ _ _ j hbig a
  simp only [decide_eq_true_eq]
  exact b

theorem sqrt_big (m : Nat) (hm : 0 < m) : 53 < bitLen (isqrt (m * 4 ^ 54)) := by
  rw [lt_bitLen_iff, isqrt_eq_sqrt, Nat.le_sqrt]
  have : 2 ^ 53 * 2 ^ 53 ≤ 1 * 4 ^ 54 := by decide
  exact le_trans this (Nat.mul_le_mul_right _ hm)

/-- The square root of a nonzero finite value, over a significand `m'` with an
even exponent `2 * h`. -/
theorem sqrt_fin (m : Nat) (e : Int) (hm : m ≠ 0) :
    ∃ (m' : Nat) (h : Int), m' ≠ 0 ∧
      (m : ℚ) * (2 : ℚ) ^ e = (m' : ℚ) * (2 : ℚ) ^ (2 * h) ∧
      F64.sqrt (F64.fin m e)
        = roundBits (isqrt (m' * 4 ^ 54))
            (decide (isqrt (m' * 4 ^ 54) * isqrt (m' * 4 ^ 54) ≠ m' * 4 ^ 54)) (h - 54) := by
  by_cases hp : e % 2 = 0
  · refine ⟨m, e / 2, hm, ?_, ?_⟩
    · have : 2 * (e / 2) = e := by omega
      rw [this]
    · simp [F64.sqrt, hm, hp]
  · refine ⟨2 * m, (e - 1) / 2, by omega, ?_, ?_⟩
    · have : 2 * ((e - 1) / 2) = e - 1 := by omega
      rw [this, zpow_sub₀ (by norm_num : (2 : ℚ) ≠ 0)]
      push_cast
      field_simp
      ring
    · simp [F64.sqrt, hm, hp]

theorem val_sqrt_zero (e : Int) : (F64.sqrt (F64.fin 0 e)).val = 0 := by
  simp [F64.sqrt, val_fin]

theorem two_pow_double (j : Nat) : 2 ^ (2 * j) = 4 ^ j := by
  rw [Nat.pow_mul]

/-- The square root is monotone. -/
theorem val_sqrt_mono (m₁ m₂ : Nat) (e₁ e₂ : Int)
    (h : (F64.fin m₁ e₁).val ≤ (F64.fin m₂ e₂).val) :
    (F64.sqrt (F64.fin m₁ e₁)).val ≤ (F64.sqrt (F64.fin m₂ e₂)).val := by
  by_cases h1 : m₁ = 0
  · subst h1
    rw [val_sqrt_zero]
    exact val_nonneg _
  · have h2 : m₂ ≠ 0 := by
      intro h0
      subst h0
      rw [val_fin, val_fin] at h
      simp only [Nat.cast_zero, zero_mul] at h
      have hpos : (0 : ℚ) < (m₁ : ℚ) * (2 : ℚ) ^ e₁ := by
        have : (0 : ℚ) < (m₁ : ℚ) := by exact_mod_cast Nat.pos_of_ne_zero h1
        positivity
      exact absurd h (not_le.mpr hpos)
    obtain ⟨a₁, k₁, ha₁, hv₁, hs₁⟩ := sqrt_fin m₁ e₁ h1
    obtain ⟨a₂, k₂, ha₂, hv₂, hs₂⟩ := sqrt_fin m₂ e₂ h2
    rw [val_fin, val_fin, hv₁, hv₂] at h
    rw [hs₁, hs₂, val_roundBits, val_roundBits]
    have hb₁ := sqrt_big a₁ (Nat.pos_of_ne_zero ha₁)
    have hb₂ := sqrt_big a₂ (Nat.pos_of_ne_zero ha₂)
    by_cases hc : k₂ ≤ k₁
    · obtain ⟨j, hj⟩ : ∃ j : Nat, k₁ = k₂ + j := ⟨(k₁ - k₂).toNat, by omega⟩
      have hm := nat_le_of_val_le_left a₁ a₂ (2 * k₁) (2 * k₂) (2 * j) (by push_cast; omega) h
      rw [two_pow_double] at hm
      apply scale_le_left _ _ j (by omega)
      rw [← sqrt_round_refine _ j hb₁]
      apply sqrt_round_mono
      calc a₁ * 4 ^ 54 * 4 ^ j = a₁ * 4 ^ j * 4 ^ 54 := by ring
        _ ≤ a₂ * 4 ^ 54 := Nat.mul_le_mul_right _ hm
    · obtain ⟨j, hj⟩ : ∃ j : Nat, k₂ = k₁ + j := ⟨(k₂ - k₁).toNat, by omega⟩
      have hm := nat_le_of_val_le_right a₁ a₂ (2 * k₁) (2 * k₂) (2 * j) (by push_cast; omega) h
      rw [two_pow_double] at hm
      apply scale_le_right _ _ j (by omega)
      rw [← sqrt_round_refine _ j hb₂]
      apply sqrt_round_mono
      calc a₁ * 4 ^ 54 ≤ a₂ * 4 ^ j * 4 ^ 54 := Nat.mul_le_mul_right _ hm
        _ = a₂ * 4 ^ 54 * 4 ^ j := by ring

/-! ## The font size -/

theorem sqrt_is_fin (m : Nat) (e : Int) :
    ∃ m' e', F64.sqrt (F64.fin m e) = F64.fin m' e' ∧ m' ≤ 2 ^ 53 ∧ (m ≠ 0 → m' ≠ 0) := by
  by_cases hm : m = 0
  · subst hm
    exact ⟨0, 0, by simp [F64.sqrt], by decide, fun h => absurd rfl h⟩
  · obtain ⟨a, k, ha, _, hs⟩ := sqrt_fin m e hm
    rw [hs, roundBits_eq]
    refine ⟨_, _, rfl, rbMant_le _ _, fun _ => ?_⟩
    have hb := sqrt_big a (Nat.pos_of_ne_zero ha)
    have hpos : 0 < isqrt (a * 4 ^ 54) := by
      have := (lt_bitLen_iff (isqrt (a * 4 ^ 54)) 53).mp hb
      have : 0 < 2 ^ 53 := by decide
      omega
    exact Nat.pos_iff_ne_zero.mp (rbMant_pos _ _ hpos)

theorem div_is_fin (m₁ M : Nat) (e₁ eM : Int) (hM : M ≠ 0) :
    ∃ m' e', F64.div (F64.fin m₁ e₁) (F64.fin M eM) = F64.fin m' e' ∧ (m₁ ≠ 0 → m' ≠ 0) := by
  by_cases hm : m₁ = 0
  · subst hm
    exact ⟨0, 0, div_fin_zero M e₁ eM hM, fun h => absurd rfl h⟩
  · rw [div_fin m₁ M e₁ eM hM hm, roundBits_eq]
    refine ⟨_, _, rfl, fun _ => ?_⟩
    have hb := div_quot_big m₁ M (Nat.pos_of_ne_zero hM) (Nat.pos_of_ne_zero hm)
    have hpos : 0 < m₁ * 2 ^ (bitLen M + 64) / M := by
      have := (lt_bitLen_iff _ 53).mp hb
      have : 0 < 2 ^ 53 := by decide
      omega
    exact Nat.pos_iff_ne_zero.mp (rbMant_pos _ _ hpos)

theorem ofNat_is_fin (n : Nat) :
    ∃ m e, F64.ofNat n = F64.fin m e ∧ (n ≠ 0 → m ≠ 0) := by
  refine ⟨_, _, ofNat_eq n, fun h => ?_⟩
  exact Nat.pos_iff_ne_zero.mp (rbMant_pos _ _ (Nat.pos_of_ne_zero h))

theorem val_pos_of_fin (m : Nat) (e : Int) (hm : m ≠ 0) : 0 < (F64.fin m e).val := by
  rw [val_fin]
  have : (0 : ℚ) < (m : ℚ) := by exact_mod_cast Nat.pos_of_ne_zero hm
  positivity

/-- The font growth `int(math.Ceil(16 * math.Sqrt(a / b)))` against a bound, in
terms of the value of the rounded square root. -/
theorem growth_le_iff (a b : F64) (m₁ M : Nat) (e₁ eM : Int) (ha : a = F64.fin m₁ e₁)
    (hb : b = F64.fin M eM) (hM : M ≠ 0) (n : Nat) :
    ((F64.fin 16 0).mul (F64.div a b).sqrt).ceilInt ≤ n ↔
      16 * (F64.div a b).sqrt.val ≤ (n : ℚ) := by
  subst ha hb
  obtain ⟨d, ed, hd, _⟩ := div_is_fin m₁ M e₁ eM hM
  rw [hd]
  obtain ⟨s, es, hs, hs53, _⟩ := sqrt_is_fin d ed
  rw [hs, ← val_mul16 s es hs53]
  have : (F64.fin 16 0).mul (F64.fin s es) = F64.fin (rbMant (16 * s) false) (0 + es + rbShift (16 * s)) := by
    unfold F64.mul
    exact roundBits_eq _ _ _
  rw [this]
  exact ceilInt_le_iff _ _ _

theorem val_sqrt_div_mono (m₁ m₂ M : Nat) (e₁ e₂ eM : Int) (hM : M ≠ 0)
    (h : (F64.fin m₁ e₁).val ≤ (F64.fin m₂ e₂).val) :
    (F64.div (F64.fin m₁ e₁) (F64.fin M eM)).sqrt.val
      ≤ (F64.div (F64.fin m₂ e₂) (F64.fin M eM)).sqrt.val := by
  have hdiv := val_div_mono m₁ m₂ M e₁ e₂ eM hM h
  obtain ⟨d₁, f₁, hd₁, _⟩ := div_is_fin m₁ M e₁ eM hM
  obtain ⟨d₂, f₂, hd₂, _⟩ := div_is_fin m₂ M e₂ eM hM
  rw [hd₁, hd₂] at hdiv ⊢
  exact val_sqrt_mono d₁ d₂ f₁ f₂ hdiv

theorem sqrt_one : F64.sqrt (F64.fin 4503599627370496 (-52)) = F64.fin 4503599627370496 (-52) := by
  set_option maxRecDepth 20000 in decide

theorem val_div_self (M : Nat) (eM : Int) (hM : M ≠ 0) :
    F64.div (F64.fin M eM) (F64.fin M eM) = F64.fin 4503599627370496 (-52) ∨
    (F64.div (F64.fin M eM) (F64.fin M eM)).val = 1 := by
  right
  rw [div_fin M M eM eM hM hM, val_roundBits, Nat.mul_div_cancel_left _ (Nat.pos_of_ne_zero hM),
    Nat.mul_mod_right]
  have h1 : rbVal (2 ^ (bitLen M + 64)) (decide ((0 : Nat) ≠ 0)) = 1 * 2 ^ (bitLen M + 64) := by
    have := rbVal_exact 1 (bitLen M + 64) (by decide)
    simpa using this
  rw [h1]
  have : eM - eM - ((bitLen M + 64 : Nat) : Int) = -((bitLen M + 64 : Nat) : Int) := by omega
  rw [this, zpow_neg, zpow_natCast]
  push_cast
  field_simp

theorem val_sqrt_div_self (M : Nat) (eM : Int) (hM : M ≠ 0) :
    (F64.div (F64.fin M eM) (F64.fin M eM)).sqrt.val = 1 := by
  have hv : (F64.div (F64.fin M eM) (F64.fin M eM)).val = 1 := by
    rcases val_div_self M eM hM with h | h
    · rw [h, val_fin]; norm_num
    · exact h
  obtain ⟨d, f, hd, _⟩ := div_is_fin M M eM eM hM
  rw [hd] at hv ⊢
  have hone : (F64.fin 4503599627370496 (-52)).val = 1 := by rw [val_fin]; norm_num
  have h1 := val_sqrt_mono d 4503599627370496 f (-52) (by rw [hv, hone])
  have h2 := val_sqrt_mono 4503599627370496 d (-52) f (by rw [hv, hone])
  rw [sqrt_one, hone] at h1 h2
  exact le_antisymm h1 h2

theorem fontSize_of_guard (mx w : Nat) (hm : 0 < mx) (hw : 0 < w) (hle : w ≤ mx) :
    fontSize mx w
      = 8 + ((F64.fin 16 0).mul (F64.div (F64.ofNat w) (F64.ofNat mx)).sqrt).ceilInt := by
  unfold fontSize
  rw [if_pos ⟨hm, hw, le_ofNat w mx hle⟩]

/-- The font size is at least 8 and at most 24, for all arguments. -/
theorem fontSize_range (mx w : Nat) : 8 ≤ fontSize mx w ∧ fontSize mx w ≤ 24 := by
  unfold fontSize
  split
  · rename_i hg
    obtain ⟨hm, hw, hle⟩ := hg
    refine ⟨by omega, ?_⟩
    obtain ⟨a, ea, ha, _⟩ := ofNat_is_fin w
    obtain ⟨b, eb, hb, hb0⟩ := ofNat_is_fin mx
    have hb0' : b ≠ 0 := hb0 (by omega)
    have hval : (F64.fin a ea).val ≤ (F64.fin b eb).val := by
      rw [ha, hb] at hle
      exact (le_iff_val _ _ _ _).mp hle
    have hs := val_sqrt_div_mono a b b ea eb eb hb0' hval
    rw [val_sqrt_div_self b eb hb0'] at hs
    have := (growth_le_iff (F64.ofNat w) (F64.ofNat mx) a b ea eb ha hb hb0' 16).mpr (by
      rw [ha, hb]
      push_cast
      linarith)
    omega
  · omega

/-- A node whose weight is `max` has font size 24. -/
theorem fontSize_max (mx : Nat) (hm : 0 < mx) : fontSize mx mx = 24 := by
  rw [fontSize_of_guard mx mx hm hm (Nat.le_refl _)]
  obtain ⟨b, eb, hb, hb0⟩ := ofNat_is_fin mx
  have hb0' : b ≠ 0 := hb0 (by omega)
  have hs := val_sqrt_div_self b eb hb0'
  have h16 := (growth_le_iff (F64.ofNat mx) (F64.ofNat mx) b b eb eb hb hb hb0' 16).mpr (by
    rw [hb, hs]; norm_num)
  have h15 : ¬ ((F64.fin 16 0).mul (F64.div (F64.ofNat mx) (F64.ofNat mx)).sqrt).ceilInt ≤ 15 := by
    intro h
    have := (growth_le_iff (F64.ofNat mx) (F64.ofNat mx) b b eb eb hb hb hb0' 15).mp h
    rw [hb, hs] at this
    norm_num at this
  omega

/-- The font size is monotone in the weight, for weights up to `max`. -/
theorem fontSize_mono (mx w₁ w₂ : Nat) (h : w₁ ≤ w₂) (h₂ : w₂ ≤ mx) :
    fontSize mx w₁ ≤ fontSize mx w₂ := by
  by_cases hw₁ : w₁ = 0
  · subst hw₁
    have : fontSize mx 0 = 8 := by simp [fontSize]
    rw [this]
    exact (fontSize_range mx w₂).1
  · have hw₁' : 0 < w₁ := Nat.pos_of_ne_zero hw₁
    rw [fontSize_of_guard mx w₁ (by omega) hw₁' (by omega),
      fontSize_of_guard mx w₂ (by omega) (by omega) h₂]
    obtain ⟨a₁, e₁, ha₁, _⟩ := ofNat_is_fin w₁
    obtain ⟨a₂, e₂, ha₂, _⟩ := ofNat_is_fin w₂
    obtain ⟨b, eb, hb, hb0⟩ := ofNat_is_fin mx
    have hb0' : b ≠ 0 := hb0 (by omega)
    have hval : (F64.fin a₁ e₁).val ≤ (F64.fin a₂ e₂).val := by
      rw [← ha₁, ← ha₂]
      exact val_ofNat_mono w₁ w₂ h
    have hs := val_sqrt_div_mono a₁ a₂ b e₁ e₂ eb hb0' hval
    have h2 := (growth_le_iff (F64.ofNat w₂) (F64.ofNat mx) a₂ b e₂ eb ha₂ hb hb0'
      ((F64.fin 16 0).mul (F64.div (F64.ofNat w₂) (F64.ofNat mx)).sqrt).ceilInt).mp (Nat.le_refl _)
    have h1 := (growth_le_iff (F64.ofNat w₁) (F64.ofNat mx) a₁ b e₁ eb ha₁ hb hb0'
      ((F64.fin 16 0).mul (F64.div (F64.ofNat w₂) (F64.ofNat mx)).sqrt).ceilInt).mpr (by
        rw [ha₁, ha₂, hb]
        rw [ha₂, hb] at h2
        linarith)
    omega

/-! ## The font size against exact arithmetic -/

theorem ofNat_small (n : Nat) (h : n < 2 ^ 53) : F64.ofNat n = F64.fin n 0 := by
  have hb : bitLen n ≤ 53 := (bitLen_le_iff n 53).mpr h
  rw [ofNat_eq]
  have h1 : rbMant n false = n := by
    unfold rbMant
    rw [if_pos hb]
  have h2 : rbShift n = 0 := by
    unfold rbShift
    omega
  rw [h1, h2]
  rfl

theorem div_le_dyadic (m₁ M A E : Nat) (hM : M ≠ 0) (hm : m₁ ≠ 0) (hA : A ≤ 2 ^ 53)
    (hE : E ≤ 64) (h : m₁ * 2 ^ E ≤ A * M) :
    (F64.div (F64.fin m₁ 0) (F64.fin M 0)).val ≤ (F64.fin A (-(E : Int))).val := by
  rw [div_fin m₁ M 0 0 hM hm, val_roundBits, val_fin]
  have hs : bitLen M + 64 = E + (bitLen M + 64 - E) := by omega
  have hpow : 2 ^ (bitLen M + 64) = 2 ^ E * 2 ^ (bitLen M + 64 - E) := by
    rw [← Nat.pow_add, ← hs]
  apply scale_le_right _ _ (bitLen M + 64 - E) (by omega)
  rw [← rbVal_exact A (bitLen M + 64 - E) hA]
  have hMpos : 0 < M := Nat.pos_of_ne_zero hM
  have hmul : m₁ * 2 ^ (bitLen M + 64) ≤ M * (A * 2 ^ (bitLen M + 64 - E)) := by
    calc m₁ * 2 ^ (bitLen M + 64) = m₁ * 2 ^ E * 2 ^ (bitLen M + 64 - E) := by rw [hpow]; ring
      _ ≤ A * M * 2 ^ (bitLen M + 64 - E) := Nat.mul_le_mul_right _ h
      _ = M * (A * 2 ^ (bitLen M + 64 - E)) := by ring
  apply rbVal_mono
  · exact Nat.div_le_of_le_mul hmul
  · intro heq hst
    exfalso
    have hne : m₁ * 2 ^ (bitLen M + 64) % M ≠ 0 := by simpa using hst
    have hdm := Nat.div_add_mod (m₁ * 2 ^ (bitLen M + 64)) M
    rw [heq] at hdm
    have : 0 < m₁ * 2 ^ (bitLen M + 64) % M := Nat.pos_of_ne_zero hne
    omega

theorem div_ge_dyadic (m₁ M A E : Nat) (hM : M ≠ 0) (hm : m₁ ≠ 0) (hA : A ≤ 2 ^ 53)
    (hE : E ≤ 64) (h : A * M ≤ m₁ * 2 ^ E) :
    (F64.fin A (-(E : Int))).val ≤ (F64.div (F64.fin m₁ 0) (F64.fin M 0)).val := by
  rw [div_fin m₁ M 0 0 hM hm, val_roundBits, val_fin]
  have hs : bitLen M + 64 = E + (bitLen M + 64 - E) := by omega
  have hpow : 2 ^ (bitLen M + 64) = 2 ^ E * 2 ^ (bitLen M + 64 - E) := by
    rw [← Nat.pow_add, ← hs]
  apply scale_le_left _ _ (bitLen M + 64 - E) (by omega)
  rw [← rbVal_exact A (bitLen M + 64 - E) hA]
  have hMpos : 0 < M := Nat.pos_of_ne_zero hM
  apply rbVal_mono
  · rw [Nat.le_div_iff_mul_le hMpos]
    calc A * 2 ^ (bitLen M + 64 - E) * M = A * M * 2 ^ (bitLen M + 64 - E) := by ring
      _ ≤ m₁ * 2 ^ E * 2 ^ (bitLen M + 64 - E) := Nat.mul_le_mul_right _ h
      _ = m₁ * 2 ^ (bitLen M + 64) := by rw [hpow]; ring
  · intro _ hf
    exact absurd hf (by decide)

set_option maxRecDepth 100000 in
theorem sqrt_upper_eval :
    ∀ k, k ≤ 16 → F64.le (F64.sqrt (F64.fin (k * k) (-8))) (F64.fin k (-4)) = true := by
  decide

set_option maxRecDepth 100000 in
/-- For each `c` from 1 to 15, a `float64` value `A * 2^(-E)` just above
`c*c/256` whose square root rounds to more than `c/16`, and which every quotient
`w/mx` above `c*c/256` with `mx ≤ 2^45` reaches. -/
theorem sqrt_lower_table : ∀ c, 1 ≤ c → c ≤ 15 → ∃ A E : Nat, A ≤ 2 ^ 53 ∧ E ≤ 64 ∧
    F64.le (F64.sqrt (F64.fin A (-(E : Int)))) (F64.fin c (-4)) = false ∧
    ∀ w mx : Nat, mx ≤ 35184372088832 → c * c * mx < 256 * w → A * mx ≤ w * 2 ^ E := by
  intro c h1 h15
  interval_cases c
  · exact ⟨4503599627370498, 60, by norm_num, by norm_num, by decide,
      fun w mx h1 h2 => by norm_num; omega⟩
  · exact ⟨4503599627370498, 58, by norm_num, by norm_num, by decide,
      fun w mx h1 h2 => by norm_num; omega⟩
  · exact ⟨5066549580791809, 57, by norm_num, by norm_num, by decide,
      fun w mx h1 h2 => by norm_num; omega⟩
  · exact ⟨4503599627370498, 56, by norm_num, by norm_num, by decide,
      fun w mx h1 h2 => by norm_num; omega⟩
  · exact ⟨7036874417766402, 56, by norm_num, by norm_num, by decide,
      fun w mx h1 h2 => by norm_num; omega⟩
  · exact ⟨5066549580791809, 55, by norm_num, by norm_num, by decide,
      fun w mx h1 h2 => by norm_num; omega⟩
  · exact ⟨6896136929411073, 55, by norm_num, by norm_num, by decide,
      fun w mx h1 h2 => by norm_num; omega⟩
  · exact ⟨4503599627370498, 54, by norm_num, by norm_num, by decide,
      fun w mx h1 h2 => by norm_num; omega⟩
  · exact ⟨5699868278390786, 54, by norm_num, by norm_num, by decide,
      fun w mx h1 h2 => by norm_num; omega⟩
  · exact ⟨7036874417766402, 54, by norm_num, by norm_num, by decide,
      fun w mx h1 h2 => by norm_num; omega⟩
  · exact ⟨8514618045497346, 54, by norm_num, by norm_num, by decide,
      fun w mx h1 h2 => by norm_num; omega⟩
  · exact ⟨5066549580791809, 53, by norm_num, by norm_num, by decide,
      fun w mx h1 h2 => by norm_num; omega⟩
  · exact ⟨5946158883012609, 53, by norm_num, by norm_num, by decide,
      fun w mx h1 h2 => by norm_num; omega⟩
  · exact ⟨6896136929411073, 53, by norm_num, by norm_num, by decide,
      fun w mx h1 h2 => by norm_num; omega⟩
  · exact ⟨7916483719987201, 53, by norm_num, by norm_num, by decide,
      fun w mx h1 h2 => by norm_num; omega⟩

theorem val_sqrt_le_of_eval (m k : Nat) (e f : Int)
    (h : F64.le (F64.sqrt (F64.fin m e)) (F64.fin k f) = true) :
    (F64.sqrt (F64.fin m e)).val ≤ (F64.fin k f).val := by
  obtain ⟨s, es, hs, _, _⟩ := sqrt_is_fin m e
  rw [hs] at h ⊢
  exact (le_iff_val _ _ _ _).mp h

theorem val_sqrt_gt_of_eval (m k : Nat) (e f : Int)
    (h : F64.le (F64.sqrt (F64.fin m e)) (F64.fin k f) = false) :
    (F64.fin k f).val < (F64.sqrt (F64.fin m e)).val := by
  obtain ⟨s, es, hs, _, _⟩ := sqrt_is_fin m e
  rw [hs] at h ⊢
  by_contra hc
  have := (le_iff_val _ _ _ _).mpr (not_lt.mp hc)
  rw [h] at this
  exact absurd this (by decide)

/-- For `max ≤ 2^45` the float64 font size is the exact-arithmetic one: 8 plus
the least `k` with `k*k*max ≥ 256*w`. -/
theorem fontSize_exact (mx w k : Nat) (hw : 0 < w) (hle : w ≤ mx) (hmx : mx ≤ 2 ^ 45)
    (hk : 256 * w ≤ k * k * mx) (hmin : ∀ j, j < k → j * j * mx < 256 * w) :
    fontSize mx w = 8 + k := by
  have hmpos : 0 < mx := by omega
  have hk1 : 1 ≤ k := by
    rcases Nat.eq_zero_or_pos k with h0 | h0
    · subst h0
      simp at hk
      omega
    · exact h0
  have hk16 : k ≤ 16 := by
    by_contra hc
    have := hmin 16 (by omega)
    omega
  have h245 : (2 : Nat) ^ 45 = 35184372088832 := by norm_num
  have h253 : (2 : Nat) ^ 53 = 9007199254740992 := by norm_num
  rw [fontSize_of_guard mx w hmpos hw hle]
  have haw : F64.ofNat w = F64.fin w 0 := ofNat_small w (by omega)
  have hbm : F64.ofNat mx = F64.fin mx 0 := ofNat_small mx (by omega)
  have hw0 : w ≠ 0 := by omega
  have hm0 : mx ≠ 0 := by omega
  obtain ⟨d, ed, hd, hd0⟩ := div_is_fin w mx 0 0 hm0
  have hgi := growth_le_iff (F64.ofNat w) (F64.ofNat mx) w mx 0 0 haw hbm hm0
  rw [haw, hbm] at hgi ⊢
  -- the upper bound
  have hkk : k * k ≤ 256 := by
    calc k * k ≤ 16 * 16 := Nat.mul_le_mul hk16 hk16
      _ = 256 := by norm_num
  have hup : ((F64.fin 16 0).mul (F64.div (F64.fin w 0) (F64.fin mx 0)).sqrt).ceilInt ≤ k := by
    rw [hgi k]
    have h1 := div_le_dyadic w mx (k * k) 8 hm0 hw0 (by omega) (by decide) (by
      have : (2 : Nat) ^ 8 = 256 := by norm_num
      rw [this]
      omega)
    rw [hd] at h1 ⊢
    have h2 := val_sqrt_mono d (k * k) ed (-((8 : Nat) : Int)) h1
    have h3 := val_sqrt_le_of_eval (k * k) k (-8) (-4) (sqrt_upper_eval k hk16)
    have h4 : (F64.fin k (-4)).val = (k : ℚ) / 16 := by
      rw [val_fin]
      norm_num
      ring
    have h5 : (F64.sqrt (F64.fin d ed)).val ≤ (k : ℚ) / 16 := by
      rw [← h4]
      exact le_trans h2 h3
    linarith
  -- the lower bound
  have hlo : ¬ ((F64.fin 16 0).mul (F64.div (F64.fin w 0) (F64.fin mx 0)).sqrt).ceilInt ≤ k - 1 := by
    rw [hgi (k - 1)]
    intro hcon
    rcases Nat.eq_or_lt_of_le hk1 with h1 | h1
    · -- k = 1: the value is positive
      rw [hd] at hcon
      obtain ⟨s, es, hs, _, hs0⟩ := sqrt_is_fin d ed
      rw [hs] at hcon
      have hp := val_pos_of_fin s es (hs0 (hd0 hw0))
      have hz : ((k - 1 : Nat) : ℚ) = 0 := by
        have : k - 1 = 0 := by omega
        rw [this]
        norm_num
      rw [hz] at hcon
      linarith
    · have hc1 : 1 ≤ k - 1 := by omega
      have hc15 : k - 1 ≤ 15 := by omega
      have hcm := hmin (k - 1) (by omega)
      generalize k - 1 = c at hc1 hc15 hcm hcon
      obtain ⟨A, E, hA, hE, hev, hlin⟩ := sqrt_lower_table c hc1 hc15
      have hineq : A * mx ≤ w * 2 ^ E := hlin w mx (by omega) hcm
      have h1' := div_ge_dyadic w mx A E hm0 hw0 hA hE hineq
      rw [hd] at h1' hcon
      have h2 := val_sqrt_mono A d (-(E : Int)) ed h1'
      have h3 := val_sqrt_gt_of_eval A c (-(E : Int)) (-4) hev
      have h4 : (F64.fin c (-4)).val = (c : ℚ) / 16 := by
        rw [val_fin]
        norm_num
        ring
      rw [h4] at h3
      have h5 : (c : ℚ) / 16 < (F64.sqrt (F64.fin d ed)).val := lt_of_lt_of_le h3 h2
      linarith
  omega

set_option maxRecDepth 100000 in
/-- The bound on `max` cannot be dropped: at `max = 46912496118583` (about
`2^45.4`) and weight `22173484493549` float64 gives 19, one less than exact
arithmetic, for which `k = 12` is least: the quotient is so little above
`121/256` that the float64 square root rounds to exactly `11/16`. -/
theorem fontSize_rounding :
    fontSize 46912496118583 22173484493549 = 19 ∧
    11 * 11 * 46912496118583 < 256 * 22173484493549 ∧
    256 * 22173484493549 ≤ 12 * 12 * 46912496118583 := by
  refine ⟨by decide, by norm_num, by norm_num⟩

/-! ## The percentage -/

/-- A rounded quotient is within the relative distance `2^(-53)` of the exact
quotient `N / M`. -/
theorem quot_round_near (N M : Nat) (hM : 0 < M) (hbig : 53 < bitLen (N / M)) :
    rbVal (N / M) (decide (N % M ≠ 0)) * M * 2 ^ 53 ≤ N * (2 ^ 53 + 1) ∧
    N * (2 ^ 53 - 1) ≤ rbVal (N / M) (decide (N % M ≠ 0)) * M * 2 ^ 53 := by
  obtain ⟨h52, h53, h2half, hlo⟩ := rb_parts (N / M) hbig
  have hdm := Nat.div_add_mod N M
  have hrem : N % M < M := Nat.mod_lt _ hM
  have hq := Nat.div_add_mod (N / M) (2 ^ (bitLen (N / M) - 53))
  have hmant := rbMant_big_eq (N / M) (decide (N % M ≠ 0)) hbig
  generalize hQ : N / M = Q at *
  generalize hd : 2 ^ (bitLen Q - 53) = P at *
  generalize hh : 2 ^ (bitLen Q - 53 - 1) = half at *
  generalize hhi : Q / P = hi at *
  generalize hl : Q % P = lo at *
  generalize hr : N % M = rem at *
  have hR : rbVal Q (decide (rem ≠ 0)) = rbMant Q (decide (rem ≠ 0)) * P := by
    unfold rbVal rbShift
    rw [hd]
  rw [hR]
  -- products with `M`
  have e1 : N = P * hi * M + lo * M + rem := by
    rw [← hdm, ← hq]
    ring
  have e2 : P * M = 2 * (half * M) := by
    rw [← h2half]
    ring
  have hbase : 2 ^ 53 * (half * M) ≤ P * hi * M := by
    have : 2 ^ 52 * (P * M) ≤ hi * (P * M) := Nat.mul_le_mul_right _ h52
    calc 2 ^ 53 * (half * M) = 2 ^ 52 * (P * M) := by rw [e2]; ring
      _ ≤ hi * (P * M) := this
      _ = P * hi * M := by ring
  by_cases hup : (lo > half ∨ (lo = half ∧ (decide (rem ≠ 0) = true ∨ hi % 2 = 1)))
  · rw [if_pos hup] at hmant
    rw [hmant]
    have hlh : half ≤ lo := by rcases hup with h | ⟨h, _⟩ <;> omega
    have hlM : half * M ≤ lo * M := Nat.mul_le_mul_right _ hlh
    have hloM : lo * M + M ≤ P * M := by
      have : (lo + 1) * M ≤ P * M := Nat.mul_le_mul_right _ hlo
      calc lo * M + M = (lo + 1) * M := by ring
        _ ≤ P * M := this
    have e3 : (hi + 1) * P * M = P * hi * M + P * M := by ring
    rw [e3]
    generalize P * hi * M = A at *
    generalize half * M = HM at *
    generalize lo * M = LM at *
    generalize P * M = PM at *
    constructor
    · have : (A + PM) * 2 ^ 53 = A * 2 ^ 53 + PM * 2 ^ 53 := by ring
      have : N * (2 ^ 53 + 1) = N * 2 ^ 53 + N := by ring
      omega
    · have : (A + PM) * 2 ^ 53 = A * 2 ^ 53 + PM * 2 ^ 53 := by ring
      have : N * (2 ^ 53 - 1) ≤ N * 2 ^ 53 := Nat.mul_le_mul_left _ (by omega)
      omega
  · rw [if_neg hup] at hmant
    rw [hmant]
    have hcase : lo < half ∨ (lo = half ∧ rem = 0) := by
      by_cases h1 : lo < half
      · exact Or.inl h1
      · right
        have h2 : lo = half := by
          by_contra hne
          exact hup (Or.inl (by omega))
        refine ⟨h2, ?_⟩
        by_contra hne
        exact hup (Or.inr ⟨h2, Or.inl (by simpa using hne)⟩)
    have hloM : lo * M + rem ≤ half * M := by
      rcases hcase with h | ⟨h, h0⟩
      · have : (lo + 1) * M ≤ half * M := Nat.mul_le_mul_right _ h
        have e : (lo + 1) * M = lo * M + M := by ring
        omega
      · rw [h, h0]
        omega
    have e3 : hi * P * M = P * hi * M := by ring
    rw [e3]
    generalize P * hi * M = A at *
    generalize half * M = HM at *
    generalize lo * M = LM at *
    constructor
    · have : N * (2 ^ 53 + 1) = N * 2 ^ 53 + N := by ring
      omega
    · have h253 : (2 : Nat) ^ 53 - 1 + 1 = 2 ^ 53 := by norm_num
      have : N * (2 ^ 53 - 1) + N = N * 2 ^ 53 := by
        calc N * (2 ^ 53 - 1) + N = N * (2 ^ 53 - 1 + 1) := by ring
          _ = N * 2 ^ 53 := by rw [h253]
      omega

set_option maxRecDepth 100000 in
/-- The two digits that `%0.2f` writes after the point. -/
theorem pad_two_digits : ∀ r, r < 100 →
    (if r < 10 then "0" else "") ++ Itoa r
      = String.mk [Nat.digitChar (r / 10), Nat.digitChar (r % 10)] := by
  decide

theorem round_half_even_near (num den : Nat) (hden : 0 < den) :
    2 * ((if 2 * (num % den) > den ∨ (2 * (num % den) = den ∧ num / den % 2 = 1)
          then num / den + 1 else num / den) * den) ≤ 2 * num + den ∧
    2 * num ≤ 2 * ((if 2 * (num % den) > den ∨ (2 * (num % den) = den ∧ num / den % 2 = 1)
          then num / den + 1 else num / den) * den) + den := by
  have hdm := Nat.div_add_mod num den
  have hr := Nat.mod_lt num hden
  generalize num / den = q at *
  generalize num % den = r at *
  by_cases hc : 2 * r > den ∨ (2 * r = den ∧ q % 2 = 1)
  · rw [if_pos hc]
    have e : (q + 1) * den = den * q + den := by ring
    rw [e]
    generalize den * q = dq at *
    rcases hc with h | ⟨h, _⟩ <;> omega
  · rw [if_neg hc]
    have e : q * den = den * q := by ring
    rw [e]
    generalize den * q = dq at *
    have : 2 * r ≤ den := by
      by_contra h
      exact hc (Or.inl (by omega))
    omega

/-- A rounded integer is within the relative distance `2^(-53)` of the integer. -/
theorem rbVal_near (q : Nat) :
    rbVal q false * 2 ^ 53 ≤ q * (2 ^ 53 + 1) ∧ q * (2 ^ 53 - 1) ≤ rbVal q false * 2 ^ 53 := by
  by_cases h : bitLen q ≤ 53
  · rw [rbVal_small q false h]
    constructor
    · exact Nat.mul_le_mul_left _ (by omega)
    · exact Nat.mul_le_mul_left _ (by omega)
  · have hq := quot_round_near q 1 (by decide) (by rw [Nat.div_one]; omega)
    have hd : decide ((0 : Nat) ≠ 0) = false := rfl
    rw [Nat.div_one, Nat.mod_one, hd, Nat.mul_one] at hq
    exact hq

theorem cast_pred_pow : ((2 ^ 53 - 1 : Nat) : ℚ) = 2 ^ 53 - 1 := by norm_num

/-- The `float64` quotient of two integers below `2^53` is within the relative
distance `2^(-53)` of the exact quotient. -/
theorem val_div_near (w t : Nat) (hw : w ≠ 0) (ht : t ≠ 0) :
    (F64.div (F64.fin w 0) (F64.fin t 0)).val * t * 2 ^ 53 ≤ (w : ℚ) * (2 ^ 53 + 1) ∧
    (w : ℚ) * (2 ^ 53 - 1) ≤ (F64.div (F64.fin w 0) (F64.fin t 0)).val * t * 2 ^ 53 := by
  rw [div_fin w t 0 0 ht hw, val_roundBits]
  obtain ⟨h1, h2⟩ := quot_round_near (w * 2 ^ (bitLen t + 64)) t (Nat.pos_of_ne_zero ht)
    (div_quot_big w t (Nat.pos_of_ne_zero ht) (Nat.pos_of_ne_zero hw))
  generalize rbVal (w * 2 ^ (bitLen t + 64) / t) (decide (w * 2 ^ (bitLen t + 64) % t ≠ 0)) = R at *
  have hz : (2 : ℚ) ^ ((0 : Int) - 0 - ((bitLen t + 64 : Nat) : Int))
      = ((2 : ℚ) ^ (bitLen t + 64))⁻¹ := by
    have : (0 : Int) - 0 - ((bitLen t + 64 : Nat) : Int) = -((bitLen t + 64 : Nat) : Int) := by
      omega
    rw [this, zpow_neg, zpow_natCast]
  rw [hz]
  have hp : (0 : ℚ) < (2 : ℚ) ^ (bitLen t + 64) := by positivity
  have c1 : (R : ℚ) * t * 2 ^ 53 ≤ (w : ℚ) * 2 ^ (bitLen t + 64) * (2 ^ 53 + 1) := by
    exact_mod_cast h1
  have c2 : (w : ℚ) * 2 ^ (bitLen t + 64) * (2 ^ 53 - 1) ≤ (R : ℚ) * t * 2 ^ 53 := by
    have := (Nat.cast_le (α := ℚ)).mpr h2
    simp only [Nat.cast_mul, cast_pred_pow, Nat.cast_pow, Nat.cast_ofNat] at this
    exact this
  generalize (2 : ℚ) ^ (bitLen t + 64) = p at *
  have hpi : p * p⁻¹ = 1 := mul_inv_cancel₀ (ne_of_gt hp)
  constructor
  · have h3 := mul_le_mul_of_nonneg_right c1 (le_of_lt (inv_pos.mpr hp))
    calc (R : ℚ) * p⁻¹ * t * 2 ^ 53 = ((R : ℚ) * t * 2 ^ 53) * p⁻¹ := by ring
      _ ≤ (w : ℚ) * p * (2 ^ 53 + 1) * p⁻¹ := h3
      _ = (w : ℚ) * (2 ^ 53 + 1) * (p * p⁻¹) := by ring
      _ = (w : ℚ) * (2 ^ 53 + 1) := by rw [hpi, mul_one]
  · have h3 := mul_le_mul_of_nonneg_right c2 (le_of_lt (inv_pos.mpr hp))
    calc (w : ℚ) * (2 ^ 53 - 1) = (w : ℚ) * (2 ^ 53 - 1) * (p * p⁻¹) := by rw [hpi, mul_one]
      _ = (w : ℚ) * p * (2 ^ 53 - 1) * p⁻¹ := by ring
      _ ≤ ((R : ℚ) * t * 2 ^ 53) * p⁻¹ := h3
      _ = (R : ℚ) * p⁻¹ * t * 2 ^ 53 := by ring

/-- The `float64` product by 100 is within the relative distance `2^(-53)` of the
exact product. -/
theorem val_mul100_near (m : Nat) (e : Int) :
    ((F64.fin m e).mul (F64.fin 100 0)).val * 2 ^ 53 ≤ 100 * (F64.fin m e).val * (2 ^ 53 + 1) ∧
    100 * (F64.fin m e).val * (2 ^ 53 - 1) ≤ ((F64.fin m e).mul (F64.fin 100 0)).val * 2 ^ 53 := by
  have hm : (F64.fin m e).mul (F64.fin 100 0) = roundBits (m * 100) false (e + 0) := rfl
  rw [hm, val_roundBits, val_fin, add_zero]
  obtain ⟨h1, h2⟩ := rbVal_near (m * 100)
  generalize rbVal (m * 100) false = R at *
  have hp : (0 : ℚ) < (2 : ℚ) ^ e := by positivity
  have c1 : (R : ℚ) * 2 ^ 53 ≤ (m : ℚ) * 100 * (2 ^ 53 + 1) := by exact_mod_cast h1
  have c2 : (m : ℚ) * 100 * (2 ^ 53 - 1) ≤ (R : ℚ) * 2 ^ 53 := by
    have := (Nat.cast_le (α := ℚ)).mpr h2
    simp only [Nat.cast_mul, cast_pred_pow, Nat.cast_pow, Nat.cast_ofNat] at this
    exact this
  generalize (2 : ℚ) ^ e = p at *
  constructor
  · have h3 := mul_le_mul_of_nonneg_right c1 (le_of_lt hp)
    calc (R : ℚ) * p * 2 ^ 53 = (R : ℚ) * 2 ^ 53 * p := by ring
      _ ≤ (m : ℚ) * 100 * (2 ^ 53 + 1) * p := h3
      _ = 100 * ((m : ℚ) * p) * (2 ^ 53 + 1) := by ring
  · have h3 := mul_le_mul_of_nonneg_right c2 (le_of_lt hp)
    calc 100 * ((m : ℚ) * p) * (2 ^ 53 - 1) = (m : ℚ) * 100 * (2 ^ 53 - 1) * p := by ring
      _ ≤ (R : ℚ) * 2 ^ 53 * p := h3
      _ = (R : ℚ) * p * 2 ^ 53 := by ring

theorem two_zpow_split (e : Int) :
    (2 : ℚ) ^ e * (2 : ℚ) ^ (-e).toNat = (2 : ℚ) ^ e.toNat := by
  rcases le_total 0 e with he | he
  · have e1 : (-e).toNat = 0 := by omega
    have e2 : ((e.toNat : Nat) : Int) = e := Int.toNat_of_nonneg he
    rw [e1, pow_zero, mul_one, ← zpow_natCast (2 : ℚ) e.toNat, e2]
  · have e1 : e.toNat = 0 := by omega
    have e2 : (((-e).toNat : Nat) : Int) = -e := Int.toNat_of_nonneg (by omega)
    rw [e1, pow_zero, ← zpow_natCast (2 : ℚ) (-e).toNat, e2, ← zpow_add₀ (by norm_num)]
    simp

/-- The verb `%0.2f` prints a number of hundredths nearest to the value. -/
theorem format2_nearest (m : Nat) (e : Int) :
    ∃ n : Nat, (n : ℚ) ≤ 100 * (F64.fin m e).val + 1 / 2 ∧
      100 * (F64.fin m e).val ≤ (n : ℚ) + 1 / 2 ∧
      (F64.fin m e).format2 = twoDecimals n := by
  have hden : 0 < 2 ^ (-e).toNat := Nat.pow_pos (by decide)
  obtain ⟨h1, h2⟩ := round_half_even_near (m * 100 * 2 ^ e.toNat) (2 ^ (-e).toNat) hden
  obtain ⟨n, hn⟩ : ∃ n, n = (if 2 * (m * 100 * 2 ^ e.toNat % 2 ^ (-e).toNat) > 2 ^ (-e).toNat ∨
          (2 * (m * 100 * 2 ^ e.toNat % 2 ^ (-e).toNat) = 2 ^ (-e).toNat ∧
            m * 100 * 2 ^ e.toNat / 2 ^ (-e).toNat % 2 = 1)
        then m * 100 * 2 ^ e.toNat / 2 ^ (-e).toNat + 1
        else m * 100 * 2 ^ e.toNat / 2 ^ (-e).toNat) := ⟨_, rfl⟩
  rw [← hn] at h1 h2
  have hf : (F64.fin m e).format2
      = Itoa (n / 100) ++ "." ++ (if n % 100 < 10 then "0" else "") ++ Itoa (n % 100) := by
    rw [hn]
    rfl
  have htext : (F64.fin m e).format2 = twoDecimals n := by
    rw [hf]
    unfold twoDecimals
    have hdig : n % 100 % 10 = n % 10 := by omega
    rw [String.append_assoc, pad_two_digits (n % 100) (Nat.mod_lt _ (by decide)), hdig]
  have hval : 100 * (F64.fin m e).val * (2 : ℚ) ^ (-e).toNat
      = ((m * 100 * 2 ^ e.toNat : Nat) : ℚ) := by
    rw [val_fin]
    push_cast
    rw [← two_zpow_split e]
    ring
  have hp : (0 : ℚ) < (2 : ℚ) ^ (-e).toNat := by positivity
  have c1 : 2 * ((n : ℚ) * (2 : ℚ) ^ (-e).toNat)
      ≤ 2 * ((m * 100 * 2 ^ e.toNat : Nat) : ℚ) + (2 : ℚ) ^ (-e).toNat := by
    exact_mod_cast h1
  have c2 : 2 * ((m * 100 * 2 ^ e.toNat : Nat) : ℚ)
      ≤ 2 * ((n : ℚ) * (2 : ℚ) ^ (-e).toNat) + (2 : ℚ) ^ (-e).toNat := by
    exact_mod_cast h2
  rw [← hval] at c1 c2
  generalize (2 : ℚ) ^ (-e).toNat = p at *
  generalize (F64.fin m e).val = v at *
  refine ⟨n, ?_, ?_, htext⟩
  · by_contra hc
    have : 100 * v + 1 / 2 < (n : ℚ) := lt_of_not_le hc
    nlinarith
  · by_contra hc
    have : (n : ℚ) + 1 / 2 < 100 * v := lt_of_not_le hc
    nlinarith

/-- The percentage text of `w` of `total`: a number `H` of hundredths printed
with two decimals, where `H` is within a half of `10000 * w / total` up to the
relative rounding error `2^(-51)` of the two `float64` operations; as long as
`20000 * w < 2^52` the rounding error cannot pass a half and `H` is a natural
number nearest to `10000 * w / total`. -/
theorem pctText_near (w total : Nat) (ht : 1 ≤ total) (htb : total < 2 ^ 53)
    (hwb : w < 2 ^ 53) :
    ∃ H : Nat, pctText w total = twoDecimals H ∧
      2 ^ 51 * (2 * (H * total)) ≤ 2 ^ 51 * (20000 * w + total) + 20000 * w ∧
      2 ^ 51 * (20000 * w) ≤ 2 ^ 51 * (2 * (H * total) + total) + 20000 * w ∧
      (20000 * w < 2 ^ 52 →
        2 * (H * total) ≤ 20000 * w + total ∧ 20000 * w ≤ 2 * (H * total) + total) := by
  have ht0 : total ≠ 0 := by omega
  have h100 : F64.ofNat 100 = F64.fin 100 0 := ofNat_small 100 (by norm_num)
  unfold pctText
  rw [ofNat_small w hwb, ofNat_small total htb, h100]
  by_cases hw0 : w = 0
  · subst hw0
    rw [div_fin_zero total 0 0 ht0]
    exact ⟨0, by decide, by omega, by omega, fun _ => ⟨by omega, by omega⟩⟩
  · obtain ⟨d, ed, hd, _⟩ := div_is_fin w total 0 0 ht0
    obtain ⟨a1, b1⟩ := val_div_near w total hw0 ht0
    rw [hd] at a1 b1 ⊢
    obtain ⟨a2, b2⟩ := val_mul100_near d ed
    have hx : (F64.fin d ed).mul (F64.fin 100 0)
        = F64.fin (rbMant (d * 100) false) (ed + 0 + rbShift (d * 100)) :=
      roundBits_eq _ _ _
    rw [hx] at a2 b2 ⊢
    obtain ⟨n, a3, b3, htext⟩ :=
      format2_nearest (rbMant (d * 100) false) (ed + 0 + rbShift (d * 100))
    generalize (F64.fin (rbMant (d * 100) false) (ed + 0 + rbShift (d * 100))).val = X
      at a2 b2 a3 b3
    generalize (F64.fin d ed).val = D at a1 b1 a2 b2
    have htq : (0 : ℚ) < (total : ℚ) := by exact_mod_cast ht
    have hwq0 : (0 : ℚ) ≤ (w : ℚ) := Nat.cast_nonneg _
    have a2t := mul_le_mul_of_nonneg_right a2 (le_of_lt htq)
    have b2t := mul_le_mul_of_nonneg_right b2 (le_of_lt htq)
    have a3t := mul_le_mul_of_nonneg_right a3 (le_of_lt htq)
    have b3t := mul_le_mul_of_nonneg_right b3 (le_of_lt htq)
    have eX : X * 2 ^ 53 * (total : ℚ) = (X * total) * 2 ^ 53 := by ring
    have eD1 : 100 * D * (2 ^ 53 + 1) * (total : ℚ) = 100 * (D * total) * (2 ^ 53 + 1) := by ring
    have eD2 : 100 * D * (2 ^ 53 - 1) * (total : ℚ) = 100 * (D * total) * (2 ^ 53 - 1) := by ring
    have eN1 : (100 * X + 1 / 2) * (total : ℚ) = 100 * (X * total) + total / 2 := by ring
    have eN2 : ((n : ℚ) + 1 / 2) * (total : ℚ) = n * total + total / 2 := by ring
    have eN3 : 100 * X * (total : ℚ) = 100 * (X * total) := by ring
    rw [eX, eD1] at a2t
    rw [eX, eD2] at b2t
    rw [eN1] at a3t
    rw [eN2, eN3] at b3t
    generalize X * (total : ℚ) = Xt at *
    generalize D * (total : ℚ) = Dt at *
    generalize hNT : (n : ℚ) * (total : ℚ) = NT at *
    norm_num at a1 a2t a3t b1 b2t b3t
    refine ⟨n, htext, ?_, ?_, ?_⟩
    · have hq : (2 : ℚ) ^ 51 * (2 * NT) ≤ 2 ^ 51 * (20000 * (w : ℚ) + total) + 20000 * w := by
        norm_num
        linarith
      have hq' : ((2 ^ 51 * (2 * (n * total)) : Nat) : ℚ)
          ≤ ((2 ^ 51 * (20000 * w + total) + 20000 * w : Nat) : ℚ) := by
        push_cast
        rw [hNT]
        exact hq
      exact Nat.cast_le.mp hq'
    · have hq : (2 : ℚ) ^ 51 * (20000 * (w : ℚ)) ≤ 2 ^ 51 * (2 * NT + total) + 20000 * w := by
        norm_num
        linarith
      have hq' : ((2 ^ 51 * (20000 * w) : Nat) : ℚ)
          ≤ ((2 ^ 51 * (2 * (n * total) + total) + 20000 * w : Nat) : ℚ) := by
        push_cast
        rw [hNT]
        exact hq
      exact Nat.cast_le.mp hq'
    · intro hw
      have hwq : 20000 * (w : ℚ) ≤ 4503599627370495 := by
        have : 20000 * w ≤ 4503599627370495 := by
          have h252 : (2 : Nat) ^ 52 = 4503599627370496 := by norm_num
          omega
        exact_mod_cast this
      constructor
      · have hq : 2 * NT < 20000 * (w : ℚ) + total + 1 := by linarith
        have hq' : ((2 * (n * total) : Nat) : ℚ) < ((20000 * w + total + 1 : Nat) : ℚ) := by
          push_cast
          rw [hNT]
          exact hq
        have := Nat.cast_lt.mp hq'
        omega
      · have hq : 20000 * (w : ℚ) < 2 * NT + total + 1 := by linarith
        have hq' : ((20000 * w : Nat) : ℚ) < ((2 * (n * total) + total + 1 : Nat) : ℚ) := by
          push_cast
          rw [hNT]
          exact hq
        have := Nat.cast_lt.mp hq'
        omega

/-! ## Claims on the node statement, the font size and the invariant of the walk -/

/-- C10: the statement written for a node with ID `i`, label `l` and weight `w`,
given `total` goroutines, is exactly
`N<i> [fontsize="<f>",label="<L>",shape="box"];` and a newline, where `f` is the
decimal font size, a number from 8 to 24, and `L` is the escaped text `l`,
newline, `<w> of <total> (<p>%)`; the attributes are `fontsize`, `label`,
`shape`, in this order, separated by commas without spaces. The percentage `p`
is a number `H` of hundredths printed with two decimals, where `H` is within a
half of `10000 * w / total` up to the relative rounding error `2^(-51)` of the
two float64 operations, and is a natural number nearest to `10000 * w / total`
as long as `20000 * w < 2^52` (the counts are below `2^53`, as every count of
frames held in memory is). With weight 2 of 2 goroutines the label ends in
`2 of 2 (100.00%)`; 1 of 3 prints `33.33`, 2 of 3 `66.67`, 1 of 8 `12.50`,
1 of 200 `0.50` and 3 of 2 `150.00`. -/
theorem C10_node_statement (out : String) (n : node) (total max : Nat) :
    nodeStmt out n total max = out ++ ("N" ++ Itoa n.ID ++ " [fontsize=\""
      ++ Itoa (fontSize max n.Weight) ++ "\",label=\""
      ++ dotQuote (n.Label ++ "\n" ++ Itoa n.Weight ++ " of " ++ Itoa total ++ " ("
          ++ pctText n.Weight total ++ "%)")
      ++ "\",shape=\"box\"];\n") ∧
    (1 ≤ total → total < 2 ^ 53 → n.Weight < 2 ^ 53 →
      ∃ H : Nat, pctText n.Weight total = twoDecimals H ∧
        2 ^ 51 * (2 * (H * total)) ≤ 2 ^ 51 * (20000 * n.Weight + total) + 20000 * n.Weight ∧
        2 ^ 51 * (20000 * n.Weight) ≤ 2 ^ 51 * (2 * (H * total) + total) + 20000 * n.Weight ∧
        (20000 * n.Weight < 2 ^ 52 →
          2 * (H * total) ≤ 20000 * n.Weight + total ∧
          20000 * n.Weight ≤ 2 * (H * total) + total)) ∧
    (8 ≤ fontSize max n.Weight ∧ fontSize max n.Weight ≤ 24) ∧
    nodeLabel ⟨n.ID, n.Label, 2⟩ 2 = n.Label ++ "\n2 of 2 (100.00%)" ∧
    nodeStmt "" ⟨0, "pkg.F", 2⟩ 2 2
      = "N0 [fontsize=\"24\",label=\"pkg.F\n2 of 2 (100.00%)\",shape=\"box\"];\n" ∧
    nodeStmt "" ⟨1, "pkg.G", 1⟩ 3 2
      = "N1 [fontsize=\"20\",label=\"pkg.G\n1 of 3 (33.33%)\",shape=\"box\"];\n" ∧
    pctText 2 3 = "66.67" ∧ pctText 1 8 = "12.50" ∧ pctText 1 200 = "0.50" ∧
    pctText 3 2 = "150.00" ∧ twoDecimals 1250 = "12.50" ∧ twoDecimals 5 = "0.05" := by
  refine ⟨?_, ?_, fontSize_range _ _, ?_, ?_, ?_, ?_, ?_, ?_, ?_, ?_, ?_⟩
  · have hbox : dotQuote "box" = "box" := by decide
    simp only [nodeStmt, nodeDot, nodeDotLoop, nodeLabel, outputString, outputByte,
      dotQuote_Itoa, hbox]
    apply String.ext
    simp [String.data_append, String.data_push]
  · intro ht htb hwb
    exact pctText_near n.Weight total ht htb hwb
  · have h2 : Itoa 2 = "2" := by decide
    simp [nodeLabel, pctText_two_two, h2, String.append_assoc]
  · set_option maxRecDepth 100000 in decide
  · set_option maxRecDepth 100000 in decide
  · set_option maxRecDepth 100000 in decide
  · set_option maxRecDepth 100000 in decide
  · set_option maxRecDepth 100000 in decide
  · set_option maxRecDepth 100000 in decide
  · decide
  · decide


theorem RegInv.max_mem {st : State} {cs : List Call} (h : RegInv st cs) (hne : st.nodes ≠ []) :
    ∃ n ∈ st.nodes, n.Weight = st.max := by
  rcases h.max_attained with h1 | h1
  · obtain ⟨n₀, hn₀⟩ := List.exists_mem_of_ne_nil st.nodes hne
    refine ⟨n₀, hn₀, ?_⟩
    have := h.weight_pos n₀ hn₀
    have := h.max_ge n₀ hn₀
    omega
  · exact h1

theorem RegInv.max_eq_pass {st : State} {cs : List Call} (h : RegInv st cs) (hne : st.nodes ≠ []) :
    st.max = maxWeightPass st.nodes := by
  obtain ⟨n, hn, hnw⟩ := h.max_mem hne
  obtain ⟨_, h2, h3⟩ := foldl_max_spec st.nodes 0
  unfold maxWeightPass
  have hle := h2 n hn
  rcases h3 with e | ⟨m, hm, e⟩
  · have := h.weight_pos n hn
    omega
  · have := h.max_ge m hm
    omega

theorem RegInv.max_le_frames {st : State} {cs : List Call} (h : RegInv st cs)
    (hne : st.nodes ≠ []) : st.max ≤ cs.length := by
  obtain ⟨n, hn, hnw⟩ := h.max_mem hne
  rw [← hnw, ← h.wsum]
  exact List.single_le_sum (fun _ _ => Nat.zero_le _) _ (List.mem_map.mpr ⟨n, hn, rfl⟩)

/-- C14: for every input the walk returns a graph, and for every node of it the
font size (the number written as the `fontsize` attribute) is `8` plus
`int(math.Ceil(16 * math.Sqrt(float64(Weight) / float64(max))))`, the guard of
line 152 being true; it lies between 8 and 24 inclusive; it is exactly 24 when
`Weight = max`; and it is the exact-arithmetic value, 8 plus the least natural
`k` with `k*k*max ≥ 256*Weight`, as long as `max ≤ 2^45`, a number of frames
no input held in memory reaches. For a graph with at least one node `max` is
the maximum node weight, it is at most the number of frames, and some node has
font size 24. On the stacks `[a, b]`, `[a, c]` the font sizes are 24, 20, 20. -/
theorem C14_font_size (gs : List (List Call)) :
    (∃ st, aggregate gs = some st ∧
      (∀ n ∈ st.nodes,
        fontSize st.max n.Weight
          = 8 + ((F64.fin 16 0).mul
              (F64.div (F64.ofNat n.Weight) (F64.ofNat st.max)).sqrt).ceilInt ∧
        8 ≤ fontSize st.max n.Weight ∧ fontSize st.max n.Weight ≤ 24 ∧
        (n.Weight = st.max → fontSize st.max n.Weight = 24) ∧
        (st.max ≤ 2 ^ 45 →
          ∃ k, 256 * n.Weight ≤ k * k * st.max ∧
            (∀ j, j < k → j * j * st.max < 256 * n.Weight) ∧
            fontSize st.max n.Weight = 8 + k)) ∧
      (st.nodes ≠ [] →
        st.max = maxWeightPass st.nodes ∧ st.max ≤ gs.flatten.length ∧
        ∃ n ∈ st.nodes, fontSize st.max n.Weight = 24)) ∧
    (aggregate [[⟨"a.go:1", "pkg.A"⟩, ⟨"b.go:2", "pkg.B"⟩],
        [⟨"a.go:1", "pkg.A"⟩, ⟨"c.go:3", "pkg.C"⟩]]).map
      (fun st => st.nodes.map (fun n => (n.Weight, fontSize st.max n.Weight)))
      = some [(2, 24), (1, 20), (1, 20)] := by
  refine ⟨?_, by set_option maxRecDepth 100000 in decide⟩
  obtain ⟨st, hagg, hreg, _⟩ := aggregate_spec gs
  refine ⟨st, hagg, ?_, ?_⟩
  · intro n hn
    have hpos := hreg.weight_pos n hn
    have hle := hreg.max_ge n hn
    refine ⟨fontSize_of_guard st.max n.Weight (by omega) (by omega) hle,
      (fontSize_range _ _).1, (fontSize_range _ _).2, ?_, ?_⟩
    · intro e
      rw [e]
      exact fontSize_max st.max (by omega)
    · intro h45
      have hex : ∃ k, 256 * n.Weight ≤ k * k * st.max := ⟨16, by omega⟩
      refine ⟨Nat.find hex, Nat.find_spec hex, ?_, ?_⟩
      · intro j hj
        exact Nat.lt_of_not_le (Nat.find_min hex hj)
      · exact fontSize_exact st.max n.Weight (Nat.find hex) (by omega) hle h45
          (Nat.find_spec hex) (fun j hj => Nat.lt_of_not_le (Nat.find_min hex hj))
  · intro hne
    refine ⟨hreg.max_eq_pass hne, hreg.max_le_frames hne, ?_⟩
    obtain ⟨n, hn, hnw⟩ := hreg.max_mem hne
    refine ⟨n, hn, ?_⟩
    rw [hnw]
    exact fontSize_max st.max hreg.max_pos

/-- C15: for every input the walk returns a graph, and for any two nodes `n1`,
`n2` of it with `n1.Weight ≤ n2.Weight`, the font size written for `n1` is at
most the font size written for `n2`. -/
theorem C15_font_size_monotone (gs : List (List Call)) :
    ∃ st, aggregate gs = some st ∧
      ∀ n1 ∈ st.nodes, ∀ n2 ∈ st.nodes, n1.Weight ≤ n2.Weight →
        fontSize st.max n1.Weight ≤ fontSize st.max n2.Weight := by
  obtain ⟨st, hagg, hreg, _⟩ := aggregate_spec gs
  refine ⟨st, hagg, ?_⟩
  intro n1 _ n2 hn2 h
  exact fontSize_mono st.max n1.Weight n2.Weight h (hreg.max_ge n2 hn2)

/-- C19: after every prefix of the walk (the input cut after `i` frames of
goroutine `j`), and after the whole walk, every node has `1 ≤ Weight ≤ max`, so
that the guard `max > 0 && Weight > 0 && float64(Weight) <= float64(max)` of the
font size is true; every key of the edge map has `Source < N` and `Target < N`
for `N` the number of nodes; and every stored edge count is at least 1. -/
theorem C19_walk_wellformed (gs : List (List Call)) (j i : Nat) :
    (∃ st, aggregate (truncate gs j i) = some st ∧
      (∀ n ∈ st.nodes, 1 ≤ n.Weight ∧ n.Weight ≤ st.max ∧
        (st.max > 0 ∧ n.Weight > 0 ∧
          F64.le (F64.ofNat n.Weight) (F64.ofNat st.max) = true)) ∧
      (∀ p ∈ st.edges, p.1.Source < st.nodes.length ∧ p.1.Target < st.nodes.length ∧ 1 ≤ p.2)) ∧
    (∃ st, aggregate gs = some st ∧
      (∀ n ∈ st.nodes, 1 ≤ n.Weight ∧ n.Weight ≤ st.max ∧
        (st.max > 0 ∧ n.Weight > 0 ∧
          F64.le (F64.ofNat n.Weight) (F64.ofNat st.max) = true)) ∧
      (∀ p ∈ st.edges, p.1.Source < st.nodes.length ∧ p.1.Target < st.nodes.length ∧ 1 ≤ p.2)) := by
  have key : ∀ gs' : List (List Call), ∃ st, aggregate gs' = some st ∧
      (∀ n ∈ st.nodes, 1 ≤ n.Weight ∧ n.Weight ≤ st.max ∧
        (st.max > 0 ∧ n.Weight > 0 ∧
          F64.le (F64.ofNat n.Weight) (F64.ofNat st.max) = true)) ∧
      (∀ p ∈ st.edges, p.1.Source < st.nodes.length ∧ p.1.Target < st.nodes.length ∧
        1 ≤ p.2) := by
    intro gs'
    obtain ⟨st, hagg, hreg, _⟩ := aggregate_spec gs'
    have hE := aggregate_edgeInv gs' st hagg
    refine ⟨st, hagg, ?_, ?_⟩
    · intro n hn
      have hpos := hreg.weight_pos n hn
      have hle := hreg.max_ge n hn
      exact ⟨hpos, hle, by omega, by omega, le_ofNat _ _ hle⟩
    · intro p hp
      obtain ⟨h1, h2, h3⟩ := hE.entry p hp
      exact ⟨h2, h3, h1⟩
  exact ⟨key _, key _⟩

end Gostack2dot
